import Mathlib

/-!
# ShortestPathfinder

A shallow embedding of `graph.cpp` / `vertex.h`: the directed weighted graph, the two
shortest-path searches (`shortestPathDijkstra`, `shortestPathBellmanFord`), the random
generator (`generateGraph`) and the text codec (`convertToText`, `setUpFromText`).

Conventions of the embedding

* Vertex indices are `Nat`, edge weights are `Int`.  A graph of the program stores `int`
  weights; the theorems hold for all integer weights, in particular for these.
* Arithmetic on `int` is that of a 32-bit two's complement machine: the result of an `int`
  addition is reduced modulo `2 ^ 32` into the range `-2147483648 .. 2147483647`
  (`wrapInt`).  The C++ standard leaves signed overflow undefined; this is what the
  compiled program does.  The additions concerned are `pathLength += ...` in both searches
  and `distance[u] + weight` in the relaxation search.
* `prev[v] == -1` is `none`; `dist[v] == numeric_limits<double>::max()` is `none`.  The
  `double` distances of the priority-queue search hold sums of `int` weights along paths,
  which `double` represents exactly as long as they stay below `2 ^ 53` (a path of fewer
  than `2 ^ 22` edges always does), so a finite distance is an `Int` and `dist[u] + weight`
  is an exact sum.
* `std::priority_queue` with the comparator `a.second > b.second` hands out an entry of
  least key; which one among several least entries depends on the heap layout.  The queue
  is a list of entries and every pop takes a number `tie k` that selects among the least
  entries, so that a statement for all `tie` covers every heap implementation.
* `size_t` subtraction wraps around at `2 ^ 64`, and a read past the end of a vector is the
  outcome `outOfRange`.
* The mark `INT_MAX` of the relaxation search is the number 2147483647, as in the source, so
  a distance can coincide with it.
* The two searches are member functions that are not `const`.  Besides their embedding as
  functions of the graph, their bodies are embedded as computations on the state of the
  object (`shortestPathDijkstraM`, `shortestPathBellmanFordM`), from which the object after
  a call is read off.
* Loops without a syntactic bound carry fuel; the outcome `diverges` is returned when it
  runs out.
-/

namespace ShortestPathfinder

/-! ## Data model -/

/-- Vertex of `vertex.h`: its index and its outgoing `(neighbor, weight)` pairs. -/
structure Vertex where
  index : Nat
  edges : List (Nat × Int)
deriving DecidableEq

/-- Graph of `graph.h`. -/
structure Graph where
  vertices : List Vertex
  size : Nat
  edgeCount : Nat
deriving DecidableEq

/-- Constructor `Graph::Graph(numberOfVertices)`. -/
def Graph.create (numberOfVertices : Nat) : Graph :=
  { vertices := (List.range numberOfVertices).map (fun i => { index := i, edges := [] })
    size := numberOfVertices
    edgeCount := 0 }

/-- Method `Graph::addEdge(u, v, w)`: `vertices[u].edges.emplace_back(v, w); edgeCount++`. -/
def Graph.addEdge (g : Graph) (u v : Nat) (w : Int) : Graph :=
  { g with
    vertices := match g.vertices[u]? with
      | none => g.vertices
      | some x => g.vertices.set u { x with edges := x.edges ++ [(v, w)] }
    edgeCount := g.edgeCount + 1 }

/-- Adjacency list `vertices[u].edges`. -/
def Graph.edgesOf (g : Graph) (u : Nat) : List (Nat × Int) :=
  match g.vertices[u]? with
  | none => []
  | some x => x.edges

/-- Outcome of a search: a path with its total weight, the `runtime_error` of the
priority-queue search, a read past the end of a vector, or a loop that does not stop. -/
inductive Outcome where
  | ok (path : List Nat) (pathLength : Int)
  | noPathFound
  | outOfRange
  | diverges
deriving DecidableEq

/-! ## Arithmetic of `int` -/

/-- Constant `INT_MAX` of a 32-bit `int`. -/
def INT_MAX : Int := 2147483647

/-- Value of an `int` expression whose exact result is `x`: the number of the range
`-2147483648 .. 2147483647` that differs from `x` by a multiple of `2 ^ 32 = 4294967296`. -/
def wrapInt (x : Int) : Int :=
  (x + 2147483648) % 4294967296 - 2147483648

/-! ## Priority-queue search -/

/-- Arrays and queue of `shortestPathDijkstra`. -/
structure DState where
  dist : List (Option Int)
  prev : List (Option Nat)
  queue : List (Nat × Int)
deriving DecidableEq

/-- Entries of the queue that the comparator allows on top: those of least key. -/
def tops (q : List (Nat × Int)) : List (Nat × Int) :=
  q.filter (fun e => q.all (fun x => decide (e.2 ≤ x.2)))

/-- The calls `queue.top()` and `queue.pop()`: an entry of least key and the queue without it. -/
def popTop (choice : Nat) (q : List (Nat × Int)) : Option ((Nat × Int) × List (Nat × Int)) :=
  match tops q with
  | [] => none
  | c :: cs =>
    let e := (c :: cs).getD (choice % (cs.length + 1)) c
    some (e, q.erase e)

/-- Test `x < dist[v]` where `dist[v]` may still be the initial maximum. -/
def improves (x : Int) : Option Int → Bool
  | none => true
  | some d => decide (x < d)

/-- Body of the edge loop: `if (dist[u] + weight < dist[v]) { ... }`. -/
def relaxEdge (u : Nat) (st : DState) (edge : Nat × Int) : DState :=
  match st.dist.getD u none with
  | none => st
  | some du =>
    if improves (du + edge.2) (st.dist.getD edge.1 none) then
      { dist := st.dist.set edge.1 (some (du + edge.2))
        prev := st.prev.set edge.1 (some u)
        queue := st.queue ++ [(edge.1, du + edge.2)] }
    else st

/-- The loop `while (!queue.empty())` with its `break` at `u == end`. -/
def dijkstraLoop (g : Graph) (end_ : Nat) : Nat → (Nat → Nat) → DState → Option DState
  | 0, _, _ => none
  | fuel + 1, tie, st =>
    match popTop (tie 0) st.queue with
    | none => some st
    | some (e, q) =>
      if e.1 = end_ then some { st with queue := q }
      else
        dijkstraLoop g end_ fuel (fun k => tie (k + 1))
          ((g.edgesOf e.1).foldl (relaxEdge e.1) { st with queue := q })

/-- The term `static_cast<int>(dist[at] - dist[prev[at]])`: the difference of the two
`double` values as an `int`.  Along a path that the search returns the difference is the
weight of an edge, an `int` that the cast leaves as it is. -/
def distDelta (dist : List (Option Int)) (a p : Nat) : Int :=
  match dist.getD a none, dist.getD p none with
  | some x, some y => wrapInt (x - y)
  | _, _ => 0

/-- The loop `for (int at = end; at != -1; at = prev[at])` with the `int` addition
`pathLength += static_cast<int>(dist[at] - dist[prev[at]])`. -/
def dijkstraWalk (prev : List (Option Nat)) (dist : List (Option Int)) :
    Nat → Nat → List Nat → Int → Option (List Nat × Int)
  | 0, _, _, _ => none
  | fuel + 1, a, path, pathLength =>
    match prev.getD a none with
    | none => some (path ++ [a], pathLength)
    | some p =>
      dijkstraWalk prev dist fuel p (path ++ [a]) (wrapInt (pathLength + distDelta dist a p))

/-- Number of edges stored in the graph. -/
def Graph.edgeTotal (g : Graph) : Nat :=
  (g.vertices.map (fun x => x.edges.length)).sum

/-- Initial arrays and queue: `dist[start] = 0; queue.emplace(start, 0)`. -/
def dijkstraInit (g : Graph) (start : Nat) : DState :=
  { dist := (List.replicate g.size none).set start (some 0)
    prev := List.replicate g.size none
    queue := [(start, 0)] }

/-- Method `Graph::shortestPathDijkstra(start, end)`.  The `while` loop gets fuel for
`edgeTotal + 2` iterations: with positive weights at most one entry is pushed per edge
besides the seed, so the loop ends earlier (`dijkstraLoop_post`).  The walk along `prev`
gets fuel for `size` iterations, the length of the longest path without a repeated vertex. -/
def Graph.shortestPathDijkstra (tie : Nat → Nat) (g : Graph) (start end_ : Nat) : Outcome :=
  match dijkstraLoop g end_ (g.edgeTotal + 2) tie (dijkstraInit g start) with
  | none => .diverges
  | some st =>
    match st.prev.getD end_ none with
    | none => .noPathFound
    | some _ =>
      match dijkstraWalk st.prev st.dist g.size end_ [] 0 with
      | none => .diverges
      | some (path, pathLength) => .ok path.reverse pathLength

/-! ## Relaxation search -/

/-- Arrays of `shortestPathBellmanFord`. -/
structure BState where
  distance : List Int
  predecessor : List (Option Nat)
deriving DecidableEq

/-- Body of the edge loop:
`if (distance[u] != INT_MAX && distance[u] + weight < distance[v]) { ... }`, where
`distance[u] + weight` is a sum of two `int`. -/
def bfRelax (u : Nat) (st : BState) (edge : Nat × Int) : BState :=
  if st.distance.getD u INT_MAX ≠ INT_MAX ∧
      wrapInt (st.distance.getD u INT_MAX + edge.2) < st.distance.getD edge.1 INT_MAX then
    { distance := st.distance.set edge.1 (wrapInt (st.distance.getD u INT_MAX + edge.2))
      predecessor := st.predecessor.set edge.1 (some u) }
  else st

/-- One pass `for (int u = 0; u < size; u++)` over all edges. -/
def bfPass (g : Graph) (st : BState) : BState :=
  (List.range g.size).foldl (fun s u => (g.edgesOf u).foldl (bfRelax u) s) st

/-- The passes `for (int i = 0; i < size - 1; i++)`. -/
def bfPasses (g : Graph) : Nat → BState → BState
  | 0, st => st
  | k + 1, st => bfPasses g k (bfPass g st)

/-- Initial arrays: `distance[start] = 0`. -/
def bfInit (g : Graph) (start : Nat) : BState :=
  { distance := (List.replicate g.size INT_MAX).set start 0
    predecessor := List.replicate g.size none }

/-- The loop `for (int at = end; at != -1; at = predecessor[at]) path.push_back(at)`. -/
def bfWalk (predecessor : List (Option Nat)) : Nat → Nat → List Nat → Option (List Nat)
  | 0, _, _ => none
  | fuel + 1, a, path =>
    match predecessor.getD a none with
    | none => some (path ++ [a])
    | some p => bfWalk predecessor fuel p (path ++ [a])

/-- Inner loop of the summation: the weight of the first edge of `edges` whose neighbor is
`v` (then `break`), nothing when there is none. -/
def firstWeight (edges : List (Nat × Int)) (v : Nat) : Int :=
  match edges.find? (fun edge => edge.1 == v) with
  | some edge => edge.2
  | none => 0

/-- The loop `for (size_t i = 0; i < path.size() - 1; ++i)`, given the number of iterations
still to run; `path[i]` and `path[i + 1]` are reads of the vector, and
`pathLength += edge.second` is an `int` addition. -/
def bfSum (g : Graph) (path : List Nat) : Nat → Nat → Int → Option Int
  | 0, _, pathLength => some pathLength
  | k + 1, i, pathLength =>
    match path[i]?, path[i + 1]? with
    | some u, some v =>
      bfSum g path k (i + 1) (wrapInt (pathLength + firstWeight (g.edgesOf u) v))
    | _, _ => none

/-- Value of the `size_t` expression `path.size() - 1`: the difference when it is not
negative, otherwise the difference plus `2 ^ 64 = 18446744073709551616`. -/
def sizeMinusOne (path : List Nat) : Nat :=
  if 1 ≤ path.length then path.length - 1 else path.length + 18446744073709551616 - 1

/-- The path after `std::reverse` and after
`if (path.size() == 1 && path[0] != start) path.clear()`. -/
def bfPath (start : Nat) (pushed : List Nat) : List Nat :=
  if pushed.reverse.length = 1 ∧ pushed.reverse.head? ≠ some start then [] else pushed.reverse

/-- The summation of the weights along `path` and the `return {path, pathLength}`. -/
def bfFinish (g : Graph) (path : List Nat) : Outcome :=
  match bfSum g path (sizeMinusOne path) 0 0 with
  | none => .outOfRange
  | some pathLength => .ok path pathLength

/-- Method `Graph::shortestPathBellmanFord(start, end)`. -/
def Graph.shortestPathBellmanFord (g : Graph) (start end_ : Nat) : Outcome :=
  match bfWalk (bfPasses g (g.size - 1) (bfInit g start)).predecessor g.size end_ [] with
  | none => .diverges
  | some pushed => bfFinish g (bfPath start pushed)

/-! ## Generator -/

/-- Pool `directions` before the shuffle: `directions[i * d * 4 + j] = i`. -/
def poolDirections (numberOfVertices desiredOutgoingDegree : Nat) : List Nat :=
  (List.range numberOfVertices).flatMap
    (fun i => (List.range (desiredOutgoingDegree * 4)).map (fun _ => i))

/-- Pool `weights` before the shuffle: `weights[i * d * 4 + j] = (j % 10) + 1`. -/
def poolWeights (numberOfVertices desiredOutgoingDegree : Nat) : List Int :=
  (List.range numberOfVertices).flatMap
    (fun _ => (List.range (desiredOutgoingDegree * 4)).map (fun j => ((j % 10 + 1 : Nat) : Int)))

/-- Variables of the loop of `generateGraph`; the pair index is the position reached in the
pools. -/
structure GenState where
  graph : Graph
  currentVertexIndex : Nat
  edgesAddedToVertex : Nat
  directionsAddedToCurrentVertex : List Nat
deriving DecidableEq

/-- One iteration of `while (currentVertexIndex < numberOfVertices)` on the pair read. -/
def genStep (desiredOutgoingDegree : Nat) (st : GenState) (direction : Nat) (weight : Int) :
    GenState :=
  let st1 : GenState :=
    if direction ≠ st.currentVertexIndex ∧ direction ∉ st.directionsAddedToCurrentVertex then
      { st with
        graph := st.graph.addEdge st.currentVertexIndex direction weight
        edgesAddedToVertex := st.edgesAddedToVertex + 1
        directionsAddedToCurrentVertex := direction :: st.directionsAddedToCurrentVertex }
    else st
  if st1.edgesAddedToVertex = desiredOutgoingDegree then
    { st1 with
      currentVertexIndex := st1.currentVertexIndex + 1
      edgesAddedToVertex := 0
      directionsAddedToCurrentVertex := [] }
  else st1

/-- The loop of `generateGraph` over the part of the two pools not yet read;
`currentPairIndex++` moves to the tail.  `none` is a read past the end of a pool. -/
def genWalk (numberOfVertices desiredOutgoingDegree : Nat) :
    List Nat → List Int → GenState → Option Graph
  | [], _, st => if st.currentVertexIndex < numberOfVertices then none else some st.graph
  | direction :: directions, weights, st =>
    if st.currentVertexIndex < numberOfVertices then
      match weights with
      | [] => none
      | weight :: weights =>
        genWalk numberOfVertices desiredOutgoingDegree directions weights
          (genStep desiredOutgoingDegree st direction weight)
    else some st.graph

/-- Method `Graph::generateGraph`, given the two pools as the shuffles left them. -/
def Graph.generateGraph (numberOfVertices desiredOutgoingDegree : Nat)
    (directions : List Nat) (weights : List Int) : Option Graph :=
  genWalk numberOfVertices desiredOutgoingDegree directions weights
    { graph := Graph.create numberOfVertices
      currentVertexIndex := 0
      edgesAddedToVertex := 0
      directionsAddedToCurrentVertex := [] }

/-! ## Text codec -/

/-- Line written for one vertex: `index`, `edges.size()`, then neighbor and weight of each
edge. -/
def vertexLine (x : Vertex) : List Int :=
  (x.index : Int) :: (x.edges.length : Int) :: x.edges.flatMap (fun edge => [(edge.1 : Int), edge.2])

/-- Method `Graph::convertToText`: the text as its lines, each line as the integers written
to it. -/
def Graph.convertToText (g : Graph) : List (List Int) :=
  [(g.vertices.length : Int)] :: g.vertices.map vertexLine

/-- The loop `for (int i = 0; i < numberOfEdges; ++i)` of `setUpFromText`. -/
def readEdges (vertexIndex : Nat) : Nat → List Int → Graph → Option Graph
  | 0, _, g => some g
  | k + 1, direction :: weight :: rest, g =>
    readEdges vertexIndex k rest (g.addEdge vertexIndex direction.toNat weight)
  | _ + 1, _, _ => none

/-- Body of `while (std::getline(inFile, line))`. -/
def readLine (g : Graph) (line : List Int) : Option Graph :=
  match line with
  | vertexIndex :: numberOfEdges :: rest => readEdges vertexIndex.toNat numberOfEdges.toNat rest g
  | _ => none

/-- The loop `while (std::getline(inFile, line))`. -/
def readLines : List (List Int) → Graph → Option Graph
  | [], g => some g
  | line :: lines, g =>
    match readLine g line with
    | none => none
    | some g1 => readLines lines g1

/-- Method `Graph::setUpFromText` on the text of the file; `none` is malformed input. -/
def Graph.setUpFromText (text : List (List Int)) : Option Graph :=
  match text with
  | (totalVertices :: _) :: lines => readLines lines (Graph.create totalVertices.toNat)
  | _ => none

/-- Graph reached from `Graph(n)` by a sequence of `addEdge(u, v, w)` calls. -/
def Graph.build (n : Nat) (calls : List (Nat × Nat × Int)) : Graph :=
  calls.foldl (fun g c => g.addEdge c.1 c.2.1 c.2.2) (Graph.create n)

/-- Graph of the concrete scenario: edges 0→1 (5), 0→2 (2), 2→1 (2), 1→3 (1). -/
def scenarioGraph : Graph :=
  ((((Graph.create 4).addEdge 0 1 5).addEdge 0 2 2).addEdge 2 1 2).addEdge 1 3 1

/-! ## Predicates of the specification -/

/-- Every stored weight is positive. -/
def Graph.PositiveWeights (g : Graph) : Prop :=
  ∀ x ∈ g.vertices, ∀ e ∈ x.edges, 0 < e.2

instance (g : Graph) : Decidable g.PositiveWeights := by
  unfold Graph.PositiveWeights; infer_instance

/-- The graph has `size` vertices and every stored neighbor is one of them. -/
def Graph.WellFormed (g : Graph) : Prop :=
  g.vertices.length = g.size ∧ ∀ x ∈ g.vertices, ∀ e ∈ x.edges, e.1 < g.size

instance (g : Graph) : Decidable g.WellFormed := by
  unfold Graph.WellFormed; infer_instance

/-- `Walk g s v d`: the graph has a walk from `s` to `v` whose edge weights sum to `d`. -/
inductive Walk (g : Graph) : Nat → Nat → Int → Prop where
  | nil (s : Nat) : Walk g s s 0
  | snoc {s u v : Nat} {d w : Int} : Walk g s u d → (v, w) ∈ g.edgesOf u → Walk g s v (d + w)

/-- `Reachable g s v`: some walk leads from `s` to `v`. -/
def Reachable (g : Graph) (s v : Nat) : Prop := ∃ d, Walk g s v d

/-- Invariant of the relaxation passes without overflow, used for a search from `s`. -/
structure BFSelf (s : Nat) (st : BState) : Prop where
  dist_s : st.distance.getD s INT_MAX = 0
  pred_s : st.predecessor.getD s none = none
  nonneg : ∀ v, 0 ≤ st.distance.getD v INT_MAX

/-! ## Invariant of the generator -/

/-- Vertex `v` has `d` outgoing edges, none to itself and no two to the same target. -/
def VertexFilled (g : Graph) (d v : Nat) : Prop :=
  (g.edgesOf v).length = d ∧ (∀ e ∈ g.edgesOf v, e.1 ≠ v) ∧ ((g.edgesOf v).map Prod.fst).Nodup

/-- Invariant of the loop of `generateGraph`. -/
structure GenInv (n d : Nat) (st : GenState) : Prop where
  len : st.graph.vertices.length = n
  size : st.graph.size = n
  filled : ∀ v, v < st.currentVertexIndex → VertexFilled st.graph d v
  current : VertexFilled st.graph st.edgesAddedToVertex st.currentVertexIndex
  added : ∀ t, t ∈ st.directionsAddedToCurrentVertex ↔
    t ∈ (st.graph.edgesOf st.currentVertexIndex).map Prod.fst
  lt : st.edgesAddedToVertex < d
  later : ∀ v, st.currentVertexIndex < v → st.graph.edgesOf v = []

/-! ## Notions used for the text codec -/

/-- Edges of `x` inserted one by one at vertex `x.index`, as `setUpFromText` does for a line. -/
def fill (g : Graph) (x : Vertex) : Graph :=
  x.edges.foldl (fun h e => h.addEdge x.index e.1 e.2) g

/-- The graph keeps `size` vertices, vertex `i` carries index `i`, and `edgeCount` counts the
stored edges. -/
def Graph.Canonical (g : Graph) : Prop :=
  g.vertices.map (fun x => x.index) = List.range g.size ∧ g.edgeCount = g.edgeTotal

/-! ## Invariants of the priority-queue search -/

/-- Vertex `x` is open: it has no distance yet, or the queue still holds the entry pushed
with its current distance. -/
def isOpen (st : DState) (x : Nat) : Bool :=
  match st.dist.getD x none with
  | none => true
  | some d => decide ((x, d) ∈ st.queue)

/-- Number of edges that leave open vertices. -/
def openEdges (g : Graph) (st : DState) : Nat :=
  ((List.range g.size).map (fun x => if isOpen st x then (g.edgesOf x).length else 0)).sum

/-- Bound on the number of pops still to come. -/
def potential (g : Graph) (st : DState) : Nat :=
  st.queue.length + openEdges g st

/-- Edge `e` out of a vertex with distance `dx` is relaxed. -/
def Relaxed (st : DState) (dx : Int) (e : Nat × Int) : Prop :=
  ∃ dv, st.dist.getD e.1 none = some dv ∧ dv ≤ dx + e.2

/-- Facts about the arrays that hold at every point of the search from `s`. -/
structure DBase (g : Graph) (s : Nat) (st : DState) : Prop where
  dlen : st.dist.length = g.size
  plen : st.prev.length = g.size
  ds : st.dist.getD s none = some 0
  ps : st.prev.getD s none = none
  sound : ∀ v d, st.dist.getD v none = some d → Walk g s v d
  keys : ∀ e ∈ st.queue, ∃ d, st.dist.getD e.1 none = some d ∧ d ≤ e.2
  nodup : st.queue.Nodup
  prevOK : ∀ v u, st.prev.getD v none = some u →
    ∃ w du dv, (v, w) ∈ g.edgesOf u ∧ st.dist.getD u none = some du ∧
      st.dist.getD v none = some dv ∧ du + w ≤ dv
  prevSome : ∀ v d, v ≠ s → st.dist.getD v none = some d → ∃ u, st.prev.getD v none = some u

/-- Invariant at the head of the `while` loop. -/
structure DInv (g : Graph) (s : Nat) (st : DState) extends DBase g s st : Prop where
  relaxed : ∀ x dx, st.dist.getD x none = some dx →
    (x, dx) ∈ st.queue ∨ ∀ e ∈ g.edgesOf x, Relaxed st dx e
  mono : ∀ v dv, st.dist.getD v none = some dv → (v, dv) ∉ st.queue →
    ∀ e ∈ st.queue, dv ≤ e.2

/-- Invariant inside the edge loop of vertex `u`, popped with its current distance `du`,
after the edges `done` have been handled; `st0` is the state right after the pop. -/
structure DMid (g : Graph) (s u : Nat) (du : Int) (st0 : DState) (done : List (Nat × Int))
    (st : DState) extends DBase g s st : Prop where
  du_eq : st.dist.getD u none = some du
  u_out : (u, du) ∉ st.queue
  relaxed : ∀ x dx, st.dist.getD x none = some dx → x ≠ u →
    (x, dx) ∈ st.queue ∨ ∀ e ∈ g.edgesOf x, Relaxed st dx e
  done_relaxed : ∀ e ∈ done, Relaxed st du e
  le_du : ∀ x dx, st.dist.getD x none = some dx → (x, dx) ∉ st.queue → dx ≤ du
  keys_ge : ∀ e ∈ st.queue, du ≤ e.2
  open_iff : ∀ x, isOpen st x = isOpen st0 x
  qlen : st.queue.length ≤ st0.queue.length + done.length

/-- What the reconstruction of the path needs from the state the loop ends in. -/
structure DPost (g : Graph) (s t : Nat) (st : DState) : Prop where
  dlen : st.dist.length = g.size
  ds : st.dist.getD s none = some 0
  ps : st.prev.getD s none = none
  sound : ∀ v d, st.dist.getD v none = some d → Walk g s v d
  prevOK : ∀ v u, st.prev.getD v none = some u →
    ∃ w du dv, (v, w) ∈ g.edgesOf u ∧ st.dist.getD u none = some du ∧
      st.dist.getD v none = some dv ∧ du + w ≤ dv
  prevSome : ∀ v d, v ≠ s → st.dist.getD v none = some d → ∃ u, st.prev.getD v none = some u
  endOpt : ∀ d1, Walk g s t d1 → ∃ d, st.dist.getD t none = some d ∧ d ≤ d1

/-- Least weight of an edge from `u` to `v`, if there is one. -/
def cheapest (g : Graph) (u v : Nat) : Option Int :=
  (((g.edgesOf u).filter (fun e => e.1 == v)).map (fun e => e.2)).min?

/-- Sum over consecutive vertices `u, v` of `path` of the least weight of an edge `u → v`;
`none` when two consecutive vertices are joined by no edge. -/
def pathWeight (g : Graph) : List Nat → Option Int
  | u :: v :: rest =>
    match cheapest g u v, pathWeight g (v :: rest) with
    | some w, some r => some (w + r)
    | _, _ => none
  | _ => some 0

/-- The graph has an edge from `u` to `v`. -/
def HasEdge (g : Graph) (u v : Nat) : Prop := ∃ w, (v, w) ∈ g.edgesOf u

/-! ## Invariant of the relaxation passes -/

/-- Invariant of the relaxation passes: a vertex with a distance or a predecessor is
reachable from `s`. -/
structure BFReach (g : Graph) (s : Nat) (st : BState) : Prop where
  dist_reach : ∀ v, st.distance.getD v INT_MAX ≠ INT_MAX → Reachable g s v
  pred_reach : ∀ v u, st.predecessor.getD v none = some u → Reachable g s v

/-! ## Notions used for the relaxation search -/

/-- Sum over consecutive vertices `u, v` of `path` of the weight of the first edge in the
adjacency list of `u` whose neighbor is `v`. -/
def firstEdgeSum (g : Graph) : List Nat → Int
  | u :: v :: rest => firstWeight (g.edgesOf u) v + firstEdgeSum g (v :: rest)
  | _ => 0

/-! ## States of the `while` loop with the vertices popped so far -/

/-- `LoopRun g s st popped`: the `while` loop of a search from `s` can stand at its head
with arrays and queue `st` after the vertices `popped` (latest first) have been popped and
their edges relaxed.  The loop of `shortestPathDijkstra` passes through such states only;
it leaves them at the first pop of `end`. -/
inductive LoopRun (g : Graph) (s : Nat) : DState → List Nat → Prop where
  | init : LoopRun g s (dijkstraInit g s) []
  | pop {st : DState} {popped : List Nat} {c : Nat} {e : Nat × Int} {q : List (Nat × Int)} :
      LoopRun g s st popped → popTop c st.queue = some (e, q) →
      LoopRun g s ((g.edgesOf e.1).foldl (relaxEdge e.1) { st with queue := q }) (e.1 :: popped)

/-- State of the search from 0 in the concrete scenario after 0, 2 and 1 have been popped:
the queue holds the stale entry `(1, 5)` next to `(3, 5)`. -/
def scenarioMidState : DState :=
  { dist := [some 0, some 4, some 2, some 5]
    prev := [none, some 2, some 0, some 1]
    queue := [(1, 5), (3, 5)] }

/-! ## The priority-queue search without the early exit -/

/-- Variant of `dijkstraLoop` for the comparison with the early exit: the same `while` loop
without the statement `if (u == end) break;`, so that it runs until the queue is empty. -/
def dijkstraLoopFull (g : Graph) : Nat → (Nat → Nat) → DState → Option DState
  | 0, _, _ => none
  | fuel + 1, tie, st =>
    match popTop (tie 0) st.queue with
    | none => some st
    | some (e, q) =>
      dijkstraLoopFull g fuel (fun k => tie (k + 1))
        ((g.edgesOf e.1).foldl (relaxEdge e.1) { st with queue := q })

/-- Variant of `shortestPathDijkstra` whose loop omits the early exit; everything after the
loop is the same. -/
def Graph.shortestPathDijkstraFull (tie : Nat → Nat) (g : Graph) (start end_ : Nat) : Outcome :=
  match dijkstraLoopFull g (g.edgeTotal + 2) tie (dijkstraInit g start) with
  | none => .diverges
  | some st =>
    match st.prev.getD end_ none with
    | none => .noPathFound
    | some _ =>
      match dijkstraWalk st.prev st.dist g.size end_ [] 0 with
      | none => .diverges
      | some (path, pathLength) => .ok path.reverse pathLength

/-- `Stable g s st st1`: every vertex whose distance in `st` is the least weight of a walk
from `s` has the same distance and the same predecessor in `st1`. -/
def Stable (g : Graph) (s : Nat) (st st1 : DState) : Prop :=
  ∀ v d, st.dist.getD v none = some d → (∀ d1, Walk g s v d1 → d ≤ d1) →
    st1.dist.getD v none = some d ∧ st1.prev.getD v none = st.prev.getD v none

/-! ## The relaxation passes without overflow -/

/-- The body `bfRelax` with the sum `distance[u] + weight` taken as the exact integer.  The
proofs compare the passes of the source with the passes built from it: the two coincide as
long as no sum leaves the range of `int`. -/
def bfRelaxExact (u : Nat) (st : BState) (edge : Nat × Int) : BState :=
  if st.distance.getD u INT_MAX ≠ INT_MAX ∧
      st.distance.getD u INT_MAX + edge.2 < st.distance.getD edge.1 INT_MAX then
    { distance := st.distance.set edge.1 (st.distance.getD u INT_MAX + edge.2)
      predecessor := st.predecessor.set edge.1 (some u) }
  else st

/-- The pass `bfPass` built from `bfRelaxExact`. -/
def bfPassExact (g : Graph) (st : BState) : BState :=
  (List.range g.size).foldl (fun s u => (g.edgesOf u).foldl (bfRelaxExact u) s) st

/-- The passes `bfPasses` built from `bfPassExact`. -/
def bfPassesExact (g : Graph) : Nat → BState → BState
  | 0, st => st
  | k + 1, st => bfPassesExact g k (bfPassExact g st)

/-- `SimplePath g s v p d`: `p` lists, last vertex first, the vertices of a walk from `s`
to `v` that visits no vertex twice, and `d` is the sum of its edge weights. -/
inductive SimplePath (g : Graph) (s : Nat) : Nat → List Nat → Int → Prop where
  | nil : SimplePath g s s [s] 0
  | snoc {u v : Nat} {p : List Nat} {d w : Int} :
      SimplePath g s u p d → (v, w) ∈ g.edgesOf u → v ∉ p → SimplePath g s v (v :: p) (d + w)

/-- The sums formed by a search from `s` fit into an `int`: every walk from `s` that visits
no vertex twice, extended by any edge that leaves its last vertex, has total weight at most
`INT_MAX`. -/
def Graph.SumsFit (g : Graph) (s : Nat) : Prop :=
  ∀ u p d, SimplePath g s u p d → ∀ e ∈ g.edgesOf u, d + e.2 ≤ INT_MAX

/-- Every stored weight is at most `m`. -/
def Graph.WeightsAtMost (g : Graph) (m : Int) : Prop :=
  ∀ x ∈ g.vertices, ∀ e ∈ x.edges, e.2 ≤ m

instance (g : Graph) (m : Int) : Decidable (g.WeightsAtMost m) := by
  unfold Graph.WeightsAtMost; infer_instance

/-- `Trail g s distance v p d`: a walk from `s` to `v` that visits no vertex twice, with
vertices `p` (last first) and weight `d`, such that the distance of every vertex after `s`
on it is at most the weight of the walk up to that vertex. -/
inductive Trail (g : Graph) (s : Nat) (distance : List Int) : Nat → List Nat → Int → Prop where
  | nil : Trail g s distance s [s] 0
  | snoc {u v : Nat} {p : List Nat} {d w : Int} :
      Trail g s distance u p d → (v, w) ∈ g.edgesOf u → v ∉ p →
      distance.getD v INT_MAX ≤ d + w → Trail g s distance v (v :: p) (d + w)

/-- Every vertex with a distance is reached by a trail of that weight. -/
def BFTrail (g : Graph) (s : Nat) (st : BState) : Prop :=
  ∀ v, st.distance.getD v INT_MAX ≠ INT_MAX →
    ∃ p, Trail g s st.distance v p (st.distance.getD v INT_MAX)

/-! ## Invariants of the relaxation search -/

/-- Facts about the arrays of `shortestPathBellmanFord` that hold throughout the passes of
a search from `s` as long as no sum `distance[u] + weight` overflows. -/
structure BFInv (g : Graph) (s : Nat) (st : BState) : Prop where
  dlen : st.distance.length = g.size
  plen : st.predecessor.length = g.size
  dist_s : st.distance.getD s INT_MAX = 0
  pred_s : st.predecessor.getD s none = none
  nonneg : ∀ v, 0 ≤ st.distance.getD v INT_MAX
  le_max : ∀ v, st.distance.getD v INT_MAX ≤ INT_MAX
  sound : ∀ v, st.distance.getD v INT_MAX ≠ INT_MAX → Walk g s v (st.distance.getD v INT_MAX)
  predOK : ∀ v u, st.predecessor.getD v none = some u →
    ∃ w, (v, w) ∈ g.edgesOf u ∧ st.distance.getD u INT_MAX ≠ INT_MAX ∧
      st.distance.getD v INT_MAX ≠ INT_MAX ∧
      st.distance.getD u INT_MAX + w ≤ st.distance.getD v INT_MAX
  predSome : ∀ v, v ≠ s → st.distance.getD v INT_MAX ≠ INT_MAX →
    ∃ u, st.predecessor.getD v none = some u

/-- `WalkN g s k v d`: the graph has a walk from `s` to `v` with `k` edges whose weights
sum to `d`. -/
inductive WalkN (g : Graph) (s : Nat) : Nat → Nat → Int → Prop where
  | nil : WalkN g s 0 s 0
  | snoc {k u v : Nat} {d w : Int} :
      WalkN g s k u d → (v, w) ∈ g.edgesOf u → WalkN g s (k + 1) v (d + w)

/-- `BFBound g s j st`: every distance is at most the weight of each walk from `s` with at
most `j` edges and weight below `INT_MAX`. -/
def BFBound (g : Graph) (s : Nat) (j : Nat) (st : BState) : Prop :=
  ∀ i, i ≤ j → ∀ v d, WalkN g s i v d → d < INT_MAX → st.distance.getD v INT_MAX ≤ d

/-- No vertex has two outgoing edges to the same neighbor. -/
def Graph.NoParallelEdges (g : Graph) : Prop :=
  ∀ x ∈ g.vertices, (x.edges.map (fun e => e.1)).Nodup

instance (g : Graph) : Decidable g.NoParallelEdges := by
  unfold Graph.NoParallelEdges; infer_instance

/-! ## The searches as transitions of the `Graph` object

`shortestPathDijkstra` and `shortestPathBellmanFord` are member functions that are not
declared `const`.  Here their bodies are written once more, statement by statement, as
computations on the state of the object `this`: the state is reached only where the body
names a member, and the object after the call is whatever these computations leave. -/

/-- Read of the member `size`. -/
def memberSize : StateM Graph Nat := do
  return (← get).size

/-- Read of the member `vertices[u].edges`, over which a loop
`for (const auto& edge : vertices[u].edges)` runs. -/
def memberEdges (u : Nat) : StateM Graph (List (Nat × Int)) := do
  return (← get).edgesOf u

/-- Number of edges stored in the object, for the fuel of the `while` loop. -/
def memberEdgeTotal : StateM Graph Nat := do
  return (← get).edgeTotal

/-- The loop `while (!queue.empty())` of `shortestPathDijkstra` on the object. -/
def dijkstraLoopM (end_ : Nat) : Nat → (Nat → Nat) → DState → StateM Graph (Option DState)
  | 0, _, _ => pure none
  | fuel + 1, tie, st =>
    match popTop (tie 0) st.queue with
    | none => pure (some st)
    | some (e, q) =>
      if e.1 = end_ then pure (some { st with queue := q })
      else do
        let edges ← memberEdges e.1
        dijkstraLoopM end_ fuel (fun k => tie (k + 1))
          (edges.foldl (relaxEdge e.1) { st with queue := q })

/-- Body of `Graph::shortestPathDijkstra(start, end)` on the object. -/
def shortestPathDijkstraM (tie : Nat → Nat) (start end_ : Nat) : StateM Graph Outcome := do
  let size ← memberSize
  let dist : List (Option Int) := (List.replicate size none).set start (some 0)
  let prev : List (Option Nat) := List.replicate size none
  let fuel ← memberEdgeTotal
  let loop ← dijkstraLoopM end_ (fuel + 2) tie { dist := dist, prev := prev, queue := [(start, 0)] }
  match loop with
  | none => return .diverges
  | some st =>
    match st.prev.getD end_ none with
    | none => return .noPathFound
    | some _ =>
      let size ← memberSize
      match dijkstraWalk st.prev st.dist size end_ [] 0 with
      | none => return .diverges
      | some (path, pathLength) => return .ok path.reverse pathLength

/-- One pass `for (int u = 0; u < size; u++)` of `shortestPathBellmanFord` on the object. -/
def bfPassM (st : BState) : StateM Graph BState := do
  let size ← memberSize
  (List.range size).foldlM
    (fun s u => do
      let edges ← memberEdges u
      return edges.foldl (bfRelax u) s)
    st

/-- The passes `for (int i = 0; i < size - 1; i++)` on the object. -/
def bfPassesM : Nat → BState → StateM Graph BState
  | 0, st => pure st
  | k + 1, st => do
    let st1 ← bfPassM st
    bfPassesM k st1

/-- The summation loop `for (size_t i = 0; i < path.size() - 1; ++i)` on the object. -/
def bfSumM (path : List Nat) : Nat → Nat → Int → StateM Graph (Option Int)
  | 0, _, pathLength => pure (some pathLength)
  | k + 1, i, pathLength =>
    match path[i]?, path[i + 1]? with
    | some u, some v => do
      let edges ← memberEdges u
      bfSumM path k (i + 1) (wrapInt (pathLength + firstWeight edges v))
    | _, _ => pure none

/-- Body of `Graph::shortestPathBellmanFord(start, end)` on the object. -/
def shortestPathBellmanFordM (start end_ : Nat) : StateM Graph Outcome := do
  let size ← memberSize
  let distance : List Int := (List.replicate size INT_MAX).set start 0
  let predecessor : List (Option Nat) := List.replicate size none
  let size1 ← memberSize
  let st ← bfPassesM (size1 - 1) { distance := distance, predecessor := predecessor }
  let size2 ← memberSize
  match bfWalk st.predecessor size2 end_ [] with
  | none => return .diverges
  | some pushed =>
    let path := bfPath start pushed
    let sum ← bfSumM path (sizeMinusOne path) 0 0
    match sum with
    | none => return .outOfRange
    | some pathLength => return .ok path pathLength

/-- The call `shortestPathDijkstra(start, end)` on the object `g`: its outcome and the
object after the call. -/
def Graph.callShortestPathDijkstra (tie : Nat → Nat) (g : Graph) (start end_ : Nat) :
    Outcome × Graph :=
  (shortestPathDijkstraM tie start end_).run g

/-- The call `shortestPathBellmanFord(start, end)` on the object `g`: its outcome and the
object after the call. -/
def Graph.callShortestPathBellmanFord (g : Graph) (start end_ : Nat) : Outcome × Graph :=
  (shortestPathBellmanFordM start end_).run g

/-! # Theorems -/

/-! ## Arithmetic of `int` -/

theorem wrapInt_of_range {x : Int} (h1 : -2147483648 ≤ x) (h2 : x ≤ INT_MAX) :
    wrapInt x = x := by
  unfold INT_MAX at h2
  unfold wrapInt
  omega

theorem wrapInt_add_left (a b : Int) : wrapInt (wrapInt a + b) = wrapInt (a + b) := by
  unfold wrapInt
  omega

theorem wrapInt_add_right (a b : Int) : wrapInt (a + wrapInt b) = wrapInt (a + b) := by
  unfold wrapInt
  omega

theorem wrapInt_wrapInt (x : Int) : wrapInt (wrapInt x) = wrapInt x := by
  unfold wrapInt
  omega

theorem wrapInt_zero : wrapInt 0 = 0 := by
  decide

/-! ## Lists and adjacency -/

theorem getD_set_ne {α : Type} (l : List α) {i j : Nat} (a d : α) (h : i ≠ j) :
    (l.set i a).getD j d = l.getD j d := by
  simp [List.getD_eq_getElem?_getD, List.getElem?_set_ne h]

theorem getD_set_eq {α : Type} (l : List α) {i : Nat} (a d : α) (h : i < l.length) :
    (l.set i a).getD i d = a := by
  simp [List.getD_eq_getElem?_getD, List.getElem?_set_self, h]

theorem getD_set_cases {α : Type} (l : List α) (i j : Nat) (a d : α) :
    (l.set i a).getD j d = a ∨ (l.set i a).getD j d = l.getD j d := by
  by_cases h : i = j
  · subst h
    by_cases hi : i < l.length
    · exact Or.inl (getD_set_eq l a d hi)
    · right
      rw [List.set_eq_of_length_le (by omega)]
  · exact Or.inr (getD_set_ne l a d h)

theorem edgesOf_mem {g : Graph} {u : Nat} {e : Nat × Int} (h : e ∈ g.edgesOf u) :
    ∃ x ∈ g.vertices, e ∈ x.edges := by
  unfold Graph.edgesOf at h
  split at h
  · simp at h
  · next x hx => exact ⟨x, List.getElem?_mem hx, h⟩

theorem edgesOf_pos {g : Graph} (hp : g.PositiveWeights) {u : Nat} {e : Nat × Int}
    (h : e ∈ g.edgesOf u) : 0 < e.2 := by
  obtain ⟨x, hx, he⟩ := edgesOf_mem h
  exact hp x hx e he

/-! ## Searches from a vertex to itself and to an unreachable vertex -/

theorem popTop_singleton (choice : Nat) (e : Nat × Int) : popTop choice [e] = some (e, []) := by
  simp [popTop, tops, Nat.mod_one]

theorem bfRelaxExact_self {s u : Nat} {st : BState} {e : Nat × Int} (he : 0 < e.2)
    (h : BFSelf s st) : BFSelf s (bfRelaxExact u st e) := by
  unfold bfRelaxExact
  split
  · next hc =>
    have hu := h.nonneg u
    have hne : e.1 ≠ s := by
      intro hs
      rw [hs, h.dist_s] at hc
      omega
    refine ⟨?_, ?_, ?_⟩
    · show (st.distance.set e.1 _).getD s INT_MAX = 0
      rw [getD_set_ne _ _ _ hne]; exact h.dist_s
    · show (st.predecessor.set e.1 _).getD s none = none
      rw [getD_set_ne _ _ _ hne]; exact h.pred_s
    · intro v
      show 0 ≤ (st.distance.set e.1 _).getD v INT_MAX
      rcases getD_set_cases st.distance e.1 v (st.distance.getD u INT_MAX + e.2) INT_MAX with h1 | h1
      · rw [h1]; omega
      · rw [h1]; exact h.nonneg v
  · exact h

theorem foldl_bfRelaxExact_self {s u : Nat} (es : List (Nat × Int)) (hes : ∀ e ∈ es, 0 < e.2)
    (st : BState) (h : BFSelf s st) : BFSelf s (es.foldl (bfRelaxExact u) st) := by
  induction es generalizing st with
  | nil => exact h
  | cons e es ih =>
    exact ih (fun x hx => hes x (List.mem_cons_of_mem _ hx)) _
      (bfRelaxExact_self (hes e (List.mem_cons_self _ _)) h)

theorem bfPassExact_self {g : Graph} (hp : g.PositiveWeights) {s : Nat} (st : BState)
    (h : BFSelf s st) : BFSelf s (bfPassExact g st) := by
  unfold bfPassExact
  generalize List.range g.size = us
  induction us generalizing st with
  | nil => exact h
  | cons u us ih =>
    exact ih _ (foldl_bfRelaxExact_self _ (fun e he => edgesOf_pos hp he) st h)

theorem bfPassesExact_self {g : Graph} (hp : g.PositiveWeights) {s : Nat} (k : Nat) (st : BState)
    (h : BFSelf s st) : BFSelf s (bfPassesExact g k st) := by
  induction k generalizing st with
  | zero => exact h
  | succ k ih => exact ih _ (bfPassExact_self hp st h)

theorem bfInit_self (g : Graph) {s : Nat} (hs : s < g.size) : BFSelf s (bfInit g s) := by
  refine ⟨?_, ?_, ?_⟩
  · simp [bfInit, getD_set_eq, hs]
  · simp [bfInit, List.getD_eq_getElem?_getD, List.getElem?_replicate, hs]
  · intro v
    show 0 ≤ ((List.replicate g.size INT_MAX).set s 0).getD v INT_MAX
    rcases getD_set_cases (List.replicate g.size INT_MAX) s v 0 INT_MAX with h1 | h1
    · rw [h1]
    · rw [h1, List.getD_eq_getElem?_getD, List.getElem?_replicate]
      split <;> simp [INT_MAX]

theorem sizeMinusOne_singleton (s : Nat) : sizeMinusOne [s] = 0 := by
  simp [sizeMinusOne]

theorem sizeMinusOne_nil : sizeMinusOne [] = 18446744073709551615 := by
  decide

/-- C2, evaluated on the graph with the two parallel edges 0→1 of weight 5 and 0→1 of
weight 2 (inserted in this order): the priority-queue search returns weight 2, the
relaxation search sums the first edge that matches and returns weight 5. -/
theorem parallel_edges_weights_differ (tie : Nat → Nat) :
    (Graph.build 2 [(0, 1, 5), (0, 1, 2)]).shortestPathDijkstra tie 0 1 = Outcome.ok [0, 1] 2 ∧
    (Graph.build 2 [(0, 1, 5), (0, 1, 2)]).shortestPathBellmanFord 0 1 = Outcome.ok [0, 1] 5 := by
  refine ⟨?_, by decide⟩
  have hg : Graph.build 2 [(0, 1, 5), (0, 1, 2)] =
      { vertices := [⟨0, [(1, 5), (1, 2)]⟩, ⟨1, []⟩], size := 2, edgeCount := 2 } := by decide
  rw [hg]
  have h2 : wrapInt 2 = 2 := by decide
  simp [Graph.shortestPathDijkstra, dijkstraLoop, dijkstraInit, popTop_singleton, Graph.edgeTotal,
    Graph.edgesOf, relaxEdge, improves, popTop, tops, Nat.mod_one, dijkstraWalk, distDelta, h2]

/-- C5, as the code behaves: for every graph and every vertex `s` the priority-queue search
from `s` to `s` pops `s`, leaves the loop at once and, `prev[s]` being none, throws the
runtime error instead of returning the path `[s]` with weight 0. -/
theorem dijkstra_self_throws (tie : Nat → Nat) (g : Graph) (s : Nat) :
    g.shortestPathDijkstra tie s s = Outcome.noPathFound := by
  simp [Graph.shortestPathDijkstra, dijkstraLoop, dijkstraInit, popTop_singleton]

/-! ## Edge insertion -/

theorem addEdge_vertices_length (g : Graph) (u v : Nat) (w : Int) :
    (g.addEdge u v w).vertices.length = g.vertices.length := by
  unfold Graph.addEdge
  cases h : g.vertices[u]? <;> simp

theorem addEdge_size (g : Graph) (u v : Nat) (w : Int) : (g.addEdge u v w).size = g.size := rfl

theorem addEdge_edgeCount (g : Graph) (u v : Nat) (w : Int) :
    (g.addEdge u v w).edgeCount = g.edgeCount + 1 := rfl

theorem edgesOf_addEdge_self (g : Graph) {u : Nat} (v : Nat) (w : Int)
    (hu : u < g.vertices.length) :
    (g.addEdge u v w).edgesOf u = g.edgesOf u ++ [(v, w)] := by
  unfold Graph.addEdge Graph.edgesOf
  have h : g.vertices[u]? = some g.vertices[u] := List.getElem?_eq_getElem hu
  simp [h, List.getElem?_set_self hu]

theorem edgesOf_addEdge_ne (g : Graph) {u x : Nat} (v : Nat) (w : Int) (hx : u ≠ x) :
    (g.addEdge u v w).edgesOf x = g.edgesOf x := by
  unfold Graph.addEdge Graph.edgesOf
  cases h : g.vertices[u]? <;> simp [List.getElem?_set_ne hx]


/-! ## Generator -/

theorem edgesOf_create (n v : Nat) : (Graph.create n).edgesOf v = [] := by
  unfold Graph.edgesOf Graph.create
  cases h : ((List.range n).map (fun i => ({ index := i, edges := [] } : Vertex)))[v]? with
  | none => rfl
  | some x =>
    have hx := List.getElem?_mem h
    simp only [List.mem_map] at hx
    obtain ⟨i, _, rfl⟩ := hx
    rfl

theorem genInv_init (n d : Nat) (hd : 1 ≤ d) :
    GenInv n d { graph := Graph.create n, currentVertexIndex := 0, edgesAddedToVertex := 0,
                 directionsAddedToCurrentVertex := [] } := by
  refine ⟨by simp [Graph.create], rfl, ?_, ?_, ?_, hd, ?_⟩
  · intro v hv; exact absurd hv (Nat.not_lt_zero v)
  · simp [VertexFilled, edgesOf_create]
  · simp [edgesOf_create]
  · intro v _; exact edgesOf_create n v

theorem vertexFilled_congr {g g1 : Graph} {d v : Nat} (h : g1.edgesOf v = g.edgesOf v)
    (hf : VertexFilled g d v) : VertexFilled g1 d v := by
  unfold VertexFilled at *
  rw [h]; exact hf

theorem genStep_accept_full {d : Nat} {st : GenState} {direction : Nat} (weight : Int)
    (hacc : direction ≠ st.currentVertexIndex ∧ direction ∉ st.directionsAddedToCurrentVertex)
    (hfull : st.edgesAddedToVertex + 1 = d) :
    genStep d st direction weight =
      { graph := st.graph.addEdge st.currentVertexIndex direction weight
        currentVertexIndex := st.currentVertexIndex + 1
        edgesAddedToVertex := 0
        directionsAddedToCurrentVertex := [] } := by
  unfold genStep
  rw [if_pos hacc]
  exact if_pos hfull

theorem genStep_accept_more {d : Nat} {st : GenState} {direction : Nat} (weight : Int)
    (hacc : direction ≠ st.currentVertexIndex ∧ direction ∉ st.directionsAddedToCurrentVertex)
    (hfull : st.edgesAddedToVertex + 1 ≠ d) :
    genStep d st direction weight =
      { graph := st.graph.addEdge st.currentVertexIndex direction weight
        currentVertexIndex := st.currentVertexIndex
        edgesAddedToVertex := st.edgesAddedToVertex + 1
        directionsAddedToCurrentVertex := direction :: st.directionsAddedToCurrentVertex } := by
  unfold genStep
  rw [if_pos hacc]
  exact if_neg hfull

theorem genStep_skip {d : Nat} {st : GenState} {direction : Nat} (weight : Int)
    (hacc : ¬ (direction ≠ st.currentVertexIndex ∧
      direction ∉ st.directionsAddedToCurrentVertex))
    (hne : st.edgesAddedToVertex ≠ d) :
    genStep d st direction weight = st := by
  unfold genStep
  rw [if_neg hacc]
  exact if_neg hne

theorem genStep_inv {n d : Nat} {st : GenState} (direction : Nat) (weight : Int)
    (h : GenInv n d st) (hc : st.currentVertexIndex < n) :
    GenInv n d (genStep d st direction weight) := by
  by_cases hacc : direction ≠ st.currentVertexIndex ∧
      direction ∉ st.directionsAddedToCurrentVertex
  · -- the pair is accepted
    have hculen : st.currentVertexIndex < st.graph.vertices.length := by rw [h.len]; exact hc
    have hself := edgesOf_addEdge_self st.graph direction weight hculen
    have hother : ∀ x, st.currentVertexIndex ≠ x →
        (st.graph.addEdge st.currentVertexIndex direction weight).edgesOf x = st.graph.edgesOf x :=
      fun x hx => edgesOf_addEdge_ne st.graph direction weight hx
    have hnew : VertexFilled (st.graph.addEdge st.currentVertexIndex direction weight)
        (st.edgesAddedToVertex + 1) st.currentVertexIndex := by
      obtain ⟨h1, h2, h3⟩ := h.current
      refine ⟨?_, ?_, ?_⟩
      · rw [hself]; simp [h1]
      · intro e he
        rw [hself] at he
        rcases List.mem_append.1 he with he | he
        · exact h2 e he
        · simp only [List.mem_singleton] at he
          subst he; exact hacc.1
      · rw [hself, List.map_append]
        refine List.Nodup.append h3 (List.nodup_singleton _) ?_
        intro t ht1 ht2
        simp only [List.map_cons, List.map_nil, List.mem_singleton] at ht2
        subst ht2
        exact hacc.2 ((h.added _).2 ht1)
    have hnext : (st.graph.addEdge st.currentVertexIndex direction weight).edgesOf
        (st.currentVertexIndex + 1) = [] := by
      rw [hother _ (Nat.ne_of_lt (Nat.lt_succ_self _))]
      exact h.later _ (Nat.lt_succ_self _)
    by_cases hfull : st.edgesAddedToVertex + 1 = d
    · rw [genStep_accept_full weight hacc hfull]
      refine ⟨?_, h.size, ?_, ?_, ?_, ?_, ?_⟩
      · rw [addEdge_vertices_length]; exact h.len
      · intro v hv
        rcases Nat.lt_succ_iff_lt_or_eq.1 hv with hv | hv
        · exact vertexFilled_congr (hother v (Nat.ne_of_gt hv)) (h.filled v hv)
        · subst hv; rw [← hfull]; exact hnew
      · simp [VertexFilled, hnext]
      · simp [hnext]
      · have := h.lt; show 0 < d; omega
      · intro v hv
        have hv1 : st.currentVertexIndex < v := Nat.lt_of_succ_lt hv
        rw [hother v (Nat.ne_of_lt hv1)]
        exact h.later v hv1
    · rw [genStep_accept_more weight hacc hfull]
      refine ⟨?_, h.size, ?_, hnew, ?_, ?_, ?_⟩
      · rw [addEdge_vertices_length]; exact h.len
      · intro v hv
        exact vertexFilled_congr (hother v (Nat.ne_of_gt hv)) (h.filled v hv)
      · intro t
        simp only [hself, List.map_append, List.mem_append, List.mem_cons, List.map_cons,
          List.map_nil, List.mem_singleton, List.not_mem_nil, or_false]
        rw [h.added t]
        tauto
      · have := h.lt
        show st.edgesAddedToVertex + 1 < d
        omega
      · intro v hv
        rw [hother v (Nat.ne_of_lt hv)]
        exact h.later v hv
  · -- the pair is skipped
    rw [genStep_skip weight hacc (Nat.ne_of_lt h.lt)]
    exact h

theorem genStep_index_le {n d : Nat} {st : GenState} (direction : Nat) (weight : Int)
    (hc : st.currentVertexIndex < n) :
    (genStep d st direction weight).currentVertexIndex ≤ n := by
  by_cases hacc : direction ≠ st.currentVertexIndex ∧
      direction ∉ st.directionsAddedToCurrentVertex
  · by_cases hfull : st.edgesAddedToVertex + 1 = d
    · rw [genStep_accept_full weight hacc hfull]; exact hc
    · rw [genStep_accept_more weight hacc hfull]; exact Nat.le_of_lt hc
  · by_cases hne : st.edgesAddedToVertex = d
    · unfold genStep
      rw [if_neg hacc]
      show (if st.edgesAddedToVertex = d then _ else st).currentVertexIndex ≤ n
      rw [if_pos hne]; exact hc
    · rw [genStep_skip weight hacc hne]; exact Nat.le_of_lt hc

theorem genWalk_inv {n d : Nat} (directions : List Nat) (weights : List Int) (st : GenState)
    (g : Graph) (h : GenInv n d st) (hle : st.currentVertexIndex ≤ n)
    (hg : genWalk n d directions weights st = some g) :
    g.vertices.length = n ∧ g.size = n ∧ ∀ v, v < n → VertexFilled g d v := by
  induction directions generalizing weights st with
  | nil =>
    unfold genWalk at hg
    split at hg
    · exact absurd hg (by simp)
    · next hc =>
      have heq : st.currentVertexIndex = n := by omega
      cases hg
      exact ⟨h.len, h.size, fun v hv => h.filled v (heq ▸ hv)⟩
  | cons direction directions ih =>
    unfold genWalk at hg
    split at hg
    · next hc =>
      cases weights with
      | nil => exact absurd hg (by simp)
      | cons weight weights =>
        have hstep := genStep_inv direction weight h hc
        exact ih weights _ hstep (genStep_index_le direction weight hc) hg
    · next hc =>
      have heq : st.currentVertexIndex = n := by omega
      cases hg
      exact ⟨h.len, h.size, fun v hv => h.filled v (heq ▸ hv)⟩

/-- C7: for every `numberOfVertices ≥ 1`, `desiredOutgoingDegree ≥ 1` and every pair of
permutations of the two pools on which the walk of `generateGraph` fills every vertex
before it reads past the end of a pool, the returned graph has `numberOfVertices` vertices
and every vertex has exactly `desiredOutgoingDegree` outgoing edges, no edge to itself and
no two edges to the same target. -/
theorem generateGraph_filled (numberOfVertices desiredOutgoingDegree : Nat)
    (directions : List Nat) (weights : List Int) (g : Graph)
    (_hn : 1 ≤ numberOfVertices) (hd : 1 ≤ desiredOutgoingDegree)
    (_hdir : directions.Perm (poolDirections numberOfVertices desiredOutgoingDegree))
    (_hwt : weights.Perm (poolWeights numberOfVertices desiredOutgoingDegree))
    (hg : Graph.generateGraph numberOfVertices desiredOutgoingDegree directions weights = some g) :
    g.vertices.length = numberOfVertices ∧ g.size = numberOfVertices ∧
    ∀ v, v < numberOfVertices →
      (g.edgesOf v).length = desiredOutgoingDegree ∧
      (∀ e ∈ g.edgesOf v, e.1 ≠ v) ∧
      ((g.edgesOf v).map Prod.fst).Nodup :=
  genWalk_inv directions weights _ g (genInv_init numberOfVertices desiredOutgoingDegree hd)
    (Nat.zero_le _) hg

/-- Witness for C7: two vertices, degree 1, target pool shuffled to `[1,0,0,0,0,1,1,1]`. -/
theorem generateGraph_filled_witness :
    (Graph.build 2 [(0, 1, 1), (1, 0, 2)]).vertices.length = 2 ∧
    (Graph.build 2 [(0, 1, 1), (1, 0, 2)]).size = 2 ∧
    ∀ v, v < 2 →
      ((Graph.build 2 [(0, 1, 1), (1, 0, 2)]).edgesOf v).length = 1 ∧
      (∀ e ∈ (Graph.build 2 [(0, 1, 1), (1, 0, 2)]).edgesOf v, e.1 ≠ v) ∧
      (((Graph.build 2 [(0, 1, 1), (1, 0, 2)]).edgesOf v).map Prod.fst).Nodup :=
  generateGraph_filled 2 1 [1, 0, 0, 0, 0, 1, 1, 1] [1, 2, 3, 4, 1, 2, 3, 4]
    (Graph.build 2 [(0, 1, 1), (1, 0, 2)]) (by decide) (by decide) (by decide) (by decide)
    (by decide)

/-! ## Text codec -/

theorem getElem?_mid {α : Type} (done : List α) (x : α) (rest : List α) :
    (done ++ x :: rest)[done.length]? = some x := by
  rw [List.getElem?_append_right (Nat.le_refl _)]
  simp

theorem set_mid {α : Type} (done : List α) (x y : α) (rest : List α) :
    (done ++ x :: rest).set done.length y = done ++ y :: rest := by
  simp

theorem addEdge_mid (g : Graph) (done rest : List Vertex) (x : Vertex) (v : Nat) (w : Int)
    (hv : g.vertices = done ++ x :: rest) :
    g.addEdge done.length v w =
      { vertices := done ++ { x with edges := x.edges ++ [(v, w)] } :: rest
        size := g.size
        edgeCount := g.edgeCount + 1 } := by
  unfold Graph.addEdge
  rw [hv, getElem?_mid]
  simp only [set_mid]

theorem readEdges_flat (u : Nat) (es : List (Nat × Int)) (g : Graph) :
    readEdges u es.length (es.flatMap (fun edge => [(edge.1 : Int), edge.2])) g =
      some (es.foldl (fun h e => h.addEdge u e.1 e.2) g) := by
  induction es generalizing g with
  | nil => rfl
  | cons e es ih =>
    simp only [List.length_cons, List.flatMap_cons, List.cons_append, List.nil_append,
      readEdges, Int.toNat_ofNat, List.foldl_cons]
    exact ih _

theorem readLine_vertexLine (g : Graph) (x : Vertex) :
    readLine g (vertexLine x) = some (fill g x) := by
  unfold readLine vertexLine fill
  simp only [Int.toNat_ofNat]
  exact readEdges_flat x.index x.edges g

theorem readLines_vertexLines (vs : List Vertex) (g : Graph) :
    readLines (vs.map vertexLine) g = some (vs.foldl fill g) := by
  induction vs generalizing g with
  | nil => rfl
  | cons x vs ih =>
    simp only [List.map_cons, readLines, readLine_vertexLine, List.foldl_cons]
    exact ih _

theorem foldl_addEdge_mid (es : List (Nat × Int)) (g : Graph) (done rest : List Vertex)
    (x : Vertex) (hv : g.vertices = done ++ x :: rest) :
    es.foldl (fun h e => h.addEdge done.length e.1 e.2) g =
      { vertices := done ++ { x with edges := x.edges ++ es } :: rest
        size := g.size
        edgeCount := g.edgeCount + es.length } := by
  induction es generalizing g x with
  | nil => simp [← hv]
  | cons e es ih =>
    rw [List.foldl_cons, addEdge_mid g done rest x e.1 e.2 hv]
    rw [ih _ _ rfl]
    simp [Nat.add_assoc, Nat.add_comm 1]

theorem fill_mid (g : Graph) (done rest : List Vertex) (x : Vertex)
    (hx : x.index = done.length)
    (hv : g.vertices = done ++ { index := x.index, edges := [] } :: rest) :
    fill g x =
      { vertices := done ++ x :: rest
        size := g.size
        edgeCount := g.edgeCount + x.edges.length } := by
  unfold fill
  rw [hx, foldl_addEdge_mid x.edges g done rest _ hv]
  simp [← hx]

theorem foldl_fill (todo done : List Vertex) (n c : Nat)
    (hidx : todo.map (fun x => x.index) = List.range' done.length todo.length) :
    todo.foldl fill
        { vertices := done ++ todo.map (fun x => { index := x.index, edges := [] })
          size := n
          edgeCount := c } =
      { vertices := done ++ todo
        size := n
        edgeCount := c + (todo.map (fun x => x.edges.length)).sum } := by
  induction todo generalizing done c with
  | nil => simp
  | cons x todo ih =>
    simp only [List.map_cons, List.length_cons, List.range'_succ, List.cons.injEq] at hidx
    rw [List.foldl_cons, List.map_cons, fill_mid _ done _ x hidx.1 rfl]
    have h := ih (done ++ [x]) (c + x.edges.length) (by simpa using hidx.2)
    simp only [List.append_assoc, List.singleton_append] at h
    rw [h]
    simp [Nat.add_assoc]

theorem create_eq_cleared (g : Graph)
    (h : g.vertices.map (fun x => x.index) = List.range g.size) :
    Graph.create g.vertices.length =
      { vertices := [] ++ g.vertices.map (fun x => { index := x.index, edges := [] })
        size := g.size
        edgeCount := 0 } := by
  have hlen : g.vertices.length = g.size := by
    have := congrArg List.length h
    simpa using this
  unfold Graph.create
  rw [hlen, ← h, List.map_map]
  rfl

theorem setUpFromText_convertToText (g : Graph) (h : g.Canonical) :
    Graph.setUpFromText g.convertToText = some g := by
  obtain ⟨hidx, hcount⟩ := h
  unfold Graph.setUpFromText Graph.convertToText
  simp only [Int.toNat_ofNat]
  rw [readLines_vertexLines, create_eq_cleared g hidx, foldl_fill g.vertices [] g.size 0]
  · simp only [List.nil_append, Nat.zero_add]
    unfold Graph.edgeTotal at hcount
    rw [← hcount]
  · have hlen : g.vertices.length = g.size := by
      have := congrArg List.length hidx
      simpa using this
    simp [hidx, hlen, List.range_eq_range']


theorem split_at {α : Type} (l : List α) (u : Nat) (hu : u < l.length) :
    ∃ done x rest, l = done ++ x :: rest ∧ done.length = u := by
  refine ⟨l.take u, l[u], l.drop (u + 1), ?_, ?_⟩
  · rw [← List.drop_eq_getElem_cons hu, List.take_append_drop]
  · simp [Nat.le_of_lt hu]

theorem create_canonical (n : Nat) : (Graph.create n).Canonical := by
  constructor
  · simp [Graph.create, List.map_map, Function.comp_def]
  · simp [Graph.create, Graph.edgeTotal, List.map_map, Function.comp_def]

theorem addEdge_canonical (g : Graph) (u v : Nat) (w : Int) (h : g.Canonical)
    (hu : u < g.size) : (g.addEdge u v w).Canonical := by
  obtain ⟨hidx, hcount⟩ := h
  have hlen : g.vertices.length = g.size := by
    have := congrArg List.length hidx
    simpa using this
  obtain ⟨done, x, rest, hv, hd⟩ := split_at g.vertices u (by omega)
  subst hd
  rw [addEdge_mid g done rest x v w hv]
  constructor
  · show List.map _ (done ++ _ :: rest) = List.range g.size
    rw [← hidx, hv]
    simp
  · show g.edgeCount + 1 = Graph.edgeTotal _
    rw [hcount]
    simp only [Graph.edgeTotal, hv, List.map_append, List.map_cons, List.sum_append,
      List.sum_cons, List.length_append, List.length_singleton]
    omega

theorem build_canonical (n : Nat) (calls : List (Nat × Nat × Int))
    (h : ∀ c ∈ calls, c.1 < n) :
    (Graph.build n calls).Canonical ∧ (Graph.build n calls).size = n := by
  unfold Graph.build
  have key : ∀ (cs : List (Nat × Nat × Int)) (g : Graph), g.Canonical → g.size = n →
      (∀ c ∈ cs, c.1 < n) →
      (cs.foldl (fun g c => g.addEdge c.1 c.2.1 c.2.2) g).Canonical ∧
      (cs.foldl (fun g c => g.addEdge c.1 c.2.1 c.2.2) g).size = n := by
    intro cs
    induction cs with
    | nil => intro g hg hs _; exact ⟨hg, hs⟩
    | cons c cs ih =>
      intro g hg hs hc
      have hcu : c.1 < g.size := hs ▸ hc c (List.mem_cons_self _ _)
      exact ih _ (addEdge_canonical g _ _ _ hg hcu) hs
        (fun c1 hc1 => hc c1 (List.mem_cons_of_mem _ hc1))
  exact key calls _ (create_canonical n) rfl h

/-- C8: for every graph built by the constructor and a sequence of `addEdge` calls with
valid endpoints (any weights, parallel edges and self-loops included), `setUpFromText`
decodes the text of `convertToText` to a graph with the same vertex count, the same
`edgeCount` and, for every vertex index, the same adjacency list in the same order. -/
theorem codec_roundtrip (n : Nat) (calls : List (Nat × Nat × Int))
    (h : ∀ c ∈ calls, c.1 < n ∧ c.2.1 < n) :
    ∃ decoded, Graph.setUpFromText (Graph.build n calls).convertToText = some decoded ∧
      decoded.size = (Graph.build n calls).size ∧
      decoded.vertices.length = (Graph.build n calls).vertices.length ∧
      decoded.edgeCount = (Graph.build n calls).edgeCount ∧
      ∀ v, decoded.edgesOf v = (Graph.build n calls).edgesOf v :=
  ⟨Graph.build n calls,
    setUpFromText_convertToText _ (build_canonical n calls (fun c hc => (h c hc).1)).1,
    rfl, rfl, rfl, fun _ => rfl⟩

/-- Witness for C8: three vertices, a parallel edge with a negative weight and a self-loop. -/
theorem codec_roundtrip_witness :
    ∃ decoded, Graph.setUpFromText
        (Graph.build 3 [(0, 1, 5), (0, 1, -2), (2, 2, 0), (0, 2, 7)]).convertToText =
          some decoded ∧
      decoded.size = (Graph.build 3 [(0, 1, 5), (0, 1, -2), (2, 2, 0), (0, 2, 7)]).size ∧
      decoded.vertices.length =
        (Graph.build 3 [(0, 1, 5), (0, 1, -2), (2, 2, 0), (0, 2, 7)]).vertices.length ∧
      decoded.edgeCount = (Graph.build 3 [(0, 1, 5), (0, 1, -2), (2, 2, 0), (0, 2, 7)]).edgeCount ∧
      ∀ v, decoded.edgesOf v =
        (Graph.build 3 [(0, 1, 5), (0, 1, -2), (2, 2, 0), (0, 2, 7)]).edgesOf v :=
  codec_roundtrip 3 [(0, 1, 5), (0, 1, -2), (2, 2, 0), (0, 2, 7)] (by decide)

/-! ## Priority queue -/

theorem exists_least_key (q : List (Nat × Int)) (hq : q ≠ []) :
    ∃ e ∈ q, ∀ x ∈ q, e.2 ≤ x.2 := by
  induction q with
  | nil => exact absurd rfl hq
  | cons a q ih =>
    by_cases hq1 : q = []
    · subst hq1
      exact ⟨a, List.mem_cons_self _ _, fun x hx => by simp at hx; rw [hx]⟩
    · obtain ⟨e, he, hmin⟩ := ih hq1
      by_cases hae : a.2 ≤ e.2
      · refine ⟨a, List.mem_cons_self _ _, fun x hx => ?_⟩
        rcases List.mem_cons.1 hx with hx | hx
        · rw [hx]
        · exact le_trans hae (hmin x hx)
      · refine ⟨e, List.mem_cons_of_mem _ he, fun x hx => ?_⟩
        rcases List.mem_cons.1 hx with hx | hx
        · rw [hx]; omega
        · exact hmin x hx

theorem mem_tops {q : List (Nat × Int)} {e : Nat × Int} :
    e ∈ tops q ↔ e ∈ q ∧ ∀ x ∈ q, e.2 ≤ x.2 := by
  simp [tops]

theorem popTop_none {choice : Nat} {q : List (Nat × Int)} (h : popTop choice q = none) :
    q = [] := by
  by_contra hq
  obtain ⟨e, he, hmin⟩ := exists_least_key q hq
  have hmem : e ∈ tops q := mem_tops.2 ⟨he, hmin⟩
  unfold popTop at h
  split at h
  · next ht => rw [ht] at hmem; exact absurd hmem (List.not_mem_nil _)
  · exact absurd h (by simp)

theorem popTop_some {choice : Nat} {q q1 : List (Nat × Int)} {e : Nat × Int}
    (h : popTop choice q = some (e, q1)) :
    e ∈ q ∧ (∀ x ∈ q, e.2 ≤ x.2) ∧ q1 = q.erase e := by
  unfold popTop at h
  split at h
  · exact absurd h (by simp)
  · next c cs ht =>
    simp only [Option.some.injEq, Prod.mk.injEq] at h
    obtain ⟨he, hq1⟩ := h
    have hmem : e ∈ tops q := by
      rw [ht, ← he, List.getD_eq_getElem?_getD]
      cases hi : (c :: cs)[choice % (cs.length + 1)]? with
      | none => exact List.mem_cons_self _ _
      | some y => exact List.getElem?_mem hi
    obtain ⟨h1, h2⟩ := mem_tops.1 hmem
    exact ⟨h1, h2, by rw [← hq1, he]⟩

/-! ## Walks -/

theorem walk_nonneg {g : Graph} (hp : g.PositiveWeights) {s v : Nat} {d : Int}
    (h : Walk g s v d) : 0 ≤ d := by
  induction h with
  | nil => exact le_refl 0
  | snoc _ he ih => have := edgesOf_pos hp he; omega

theorem edgesOf_lt {g : Graph} (hw : g.WellFormed) {u : Nat} {e : Nat × Int}
    (h : e ∈ g.edgesOf u) : e.1 < g.size := by
  obtain ⟨x, hx, he⟩ := edgesOf_mem h
  exact hw.2 x hx e he

theorem getD_some_lt {α : Type} {l : List (Option α)} {v : Nat} {a : α}
    (h : l.getD v none = some a) : v < l.length := by
  by_contra hv
  rw [List.getD_eq_getElem?_getD, List.getElem?_eq_none (by omega)] at h
  exact absurd h (by simp)

/-- Lower bound: a walk to `v` of weight `d1` either bounds `dist[v]` or the key of some
queue entry. -/
theorem walk_bound {g : Graph} (hp : g.PositiveWeights) {s : Nat} {st : DState}
    (hds : st.dist.getD s none = some 0)
    (hrel : ∀ x dx, st.dist.getD x none = some dx →
      (x, dx) ∈ st.queue ∨ ∀ e ∈ g.edgesOf x, Relaxed st dx e)
    {v : Nat} {d1 : Int} (h : Walk g s v d1) :
    (∃ d, st.dist.getD v none = some d ∧ d ≤ d1) ∨ ∃ e ∈ st.queue, e.2 ≤ d1 := by
  induction h with
  | nil => exact Or.inl ⟨0, hds, le_refl 0⟩
  | snoc _ he ih =>
    have hw := edgesOf_pos hp he
    rcases ih with ⟨dx, hdx, hle⟩ | ⟨e, heq, hle⟩
    · rcases hrel _ dx hdx with hin | hall
      · exact Or.inr ⟨_, hin, by show dx ≤ _; omega⟩
      · obtain ⟨dv, hdv, hle2⟩ := hall _ he
        exact Or.inl ⟨dv, hdv, by simp only at hle2; omega⟩
    · exact Or.inr ⟨e, heq, by omega⟩

/-! ## One relaxation -/

theorem relaxEdge_skip {u : Nat} {st : DState} {e : Nat × Int} {du : Int}
    (hu : st.dist.getD u none = some du) (hr : Relaxed st du e) : relaxEdge u st e = st := by
  obtain ⟨dv, hdv, hle⟩ := hr
  unfold relaxEdge
  rw [hu]
  simp only [hdv, improves]
  rw [if_neg]
  simp only [decide_eq_true_eq]
  omega

theorem relaxEdge_fire {u : Nat} {st : DState} {e : Nat × Int} {du : Int}
    (hu : st.dist.getD u none = some du) (hr : ¬ Relaxed st du e) :
    relaxEdge u st e =
      { dist := st.dist.set e.1 (some (du + e.2))
        prev := st.prev.set e.1 (some u)
        queue := st.queue ++ [(e.1, du + e.2)] } := by
  unfold relaxEdge
  rw [hu]
  simp only
  rw [if_pos]
  cases hv : st.dist.getD e.1 none with
  | none => rfl
  | some dv =>
    simp only [improves, decide_eq_true_eq]
    by_contra hlt
    exact hr ⟨dv, hv, by omega⟩

theorem foldl_relaxEdge_noop {u : Nat} (st : DState) {du : Int}
    (hu : st.dist.getD u none = some du) (es : List (Nat × Int))
    (hall : ∀ e ∈ es, Relaxed st du e) : es.foldl (relaxEdge u) st = st := by
  induction es with
  | nil => rfl
  | cons e es ih =>
    rw [List.foldl_cons, relaxEdge_skip hu (hall e (List.mem_cons_self _ _))]
    exact ih (fun x hx => hall x (List.mem_cons_of_mem _ hx))

theorem relaxed_of_lower (st st1 : DState) {v : Nat} {nd : Int}
    (hv : st1.dist.getD v none = some nd)
    (hlow : ∀ dv, st.dist.getD v none = some dv → nd ≤ dv)
    (hne : ∀ x, x ≠ v → st1.dist.getD x none = st.dist.getD x none)
    {dx : Int} {e : Nat × Int} (h : Relaxed st dx e) : Relaxed st1 dx e := by
  obtain ⟨dv, hdv, hle⟩ := h
  by_cases hev : e.1 = v
  · rw [hev] at hdv
    have := hlow dv hdv
    exact ⟨nd, by rw [hev]; exact hv, by omega⟩
  · exact ⟨dv, by rw [hne _ hev]; exact hdv, hle⟩

theorem relaxEdge_mid {g : Graph} (hw : g.WellFormed) (hp : g.PositiveWeights)
    {s u : Nat} {du : Int} {st0 st : DState} {done : List (Nat × Int)} {e : Nat × Int}
    (h : DMid g s u du st0 done st) (he : e ∈ g.edgesOf u) :
    DMid g s u du st0 (done ++ [e]) (relaxEdge u st e) := by
  have hwpos : 0 < e.2 := edgesOf_pos hp he
  by_cases hr : Relaxed st du e
  · -- nothing changes
    rw [relaxEdge_skip h.du_eq hr]
    refine { h with done_relaxed := ?_, qlen := ?_ }
    · intro x hx
      rcases List.mem_append.1 hx with hx | hx
      · exact h.done_relaxed x hx
      · rw [List.mem_singleton.1 hx]; exact hr
    · have := h.qlen
      simp only [List.length_append, List.length_singleton]
      omega
  · -- the distance of `e.1` is lowered
    rw [relaxEdge_fire h.du_eq hr]
    have hdu0 : 0 ≤ du := walk_nonneg hp (h.sound u du h.du_eq)
    have hvlt : e.1 < g.size := edgesOf_lt hw he
    have hlow : ∀ dv, st.dist.getD e.1 none = some dv → du + e.2 < dv := by
      intro dv hdv
      by_contra hlt
      exact hr ⟨dv, hdv, by omega⟩
    have hvu : e.1 ≠ u := by
      intro hvu
      have := hlow du (hvu ▸ h.du_eq)
      omega
    have hvs : e.1 ≠ s := by
      intro hvs
      have := hlow 0 (hvs ▸ h.ds)
      omega
    have hopen : ∀ dv, st.dist.getD e.1 none = some dv → (e.1, dv) ∈ st.queue := by
      intro dv hdv
      by_contra hout
      have h1 := h.le_du e.1 dv hdv hout
      have h2 := hlow dv hdv
      omega
    have hDv : (st.dist.set e.1 (some (du + e.2))).getD e.1 none = some (du + e.2) :=
      getD_set_eq _ _ _ (by rw [h.dlen]; exact hvlt)
    have hDne : ∀ x, x ≠ e.1 →
        (st.dist.set e.1 (some (du + e.2))).getD x none = st.dist.getD x none :=
      fun x hx => getD_set_ne _ _ _ (Ne.symm hx)
    have hPv : (st.prev.set e.1 (some u)).getD e.1 none = some u :=
      getD_set_eq _ _ _ (by rw [h.plen]; exact hvlt)
    have hPne : ∀ x, x ≠ e.1 → (st.prev.set e.1 (some u)).getD x none = st.prev.getD x none :=
      fun x hx => getD_set_ne _ _ _ (Ne.symm hx)
    have hmono : ∀ {dx : Int} {e1 : Nat × Int}, Relaxed st dx e1 →
        Relaxed { dist := st.dist.set e.1 (some (du + e.2)), prev := st.prev.set e.1 (some u),
                  queue := st.queue ++ [(e.1, du + e.2)] } dx e1 :=
      fun hrel => relaxed_of_lower st _ hDv (fun dv hdv => le_of_lt (hlow dv hdv)) hDne hrel
    have hnew : (e.1, du + e.2) ∉ st.queue := by
      intro hin
      obtain ⟨d, hd, hle⟩ := h.keys _ hin
      have := hlow d hd
      simp only at hle
      omega
    refine
      { dlen := ?_, plen := ?_, ds := ?_, ps := ?_, sound := ?_, keys := ?_, nodup := ?_,
        prevOK := ?_, prevSome := ?_, du_eq := ?_, u_out := ?_, relaxed := ?_,
        done_relaxed := ?_, le_du := ?_, keys_ge := ?_, open_iff := ?_, qlen := ?_ }
    · simp only [List.length_set]; exact h.dlen
    · simp only [List.length_set]; exact h.plen
    · show (st.dist.set e.1 _).getD s none = some 0
      rw [hDne s (Ne.symm hvs)]; exact h.ds
    · show (st.prev.set e.1 _).getD s none = none
      rw [hPne s (Ne.symm hvs)]; exact h.ps
    · intro v d hd
      change (st.dist.set e.1 _).getD v none = some d at hd
      by_cases hv : v = e.1
      · subst hv
        rw [hDv] at hd
        cases hd
        exact Walk.snoc (h.sound u du h.du_eq) he
      · rw [hDne v hv] at hd
        exact h.sound v d hd
    · intro x hx
      change x ∈ st.queue ++ [(e.1, du + e.2)] at hx
      show ∃ d, (st.dist.set e.1 _).getD x.1 none = some d ∧ d ≤ x.2
      rcases List.mem_append.1 hx with hx | hx
      · obtain ⟨d, hd, hle⟩ := h.keys x hx
        by_cases hv : x.1 = e.1
        · rw [hv] at hd
          have := hlow d hd
          exact ⟨du + e.2, by rw [hv]; exact hDv, by omega⟩
        · exact ⟨d, by rw [hDne _ hv]; exact hd, hle⟩
      · rw [List.mem_singleton.1 hx]
        exact ⟨du + e.2, hDv, le_refl _⟩
    · show (st.queue ++ [(e.1, du + e.2)]).Nodup
      refine List.Nodup.append h.nodup (List.nodup_singleton _) ?_
      intro x hx1 hx2
      rw [List.mem_singleton.1 hx2] at hx1
      exact hnew hx1
    · intro v p hvp
      change (st.prev.set e.1 _).getD v none = some p at hvp
      show ∃ w dp dv, (v, w) ∈ g.edgesOf p ∧ (st.dist.set e.1 _).getD p none = some dp ∧
        (st.dist.set e.1 _).getD v none = some dv ∧ dp + w ≤ dv
      by_cases hv : v = e.1
      · subst hv
        rw [hPv] at hvp
        cases hvp
        exact ⟨e.2, du, du + e.2, he, by rw [hDne u (Ne.symm hvu)]; exact h.du_eq, hDv, le_refl _⟩
      · rw [hPne v hv] at hvp
        obtain ⟨w, dp, dv, hedge, hdp, hdv, hle⟩ := h.prevOK v p hvp
        by_cases hpv : p = e.1
        · have := hlow dp (hpv ▸ hdp)
          exact ⟨w, du + e.2, dv, hedge, by rw [hpv]; exact hDv, by rw [hDne v hv]; exact hdv,
            by omega⟩
        · exact ⟨w, dp, dv, hedge, by rw [hDne p hpv]; exact hdp, by rw [hDne v hv]; exact hdv,
            hle⟩
    · intro v d hvs1 hd
      change (st.dist.set e.1 _).getD v none = some d at hd
      show ∃ p, (st.prev.set e.1 _).getD v none = some p
      by_cases hv : v = e.1
      · subst hv; exact ⟨u, hPv⟩
      · rw [hDne v hv] at hd
        rw [hPne v hv]
        exact h.prevSome v d hvs1 hd
    · show (st.dist.set e.1 _).getD u none = some du
      rw [hDne u (Ne.symm hvu)]; exact h.du_eq
    · show (u, du) ∉ st.queue ++ [(e.1, du + e.2)]
      intro hin
      rcases List.mem_append.1 hin with hin | hin
      · exact h.u_out hin
      · simp only [List.mem_singleton, Prod.mk.injEq] at hin
        exact hvu hin.1.symm
    · intro x dx hdx hxu
      change (st.dist.set e.1 _).getD x none = some dx at hdx
      by_cases hv : x = e.1
      · subst hv
        rw [hDv] at hdx
        cases hdx
        exact Or.inl (List.mem_append_right _ (List.mem_singleton.2 rfl))
      · rw [hDne x hv] at hdx
        rcases h.relaxed x dx hdx hxu with hin | hall
        · exact Or.inl (List.mem_append_left _ hin)
        · exact Or.inr (fun e1 he1 => hmono (hall e1 he1))
    · intro x hx
      rcases List.mem_append.1 hx with hx | hx
      · exact hmono (h.done_relaxed x hx)
      · rw [List.mem_singleton.1 hx]
        exact ⟨du + e.2, hDv, le_refl _⟩
    · intro x dx hdx hout
      change (st.dist.set e.1 _).getD x none = some dx at hdx
      change (x, dx) ∉ st.queue ++ [(e.1, du + e.2)] at hout
      by_cases hv : x = e.1
      · subst hv
        rw [hDv] at hdx
        cases hdx
        exact absurd (List.mem_append_right _ (List.mem_singleton.2 rfl)) hout
      · rw [hDne x hv] at hdx
        exact h.le_du x dx hdx (fun hin => hout (List.mem_append_left _ hin))
    · intro x hx
      change x ∈ st.queue ++ [(e.1, du + e.2)] at hx
      rcases List.mem_append.1 hx with hx | hx
      · exact h.keys_ge x hx
      · rw [List.mem_singleton.1 hx]
        show du ≤ du + e.2
        omega
    · intro x
      rw [← h.open_iff x]
      unfold isOpen
      show (match (st.dist.set e.1 _).getD x none with
        | none => true
        | some d => decide ((x, d) ∈ st.queue ++ [(e.1, du + e.2)])) = _
      by_cases hv : x = e.1
      · subst hv
        rw [hDv]
        cases hd : st.dist.getD e.1 none with
        | none => simp
        | some dv => simp [hopen dv hd]
      · rw [hDne x hv]
        cases hd : st.dist.getD x none with
        | none => rfl
        | some dv => simp [hv]
    · have := h.qlen
      simp only [List.length_append, List.length_singleton]
      omega

/-! ## The edge loop of one vertex -/

theorem foldl_relaxEdge_mid {g : Graph} (hw : g.WellFormed) (hp : g.PositiveWeights)
    {s u : Nat} {du : Int} {st0 : DState} (rem : List (Nat × Int)) :
    ∀ (done : List (Nat × Int)) (st : DState), DMid g s u du st0 done st →
      (∀ e ∈ rem, e ∈ g.edgesOf u) →
      DMid g s u du st0 (done ++ rem) (rem.foldl (relaxEdge u) st) := by
  induction rem with
  | nil => intro done st h _; simpa using h
  | cons e rem ih =>
    intro done st h hrem
    have h1 := relaxEdge_mid hw hp h (hrem e (List.mem_cons_self _ _))
    have h2 := ih (done ++ [e]) _ h1 (fun x hx => hrem x (List.mem_cons_of_mem _ hx))
    simpa using h2

theorem sum_range_split (f f1 : Nat → Nat) (n u : Nat) (hu : u < n)
    (hne : ∀ x, x ≠ u → f1 x = f x) (h0 : f1 u = 0) :
    ((List.range n).map f).sum = ((List.range n).map f1).sum + f u := by
  induction n with
  | zero => exact absurd hu (Nat.not_lt_zero u)
  | succ n ih =>
    rw [List.sum_range_succ, List.sum_range_succ]
    by_cases hun : u = n
    · subst hun
      have hsame : (List.range u).map f1 = (List.range u).map f := by
        apply List.map_congr_left
        intro x hx
        exact hne x (Nat.ne_of_lt (List.mem_range.1 hx))
      rw [hsame, h0]
      omega
    · have := ih (by omega)
      rw [this, hne n (Ne.symm hun)]
      omega

theorem isOpen_congr (st st1 : DState) (x : Nat) (hd : st1.dist = st.dist)
    (hq : ∀ d, st.dist.getD x none = some d → ((x, d) ∈ st1.queue ↔ (x, d) ∈ st.queue)) :
    isOpen st1 x = isOpen st x := by
  unfold isOpen
  rw [hd]
  cases h : st.dist.getD x none with
  | none => rfl
  | some d => simp only [hq d h]

theorem openEdges_congr (g : Graph) {st st1 : DState} (h : ∀ x, isOpen st1 x = isOpen st x) :
    openEdges g st1 = openEdges g st := by
  unfold openEdges
  simp only [h]

theorem openEdges_close (g : Graph) {st st1 : DState} {u : Nat} (hu : u < g.size)
    (hne : ∀ x, x ≠ u → isOpen st1 x = isOpen st x)
    (h1 : isOpen st1 u = false) (h0 : isOpen st u = true) :
    openEdges g st = openEdges g st1 + (g.edgesOf u).length := by
  unfold openEdges
  rw [sum_range_split (fun x => if isOpen st x then (g.edgesOf x).length else 0)
    (fun x => if isOpen st1 x then (g.edgesOf x).length else 0) g.size u hu
    (fun x hx => by simp only [hne x hx]) (by simp [h1])]
  simp [h0]

/-! ## One iteration of the `while` loop -/

theorem base_erase {g : Graph} {s : Nat} {st : DState} (h : DBase g s st) (e : Nat × Int) :
    DBase g s { st with queue := st.queue.erase e } :=
  { dlen := h.dlen, plen := h.plen, ds := h.ds, ps := h.ps, sound := h.sound,
    keys := fun x hx => h.keys x (List.mem_of_mem_erase hx),
    nodup := h.nodup.erase e, prevOK := h.prevOK, prevSome := h.prevSome }

theorem dijkstra_step {g : Graph} (hw : g.WellFormed) (hp : g.PositiveWeights) {s : Nat}
    {st : DState} {choice : Nat} {e : Nat × Int} {q : List (Nat × Int)}
    (h : DInv g s st) (hpop : popTop choice st.queue = some (e, q)) :
    DInv g s ((g.edgesOf e.1).foldl (relaxEdge e.1) { st with queue := q }) ∧
    potential g ((g.edgesOf e.1).foldl (relaxEdge e.1) { st with queue := q }) <
      potential g st := by
  obtain ⟨hein, hmin, hq⟩ := popTop_some hpop
  subst hq
  obtain ⟨du, hdu, hle⟩ := h.keys e hein
  have hlen : (st.queue.erase e).length + 1 = st.queue.length := by
    rw [List.length_erase_of_mem hein]
    have : 0 < st.queue.length := List.length_pos_of_mem hein
    omega
  have hbase := base_erase h.toDBase e
  have hkeep : ∀ x, x ≠ e → (x ∈ st.queue.erase e ↔ x ∈ st.queue) :=
    fun x hx => by rw [h.nodup.mem_erase_iff]; exact ⟨fun hh => hh.2, fun hh => ⟨hx, hh⟩⟩
  by_cases hstale : du = e.2
  · -- the entry carries the current distance of `e.1`
    have hee : e = (e.1, du) := by rw [hstale]
    have hout : (e.1, du) ∉ st.queue.erase e := by
      rw [← hee]; exact h.nodup.not_mem_erase
    have hmid0 : DMid g s e.1 du { st with queue := st.queue.erase e } []
        { st with queue := st.queue.erase e } :=
      { hbase with
        du_eq := hdu
        u_out := hout
        relaxed := by
          intro x dx hdx hxu
          rcases h.relaxed x dx hdx with hin | hall
          · refine Or.inl ((hkeep _ ?_).2 hin)
            intro heq
            exact hxu (by rw [← heq])
          · exact Or.inr hall
        done_relaxed := fun x hx => absurd hx (List.not_mem_nil _)
        le_du := by
          intro x dx hdx hnot
          by_cases hin : (x, dx) ∈ st.queue
          · by_cases heq : (x, dx) = e
            · have : dx = e.2 := by rw [← heq]
              omega
            · exact absurd ((hkeep _ heq).2 hin) hnot
          · have := h.mono x dx hdx hin e hein
            omega
        keys_ge := fun x hx => by
          have := hmin x (List.mem_of_mem_erase hx)
          omega
        open_iff := fun _ => rfl
        qlen := by simp }
    have hmid := foldl_relaxEdge_mid hw hp (g.edgesOf e.1) [] _ hmid0 (fun _ hx => hx)
    rw [List.nil_append] at hmid
    generalize (g.edgesOf e.1).foldl (relaxEdge e.1) { st with queue := st.queue.erase e } = st1
      at hmid
    constructor
    · exact
        { hmid.toDBase with
          relaxed := by
            intro x dx hdx
            by_cases hxu : x = e.1
            · subst hxu
              rw [hmid.du_eq] at hdx
              cases hdx
              exact Or.inr hmid.done_relaxed
            · exact hmid.relaxed x dx hdx hxu
          mono := by
            intro v dv hdv hnot x hx
            have h1 := hmid.le_du v dv hdv hnot
            have h2 := hmid.keys_ge x hx
            omega }
    · have hult : e.1 < g.size := by
        rw [← h.dlen]; exact getD_some_lt hdu
      have hopen : openEdges g st = openEdges g st1 + (g.edgesOf e.1).length := by
        apply openEdges_close g hult
        · intro x hx
          rw [hmid.open_iff x]
          refine isOpen_congr st { st with queue := st.queue.erase e } x rfl (fun d _ => ?_)
          apply hkeep
          intro heq
          exact hx (by rw [← heq])
        · rw [hmid.open_iff]
          unfold isOpen
          show (match st.dist.getD e.1 none with
            | none => true
            | some d => decide ((e.1, d) ∈ st.queue.erase e)) = false
          rw [hdu]
          simp [hout]
        · unfold isOpen
          rw [hdu]
          simp only [decide_eq_true_eq]
          rw [← hee]; exact hein
      have hql := hmid.qlen
      simp only [List.length_nil, Nat.add_zero] at hql
      unfold potential
      omega
  · -- the entry is stale
    have hlt : du < e.2 := by omega
    have hne : ∀ x d, st.dist.getD x none = some d → (x, d) ≠ e := by
      intro x d hd heq
      have h1 : x = e.1 := by rw [← heq]
      have h2 : d = e.2 := by rw [← heq]
      rw [h1, hdu] at hd
      cases hd
      exact hstale h2
    have hclosed : (e.1, du) ∉ st.queue := by
      intro hin
      have := hmin _ hin
      simp only at this
      omega
    have hall : ∀ x ∈ g.edgesOf e.1, Relaxed st du x := by
      rcases h.relaxed e.1 du hdu with hin | hall
      · exact absurd hin hclosed
      · exact hall
    have hnoop : (g.edgesOf e.1).foldl (relaxEdge e.1) { st with queue := st.queue.erase e } =
        { st with queue := st.queue.erase e } :=
      foldl_relaxEdge_noop { st with queue := st.queue.erase e } hdu _ hall
    rw [hnoop]
    constructor
    · exact
        { hbase with
          relaxed := by
            intro x dx hdx
            rcases h.relaxed x dx hdx with hin | hall
            · exact Or.inl ((hkeep _ (hne x dx hdx)).2 hin)
            · exact Or.inr hall
          mono := by
            intro v dv hdv hnot x hx
            refine h.mono v dv hdv (fun hin => hnot ?_) x (List.mem_of_mem_erase hx)
            exact (hkeep _ (hne v dv hdv)).2 hin }
    · have hopen : openEdges g { st with queue := st.queue.erase e } = openEdges g st := by
        apply openEdges_congr
        intro x
        exact isOpen_congr st { st with queue := st.queue.erase e } x rfl
          (fun d hd => hkeep _ (hne x d hd))
      unfold potential
      rw [hopen]
      simp only
      omega

/-! ## The `while` loop -/

theorem sum_map_eq_sum_range (l : List Vertex) :
    (l.map (fun x => x.edges.length)).sum =
      ((List.range l.length).map (fun i =>
        match l[i]? with
        | none => 0
        | some x => x.edges.length)).sum := by
  induction l using List.reverseRecOn with
  | nil => rfl
  | append_singleton l a ih =>
    rw [List.map_append, List.sum_append, List.length_append, List.length_singleton,
      List.sum_range_succ, ih]
    have h1 : (List.range l.length).map (fun i =>
          match (l ++ [a])[i]? with
          | none => 0
          | some x => x.edges.length) =
        (List.range l.length).map (fun i =>
          match l[i]? with
          | none => 0
          | some x => x.edges.length) := by
      apply List.map_congr_left
      intro i hi
      rw [List.getElem?_append_left (List.mem_range.1 hi)]
    rw [h1, getElem?_mid l a []]
    simp

theorem edgesOf_length (g : Graph) (x : Nat) :
    (g.edgesOf x).length =
      match g.vertices[x]? with
      | none => 0
      | some v => v.edges.length := by
  unfold Graph.edgesOf
  cases g.vertices[x]? <;> rfl

theorem openEdges_le (g : Graph) (hw : g.WellFormed) (st : DState) :
    openEdges g st ≤ g.edgeTotal := by
  unfold openEdges Graph.edgeTotal
  rw [sum_map_eq_sum_range, hw.1]
  apply List.sum_le_sum
  intro x _
  simp only [← edgesOf_length]
  split
  · exact le_refl _
  · exact Nat.zero_le _

theorem dijkstraInit_inv (g : Graph) {s : Nat} (hs : s < g.size) :
    DInv g s (dijkstraInit g s) := by
  have hD : ∀ v d, (dijkstraInit g s).dist.getD v none = some d → v = s ∧ d = 0 := by
    intro v d hd
    change ((List.replicate g.size none).set s (some 0)).getD v none = some d at hd
    by_cases hv : v = s
    · subst hv
      rw [getD_set_eq _ _ _ (by simpa using hs)] at hd
      cases hd
      exact ⟨rfl, rfl⟩
    · rw [getD_set_ne _ _ _ (Ne.symm hv), List.getD_eq_getElem?_getD,
        List.getElem?_replicate] at hd
      split at hd <;> simp at hd
  have hDs : (dijkstraInit g s).dist.getD s none = some 0 :=
    getD_set_eq _ _ _ (by simpa using hs)
  have hP : ∀ v, (dijkstraInit g s).prev.getD v none = none := by
    intro v
    change (List.replicate g.size none).getD v none = none
    rw [List.getD_eq_getElem?_getD, List.getElem?_replicate]
    split <;> rfl
  exact
    { dlen := by simp [dijkstraInit]
      plen := by simp [dijkstraInit]
      ds := hDs
      ps := hP s
      sound := by
        intro v d hd
        obtain ⟨rfl, rfl⟩ := hD v d hd
        exact Walk.nil v
      keys := by
        intro e he
        change e ∈ [(s, (0 : Int))] at he
        rw [List.mem_singleton.1 he]
        exact ⟨0, hDs, le_refl _⟩
      nodup := List.nodup_singleton _
      prevOK := by
        intro v u hvu
        rw [hP v] at hvu
        exact absurd hvu (by simp)
      prevSome := by
        intro v d hvs hd
        exact absurd (hD v d hd).1 hvs
      relaxed := by
        intro x dx hdx
        obtain ⟨rfl, rfl⟩ := hD x dx hdx
        exact Or.inl (List.mem_singleton.2 rfl)
      mono := by
        intro v dv hdv hnot
        obtain ⟨rfl, rfl⟩ := hD v dv hdv
        exact absurd (List.mem_singleton.2 rfl) hnot }

theorem dijkstraInit_potential (g : Graph) (hw : g.WellFormed) (s : Nat) :
    potential g (dijkstraInit g s) < g.edgeTotal + 2 := by
  have h1 := openEdges_le g hw (dijkstraInit g s)
  have h2 : (dijkstraInit g s).queue.length = 1 := rfl
  unfold potential
  omega

theorem dijkstraLoop_post {g : Graph} (hw : g.WellFormed) (hp : g.PositiveWeights)
    {s t : Nat} (fuel : Nat) :
    ∀ (tie : Nat → Nat) (st : DState), DInv g s st → potential g st < fuel →
      ∃ st1, dijkstraLoop g t fuel tie st = some st1 ∧ DPost g s t st1 := by
  induction fuel with
  | zero => intro _ _ _ hlt; exact absurd hlt (Nat.not_lt_zero _)
  | succ fuel ih =>
    intro tie st h hlt
    unfold dijkstraLoop
    cases hpop : popTop (tie 0) st.queue with
    | none =>
      have hq := popTop_none hpop
      refine ⟨st, rfl, ?_⟩
      exact
        { dlen := h.dlen, ds := h.ds, ps := h.ps, sound := h.sound, prevOK := h.prevOK,
          prevSome := h.prevSome
          endOpt := by
            intro d1 hwalk
            rcases walk_bound hp h.ds h.relaxed hwalk with hl | ⟨e, he, _⟩
            · exact hl
            · rw [hq] at he
              exact absurd he (List.not_mem_nil _) }
    | some r =>
      obtain ⟨e, q⟩ := r
      simp only
      by_cases het : e.1 = t
      · rw [if_pos het]
        refine ⟨_, rfl, ?_⟩
        obtain ⟨hein, hmin, _⟩ := popTop_some hpop
        exact
          { dlen := h.dlen, ds := h.ds, ps := h.ps, sound := h.sound, prevOK := h.prevOK,
            prevSome := h.prevSome
            endOpt := by
              intro d1 hwalk
              obtain ⟨du, hdu, hle⟩ := h.keys e hein
              rw [het] at hdu
              rcases walk_bound hp h.ds h.relaxed hwalk with ⟨d, hd, hdle⟩ | ⟨e1, he1, hle1⟩
              · exact ⟨d, hd, hdle⟩
              · have := hmin e1 he1
                exact ⟨du, hdu, by omega⟩ }
      · rw [if_neg het]
        obtain ⟨hinv, hpot⟩ := dijkstra_step hw hp h hpop
        exact ih _ _ hinv (by omega)

/-! ## Reconstruction of the path -/

theorem min?_eq_some_of_least {xs : List Int} {a : Int} (ha : a ∈ xs)
    (hle : ∀ b ∈ xs, a ≤ b) : xs.min? = some a := by
  haveI : Std.Antisymm (fun (x y : Int) => x ≤ y) := ⟨fun h1 h2 => le_antisymm h1 h2⟩
  exact (List.min?_eq_some_iff (fun x => le_refl x) (fun x y => min_choice x y)
    (fun _ _ _ => le_min_iff)).2 ⟨ha, hle⟩

theorem opt_prev {g : Graph} (hp : g.PositiveWeights) {s t : Nat} {st : DState}
    (hpost : DPost g s t st) {a p : Nat} {da : Int}
    (hda : st.dist.getD a none = some da) (hopt : ∀ d1, Walk g s a d1 → da ≤ d1)
    (hprev : st.prev.getD a none = some p) :
    ∃ dp w, st.dist.getD p none = some dp ∧ (a, w) ∈ g.edgesOf p ∧ 0 < w ∧ da = dp + w ∧
      (∀ d1, Walk g s p d1 → dp ≤ d1) ∧ cheapest g p a = some w := by
  obtain ⟨w, dp, dv, hedge, hdp, hdv, hle⟩ := hpost.prevOK a p hprev
  rw [hda] at hdv
  cases hdv
  have hwalk := hpost.sound p dp hdp
  have h1 := hopt _ (Walk.snoc hwalk hedge)
  have heq : da = dp + w := by omega
  refine ⟨dp, w, hdp, hedge, edgesOf_pos hp hedge, heq, ?_, ?_⟩
  · intro d1 hw1
    have := hopt _ (Walk.snoc hw1 hedge)
    omega
  · unfold cheapest
    apply min?_eq_some_of_least
    · simp only [List.mem_map, List.mem_filter, beq_iff_eq]
      exact ⟨(a, w), ⟨hedge, rfl⟩, rfl⟩
    · intro b hb
      simp only [List.mem_map, List.mem_filter, beq_iff_eq] at hb
      obtain ⟨e, ⟨he, hea⟩, rfl⟩ := hb
      have hmem : (a, e.2) ∈ g.edgesOf p := by rw [← hea]; exact he
      have := hopt _ (Walk.snoc hwalk hmem)
      omega

theorem length_le_of_nodup_lt {l : List Nat} {n : Nat} (hnd : l.Nodup)
    (hlt : ∀ x ∈ l, x < n) : l.length ≤ n := by
  have hsub : l ⊆ List.range n := fun x hx => List.mem_range.2 (hlt x hx)
  have := (List.subperm_of_subset hnd hsub).length_le
  simpa using this

theorem dijkstraWalk_spec {g : Graph} (hp : g.PositiveWeights) {s t : Nat} {st : DState}
    (hpost : DPost g s t st) (dt : Int) (fuel : Nat) :
    ∀ (a : Nat) (path : List Nat) (len sum da : Int),
      st.dist.getD a none = some da →
      (∀ d1, Walk g s a d1 → da ≤ d1) →
      path.Nodup →
      (∀ x ∈ path, ∃ dx, st.dist.getD x none = some dx ∧ da < dx) →
      g.size ≤ fuel + path.length →
      List.Chain' (HasEdge g) (a :: path.reverse) →
      pathWeight g (a :: path.reverse) = some sum →
      (a :: path.reverse).getLast? = some t →
      sum = dt - da →
      len = wrapInt sum →
      ∃ out, dijkstraWalk st.prev st.dist fuel a path len = some (out, wrapInt dt) ∧
        out.reverse.head? = some s ∧ List.Chain' (HasEdge g) out.reverse ∧
        out.reverse.getLast? = some t ∧ pathWeight g out.reverse = some dt := by
  induction fuel with
  | zero =>
    intro a path len sum da hda _ hnd hgt hfuel _ _ _ _ _
    exfalso
    have hnd1 : (a :: path).Nodup := by
      refine List.nodup_cons.2 ⟨?_, hnd⟩
      intro hin
      obtain ⟨dx, hdx, hlt⟩ := hgt a hin
      rw [hda] at hdx
      cases hdx
      omega
    have hall : ∀ x ∈ a :: path, x < g.size := by
      intro x hx
      rw [← hpost.dlen]
      rcases List.mem_cons.1 hx with hx | hx
      · rw [hx]; exact getD_some_lt hda
      · obtain ⟨dx, hdx, _⟩ := hgt x hx
        exact getD_some_lt hdx
    have := length_le_of_nodup_lt hnd1 hall
    simp only [List.length_cons] at this
    omega
  | succ fuel ih =>
    intro a path len sum da hda hopt hnd hgt hfuel hchain hweight hlast hsum hlen
    unfold dijkstraWalk
    cases hprev : st.prev.getD a none with
    | none =>
      have has : a = s := by
        by_contra hne
        obtain ⟨u, hu⟩ := hpost.prevSome a da hne hda
        rw [hprev] at hu
        exact absurd hu (by simp)
      subst has
      rw [hpost.ds] at hda
      cases hda
      refine ⟨path ++ [a], ?_, ?_, ?_, ?_, ?_⟩
      · simp only [Option.some.injEq, Prod.mk.injEq, true_and]
        rw [hlen, hsum]
        congr 1
        omega
      · simp
      · simpa using hchain
      · simpa using hlast
      · rw [List.reverse_append, List.reverse_singleton, List.singleton_append, hweight]
        congr 1
        omega
    | some p =>
      obtain ⟨dp, w, hdp, hedge, hwpos, heq, hoptp, hcheap⟩ := opt_prev hp hpost hda hopt hprev
      have hdelta : distDelta st.dist a p = wrapInt w := by
        unfold distDelta
        rw [hda, hdp]
        simp only
        congr 1
        omega
      simp only
      rw [hdelta]
      have hrev : (path ++ [a]).reverse = a :: path.reverse := by simp
      apply ih p (path ++ [a]) (wrapInt (len + wrapInt w)) (sum + w) dp hdp hoptp
      · refine List.Nodup.append hnd (List.nodup_singleton _) ?_
        intro x hx1 hx2
        rw [List.mem_singleton.1 hx2] at hx1
        obtain ⟨dx, hdx, hlt⟩ := hgt a hx1
        rw [hda] at hdx
        cases hdx
        omega
      · intro x hx
        rcases List.mem_append.1 hx with hx | hx
        · obtain ⟨dx, hdx, hlt⟩ := hgt x hx
          exact ⟨dx, hdx, by omega⟩
        · rw [List.mem_singleton.1 hx]
          exact ⟨da, hda, by omega⟩
      · simp only [List.length_append, List.length_singleton]
        omega
      · rw [hrev]
        exact List.Chain'.cons ⟨w, hedge⟩ hchain
      · rw [hrev]
        unfold pathWeight
        rw [hcheap, hweight]
        simp only [Option.some.injEq]
        omega
      · rw [hrev, List.getLast?_cons_cons]
        exact hlast
      · omega
      · rw [hlen, wrapInt_add_right, wrapInt_add_left]

/-! ## The priority-queue search as a whole -/

theorem dijkstra_outcome {g : Graph} (hw : g.WellFormed) (hp : g.PositiveWeights)
    (tie : Nat → Nat) {s t : Nat} (hs : s < g.size) (hst : s ≠ t) :
    (¬ Reachable g s t ∧ g.shortestPathDijkstra tie s t = Outcome.noPathFound) ∨
    ∃ path W, g.shortestPathDijkstra tie s t = Outcome.ok path (wrapInt W) ∧
      Walk g s t W ∧ (∀ d1, Walk g s t d1 → W ≤ d1) ∧
      path.head? = some s ∧ path.getLast? = some t ∧
      List.Chain' (HasEdge g) path ∧ pathWeight g path = some W := by
  obtain ⟨st1, hloop, hpost⟩ := dijkstraLoop_post (t := t) hw hp (g.edgeTotal + 2) tie
    (dijkstraInit g s) (dijkstraInit_inv g hs) (dijkstraInit_potential g hw s)
  unfold Graph.shortestPathDijkstra
  rw [hloop]
  simp only
  cases hprev : st1.prev.getD t none with
  | none =>
    left
    refine ⟨?_, rfl⟩
    rintro ⟨d1, hwalk⟩
    obtain ⟨d, hd, _⟩ := hpost.endOpt d1 hwalk
    obtain ⟨u, hu⟩ := hpost.prevSome t d (Ne.symm hst) hd
    rw [hprev] at hu
    exact absurd hu (by simp)
  | some p =>
    right
    obtain ⟨w, dp, dt, _, _, hdt, _⟩ := hpost.prevOK t p hprev
    have hopt : ∀ d1, Walk g s t d1 → dt ≤ d1 := by
      intro d1 hwalk
      obtain ⟨d, hd, hle⟩ := hpost.endOpt d1 hwalk
      rw [hdt] at hd
      cases hd
      exact hle
    obtain ⟨out, hout, hhead, hchain, hlast, hweight⟩ :=
      dijkstraWalk_spec hp hpost dt g.size t [] 0 0 dt hdt hopt List.nodup_nil
        (fun x hx => absurd hx (List.not_mem_nil _)) (by simp)
        (by simp) rfl rfl (by omega) wrapInt_zero.symm
    simp only [hout]
    exact ⟨out.reverse, dt, rfl, hpost.sound t dt hdt, hopt, hhead, hlast, hchain, hweight⟩

/-! ## Claims about the priority-queue search -/

/-- C4: on a well-formed graph with positive weights, for valid `start ≠ end`,
`shortestPathDijkstra` fails with the error thrown at `prev[end] == -1` if and only if the
graph has no walk from `start` to `end`. -/
theorem dijkstra_noPathFound_iff (g : Graph) (tie : Nat → Nat) (start end_ : Nat)
    (hw : g.WellFormed) (hp : g.PositiveWeights)
    (hs : start < g.size) (_ht : end_ < g.size) (hne : start ≠ end_) :
    g.shortestPathDijkstra tie start end_ = Outcome.noPathFound ↔ ¬ Reachable g start end_ := by
  rcases dijkstra_outcome hw hp tie hs hne with ⟨hnr, hfail⟩ | ⟨path, W, hok, hwalk, _⟩
  · exact ⟨fun _ => hnr, fun _ => hfail⟩
  · constructor
    · intro hfail
      rw [hok] at hfail
      exact absurd hfail (by simp)
    · intro hnr
      exact absurd ⟨W, hwalk⟩ hnr

/-- Witness for C4: in the scenario graph vertex 0 cannot be reached from vertex 3. -/
theorem dijkstra_noPathFound_iff_witness :
    scenarioGraph.shortestPathDijkstra (fun _ => 0) 3 0 = Outcome.noPathFound ↔
      ¬ Reachable scenarioGraph 3 0 :=
  dijkstra_noPathFound_iff scenarioGraph (fun _ => 0) 3 0 (by decide) (by decide) (by decide)
    (by decide) (by decide)

/-- C9: when `shortestPathDijkstra` succeeds on a well-formed graph with positive weights
and valid `start ≠ end`, the returned path begins with `start`, ends with `end`, and every
two consecutive vertices of it are joined by an edge of the graph. -/
theorem dijkstra_path_shape (g : Graph) (tie : Nat → Nat) (start end_ : Nat)
    (path : List Nat) (pathLength : Int)
    (hw : g.WellFormed) (hp : g.PositiveWeights)
    (hs : start < g.size) (_ht : end_ < g.size) (hne : start ≠ end_)
    (hok : g.shortestPathDijkstra tie start end_ = Outcome.ok path pathLength) :
    path.head? = some start ∧ path.getLast? = some end_ ∧
      List.Chain' (fun u v => ∃ w, (v, w) ∈ g.edgesOf u) path := by
  rcases dijkstra_outcome hw hp tie hs hne with ⟨_, hfail⟩ | ⟨p, W, hok1, _, _, h1, h2, h3, _⟩
  · rw [hfail] at hok
    exact absurd hok (by simp)
  · rw [hok1] at hok
    simp only [Outcome.ok.injEq] at hok
    obtain ⟨rfl, rfl⟩ := hok
    exact ⟨h1, h2, h3⟩

/-- Witness for C9: the path `[0, 2, 1, 3]` of the concrete scenario. -/
theorem dijkstra_path_shape_witness :
    [0, 2, 1, 3].head? = some 0 ∧ [0, 2, 1, 3].getLast? = some 3 ∧
      List.Chain' (fun u v => ∃ w, (v, w) ∈ scenarioGraph.edgesOf u) [0, 2, 1, 3] :=
  dijkstra_path_shape scenarioGraph (fun _ => 0) 0 3 [0, 2, 1, 3] 5 (by decide) (by decide)
    (by decide) (by decide) (by decide) (by decide)

theorem bfRelax_reach {g : Graph} {s u : Nat} {st : BState} {e : Nat × Int}
    (he : e ∈ g.edgesOf u) (h : BFReach g s st) : BFReach g s (bfRelax u st e) := by
  unfold bfRelax
  split
  · next hc =>
    obtain ⟨d, hd⟩ := h.dist_reach u hc.1
    have hnew : Reachable g s e.1 := ⟨d + e.2, Walk.snoc hd he⟩
    constructor
    · intro v hv
      change (st.distance.set e.1 _).getD v INT_MAX ≠ INT_MAX at hv
      by_cases hve : v = e.1
      · rw [hve]; exact hnew
      · rw [getD_set_ne _ _ _ (Ne.symm hve)] at hv
        exact h.dist_reach v hv
    · intro v p hv
      change (st.predecessor.set e.1 _).getD v none = some p at hv
      by_cases hve : v = e.1
      · rw [hve]; exact hnew
      · rw [getD_set_ne _ _ _ (Ne.symm hve)] at hv
        exact h.pred_reach v p hv
  · exact h

theorem foldl_bfRelax_reach {g : Graph} {s u : Nat} (es : List (Nat × Int))
    (hes : ∀ e ∈ es, e ∈ g.edgesOf u) (st : BState) (h : BFReach g s st) :
    BFReach g s (es.foldl (bfRelax u) st) := by
  induction es generalizing st with
  | nil => exact h
  | cons e es ih =>
    exact ih (fun x hx => hes x (List.mem_cons_of_mem _ hx)) _
      (bfRelax_reach (hes e (List.mem_cons_self _ _)) h)

theorem bfPass_reach {g : Graph} {s : Nat} (st : BState) (h : BFReach g s st) :
    BFReach g s (bfPass g st) := by
  unfold bfPass
  generalize List.range g.size = us
  induction us generalizing st with
  | nil => exact h
  | cons u us ih => exact ih _ (foldl_bfRelax_reach _ (fun _ he => he) st h)

theorem bfPasses_reach {g : Graph} {s : Nat} (k : Nat) (st : BState) (h : BFReach g s st) :
    BFReach g s (bfPasses g k st) := by
  induction k generalizing st with
  | zero => exact h
  | succ k ih => exact ih _ (bfPass_reach st h)

theorem bfInit_reach (g : Graph) (s : Nat) : BFReach g s (bfInit g s) := by
  constructor
  · intro v hv
    change ((List.replicate g.size INT_MAX).set s 0).getD v INT_MAX ≠ INT_MAX at hv
    by_cases hvs : v = s
    · rw [hvs]; exact ⟨0, Walk.nil s⟩
    · exfalso
      apply hv
      rw [getD_set_ne _ _ _ (Ne.symm hvs), List.getD_eq_getElem?_getD, List.getElem?_replicate]
      split <;> rfl
  · intro v p hv
    change (List.replicate g.size none).getD v none = some p at hv
    rw [List.getD_eq_getElem?_getD, List.getElem?_replicate] at hv
    split at hv <;> simp at hv

theorem bfSum_nil (g : Graph) {k : Nat} (hk : 0 < k) (i : Nat) (acc : Int) :
    bfSum g [] k i acc = none := by
  obtain ⟨n, rfl⟩ : ∃ n, k = n + 1 := ⟨k - 1, by omega⟩
  simp [bfSum]

theorem bfFinish_nil (g : Graph) : bfFinish g [] = Outcome.outOfRange := by
  unfold bfFinish
  rw [bfSum_nil g (by rw [sizeMinusOne_nil]; decide)]

/-- C3, as the code behaves: for every graph and every valid `start ≠ end` with `end` not
reachable from `start`, `shortestPathBellmanFord` clears the path, then `path.size() - 1`
wraps around and the summation loop reads `path[0]` of the empty vector, instead of
returning the empty path with weight 0. -/
theorem bellmanFord_unreachable_reads_past_end (g : Graph) (start end_ : Nat)
    (hs : start < g.size) (hne : start ≠ end_) (hnr : ¬ Reachable g start end_) :
    g.shortestPathBellmanFord start end_ = Outcome.outOfRange := by
  have h := bfPasses_reach (g.size - 1) _ (bfInit_reach g start)
  obtain ⟨n, hn⟩ : ∃ n, g.size = n + 1 := ⟨g.size - 1, by omega⟩
  unfold Graph.shortestPathBellmanFord
  generalize bfPasses g (g.size - 1) (bfInit g start) = st at h
  have hpred : st.predecessor.getD end_ none = none := by
    cases hp : st.predecessor.getD end_ none with
    | none => rfl
    | some p => exact absurd (h.pred_reach end_ p hp) hnr
  have hwalk : bfWalk st.predecessor g.size end_ [] = some [end_] := by
    rw [hn, bfWalk, hpred]; rfl
  have hpath : bfPath start [end_] = [] := by
    simp [bfPath, Ne.symm hne]
  rw [hwalk]
  show bfFinish g (bfPath start [end_]) = Outcome.outOfRange
  rw [hpath, bfFinish_nil]

/-- Witness for C3: the graph with two vertices and no edge, searched from 0 to 1. -/
theorem bellmanFord_unreachable_reads_past_end_witness :
    (Graph.create 2).shortestPathBellmanFord 0 1 = Outcome.outOfRange :=
  bellmanFord_unreachable_reads_past_end (Graph.create 2) 0 1 (by decide) (by decide) (by
    rintro ⟨d, hw⟩
    have key : ∀ s v d, Walk (Graph.create 2) s v d → s = v := by
      intro s v d h
      induction h with
      | nil => rfl
      | snoc _ he _ => rw [edgesOf_create] at he; exact absurd he (List.not_mem_nil _)
    exact absurd (key 0 1 d hw) (by decide))

/-! ## Graphs built by the constructor and `addEdge` are well formed -/

theorem create_wellFormed (n : Nat) : (Graph.create n).WellFormed := by
  constructor
  · simp [Graph.create]
  · intro x hx e he
    simp only [Graph.create, List.mem_map] at hx
    obtain ⟨i, _, rfl⟩ := hx
    exact absurd he (List.not_mem_nil _)

theorem addEdge_wellFormed (g : Graph) (u v : Nat) (w : Int) (hw : g.WellFormed)
    (hv : v < g.size) : (g.addEdge u v w).WellFormed := by
  constructor
  · rw [addEdge_vertices_length]; exact hw.1
  · intro x hx e he
    show e.1 < g.size
    unfold Graph.addEdge at hx
    cases hu : g.vertices[u]? with
    | none =>
      rw [hu] at hx
      exact hw.2 x hx e he
    | some y =>
      rw [hu] at hx
      rcases List.mem_or_eq_of_mem_set hx with hx | hx
      · exact hw.2 x hx e he
      · rw [hx] at he
        rcases List.mem_append.1 he with he | he
        · exact hw.2 y (List.getElem?_mem hu) e he
        · rw [List.mem_singleton.1 he]; exact hv

theorem build_wellFormed (n : Nat) (calls : List (Nat × Nat × Int))
    (h : ∀ c ∈ calls, c.1 < n ∧ c.2.1 < n) : (Graph.build n calls).WellFormed := by
  unfold Graph.build
  have key : ∀ (cs : List (Nat × Nat × Int)) (g : Graph), g.WellFormed → g.size = n →
      (∀ c ∈ cs, c.1 < n ∧ c.2.1 < n) →
      (cs.foldl (fun g c => g.addEdge c.1 c.2.1 c.2.2) g).WellFormed := by
    intro cs
    induction cs with
    | nil => intro g hg _ _; exact hg
    | cons c cs ih =>
      intro g hg hs hc
      have hcv : c.2.1 < g.size := hs ▸ (hc c (List.mem_cons_self _ _)).2
      exact ih _ (addEdge_wellFormed g _ _ _ hg hcv) hs
        (fun c1 hc1 => hc c1 (List.mem_cons_of_mem _ hc1))
  exact key calls _ (create_wellFormed n) rfl h

/-! ## Frame of `addEdge` and the data-model invariant -/

/-- C12: on a well-formed graph, for valid `u` and `v`, `addEdge(u, v, w)` appends `(v, w)`
as the last element of the adjacency list of `u`, raises `edgeCount` by exactly 1 and
leaves the vertex count and the adjacency list of every other vertex unchanged; nothing
is checked against the edges already stored, so a parallel edge is kept as well. -/
theorem addEdge_frame (g : Graph) (u v : Nat) (w : Int) (hw : g.WellFormed)
    (hu : u < g.size) (_hv : v < g.size) :
    (g.addEdge u v w).edgesOf u = g.edgesOf u ++ [(v, w)] ∧
    (g.addEdge u v w).edgeCount = g.edgeCount + 1 ∧
    (g.addEdge u v w).size = g.size ∧
    (g.addEdge u v w).vertices.length = g.vertices.length ∧
    ∀ x, x ≠ u → (g.addEdge u v w).edgesOf x = g.edgesOf x :=
  ⟨edgesOf_addEdge_self g v w (by rw [hw.1]; exact hu), rfl, rfl,
    addEdge_vertices_length g u v w, fun _ hx => edgesOf_addEdge_ne g v w (Ne.symm hx)⟩

/-- Witness for C12: a second edge from 0 to 1 is inserted next to the one already there. -/
theorem addEdge_frame_witness :
    (((Graph.create 2).addEdge 0 1 5).addEdge 0 1 2).edgesOf 0 =
      ((Graph.create 2).addEdge 0 1 5).edgesOf 0 ++ [(1, 2)] ∧
    (((Graph.create 2).addEdge 0 1 5).addEdge 0 1 2).edgeCount =
      ((Graph.create 2).addEdge 0 1 5).edgeCount + 1 ∧
    (((Graph.create 2).addEdge 0 1 5).addEdge 0 1 2).size = ((Graph.create 2).addEdge 0 1 5).size ∧
    (((Graph.create 2).addEdge 0 1 5).addEdge 0 1 2).vertices.length =
      ((Graph.create 2).addEdge 0 1 5).vertices.length ∧
    ∀ x, x ≠ 0 → (((Graph.create 2).addEdge 0 1 5).addEdge 0 1 2).edgesOf x =
      ((Graph.create 2).addEdge 0 1 5).edgesOf x :=
  addEdge_frame ((Graph.create 2).addEdge 0 1 5) 0 1 2 (by decide) (by decide) (by decide)

theorem canonical_index {g : Graph} (h : g.Canonical) (i : Nat) (hi : i < g.size) :
    g.vertices[i]?.map (fun x => x.index) = some i := by
  have h1 : (g.vertices.map (fun x => x.index))[i]? = some i := by
    rw [h.1]
    exact List.getElem?_range hi
  rw [List.getElem?_map] at h1
  exact h1

/-- C13: every graph reached from `Graph(n)` by `addEdge(u, v, w)` calls with
`0 ≤ u, v < n` has `n` vertices, `edgeCount` equal to the sum of the lengths of the
adjacency lists, every stored neighbor below `n`, and index `i` at position `i`; `Graph(n)`
itself has `n` vertices with empty lists and `edgeCount` 0. -/
theorem build_invariant (n : Nat) (calls : List (Nat × Nat × Int))
    (h : ∀ c ∈ calls, c.1 < n ∧ c.2.1 < n) :
    ((Graph.build n calls).size = n ∧
     (Graph.build n calls).vertices.length = n ∧
     (Graph.build n calls).edgeCount =
       ((Graph.build n calls).vertices.map (fun x => x.edges.length)).sum ∧
     (∀ x ∈ (Graph.build n calls).vertices, ∀ e ∈ x.edges, e.1 < n) ∧
     ∀ i, i < n → (Graph.build n calls).vertices[i]?.map (fun x => x.index) = some i) ∧
    ((Graph.create n).vertices.length = n ∧
     (∀ x ∈ (Graph.create n).vertices, x.edges = []) ∧
     (Graph.create n).edgeCount = 0) := by
  obtain ⟨hcan, hsize⟩ := build_canonical n calls (fun c hc => (h c hc).1)
  have hwf := build_wellFormed n calls h
  refine ⟨⟨hsize, ?_, hcan.2, ?_, ?_⟩, ?_, ?_, rfl⟩
  · rw [hwf.1, hsize]
  · intro x hx e he
    have := hwf.2 x hx e he
    rw [hsize] at this
    exact this
  · intro i hi
    exact canonical_index hcan i (by rw [hsize]; exact hi)
  · simp [Graph.create]
  · intro x hx
    simp only [Graph.create, List.mem_map] at hx
    obtain ⟨i, _, rfl⟩ := hx
    rfl

/-- Witness for C13: three vertices, a parallel edge and a self-loop. -/
theorem build_invariant_witness :
    ((Graph.build 3 [(0, 1, 5), (0, 1, 2), (2, 2, 7)]).size = 3 ∧
     (Graph.build 3 [(0, 1, 5), (0, 1, 2), (2, 2, 7)]).vertices.length = 3 ∧
     (Graph.build 3 [(0, 1, 5), (0, 1, 2), (2, 2, 7)]).edgeCount =
       ((Graph.build 3 [(0, 1, 5), (0, 1, 2), (2, 2, 7)]).vertices.map
         (fun x => x.edges.length)).sum ∧
     (∀ x ∈ (Graph.build 3 [(0, 1, 5), (0, 1, 2), (2, 2, 7)]).vertices,
       ∀ e ∈ x.edges, e.1 < 3) ∧
     ∀ i, i < 3 →
       (Graph.build 3 [(0, 1, 5), (0, 1, 2), (2, 2, 7)]).vertices[i]?.map (fun x => x.index) =
         some i) ∧
    ((Graph.create 3).vertices.length = 3 ∧
     (∀ x ∈ (Graph.create 3).vertices, x.edges = []) ∧
     (Graph.create 3).edgeCount = 0) :=
  build_invariant 3 [(0, 1, 5), (0, 1, 2), (2, 2, 7)] (by decide)

/-! ## Weights and targets of generated edges -/

theorem mem_addEdge_edges {g : Graph} {u v : Nat} {w : Int} {x : Vertex} {e : Nat × Int}
    (hx : x ∈ (g.addEdge u v w).vertices) (he : e ∈ x.edges) :
    (∃ y ∈ g.vertices, e ∈ y.edges) ∨ e = (v, w) := by
  unfold Graph.addEdge at hx
  cases hu : g.vertices[u]? with
  | none =>
    rw [hu] at hx
    exact Or.inl ⟨x, hx, he⟩
  | some y =>
    rw [hu] at hx
    rcases List.mem_or_eq_of_mem_set hx with hx | hx
    · exact Or.inl ⟨x, hx, he⟩
    · rw [hx] at he
      rcases List.mem_append.1 he with he | he
      · exact Or.inl ⟨y, List.getElem?_mem hu, he⟩
      · exact Or.inr (List.mem_singleton.1 he)

theorem genStep_graph (d : Nat) (st : GenState) (direction : Nat) (weight : Int) :
    (genStep d st direction weight).graph = st.graph ∨
    (genStep d st direction weight).graph =
      st.graph.addEdge st.currentVertexIndex direction weight := by
  by_cases hacc : direction ≠ st.currentVertexIndex ∧
      direction ∉ st.directionsAddedToCurrentVertex
  · by_cases hfull : st.edgesAddedToVertex + 1 = d
    · rw [genStep_accept_full weight hacc hfull]; exact Or.inr rfl
    · rw [genStep_accept_more weight hacc hfull]; exact Or.inr rfl
  · left
    unfold genStep
    rw [if_neg hacc]
    show (if st.edgesAddedToVertex = d then _ else st).graph = st.graph
    split <;> rfl

theorem genWalk_edges {n d : Nat} (P : Nat × Int → Prop) (directions : List Nat) :
    ∀ (weights : List Int) (st : GenState) (g : Graph),
      (∀ x ∈ directions, ∀ w ∈ weights, P (x, w)) →
      (∀ x ∈ st.graph.vertices, ∀ e ∈ x.edges, P e) →
      genWalk n d directions weights st = some g →
      ∀ x ∈ g.vertices, ∀ e ∈ x.edges, P e := by
  induction directions with
  | nil =>
    intro weights st g _ hst hg
    unfold genWalk at hg
    split at hg
    · exact absurd hg (by simp)
    · cases hg; exact hst
  | cons direction directions ih =>
    intro weights st g hP hst hg
    unfold genWalk at hg
    split at hg
    · cases weights with
      | nil => exact absurd hg (by simp)
      | cons weight weights =>
        refine ih weights _ g ?_ ?_ hg
        · intro x hx w hw
          exact hP x (List.mem_cons_of_mem _ hx) w (List.mem_cons_of_mem _ hw)
        · intro x hx e he
          rcases genStep_graph d st direction weight with hsame | hadd
          · rw [hsame] at hx
            exact hst x hx e he
          · rw [hadd] at hx
            rcases mem_addEdge_edges hx he with ⟨y, hy, hey⟩ | heq
            · exact hst y hy e hey
            · rw [heq]
              exact hP direction (List.mem_cons_self _ _) weight (List.mem_cons_self _ _)
    · cases hg; exact hst

theorem mem_poolDirections {n d x : Nat} (h : x ∈ poolDirections n d) : x < n := by
  simp only [poolDirections, List.mem_flatMap, List.mem_range, List.mem_map] at h
  obtain ⟨i, hi, _, _, rfl⟩ := h
  exact hi

theorem mem_poolWeights {n d : Nat} {w : Int} (h : w ∈ poolWeights n d) : 1 ≤ w ∧ w ≤ 10 := by
  simp only [poolWeights, List.mem_flatMap, List.mem_range, List.mem_map] at h
  obtain ⟨_, _, j, _, rfl⟩ := h
  have : j % 10 < 10 := Nat.mod_lt _ (by decide)
  constructor <;> omega

/-- C14: for every `numberOfVertices ≥ 1`, `desiredOutgoingDegree ≥ 1` and every pair of
permutations of the two pools on which `generateGraph` completes, every edge of the
returned graph has a weight between 1 and 10 and a neighbor below `numberOfVertices`;
in particular the graph has positive weights. -/
theorem generateGraph_edges_bounded (numberOfVertices desiredOutgoingDegree : Nat)
    (directions : List Nat) (weights : List Int) (g : Graph)
    (_hn : 1 ≤ numberOfVertices) (_hd : 1 ≤ desiredOutgoingDegree)
    (hdir : directions.Perm (poolDirections numberOfVertices desiredOutgoingDegree))
    (hwt : weights.Perm (poolWeights numberOfVertices desiredOutgoingDegree))
    (hg : Graph.generateGraph numberOfVertices desiredOutgoingDegree directions weights = some g) :
    (∀ x ∈ g.vertices, ∀ e ∈ x.edges, 1 ≤ e.2 ∧ e.2 ≤ 10 ∧ e.1 < numberOfVertices) ∧
    g.PositiveWeights := by
  have hall : ∀ x ∈ g.vertices, ∀ e ∈ x.edges, 1 ≤ e.2 ∧ e.2 ≤ 10 ∧ e.1 < numberOfVertices := by
    refine genWalk_edges (fun e => 1 ≤ e.2 ∧ e.2 ≤ 10 ∧ e.1 < numberOfVertices) directions
      weights _ g ?_ ?_ hg
    · intro x hx w hw
      have h1 := mem_poolWeights (hwt.mem_iff.1 hw)
      exact ⟨h1.1, h1.2, mem_poolDirections (hdir.mem_iff.1 hx)⟩
    · intro x hx e he
      simp only [Graph.create, List.mem_map] at hx
      obtain ⟨i, _, rfl⟩ := hx
      exact absurd he (List.not_mem_nil _)
  refine ⟨hall, ?_⟩
  intro x hx e he
  have := (hall x hx e he).1
  omega

/-- Witness for C14: two vertices, degree 1, target pool shuffled to `[1,0,0,0,0,1,1,1]`. -/
theorem generateGraph_edges_bounded_witness :
    (∀ x ∈ (Graph.build 2 [(0, 1, 1), (1, 0, 2)]).vertices,
      ∀ e ∈ x.edges, 1 ≤ e.2 ∧ e.2 ≤ 10 ∧ e.1 < 2) ∧
    (Graph.build 2 [(0, 1, 1), (1, 0, 2)]).PositiveWeights :=
  generateGraph_edges_bounded 2 1 [1, 0, 0, 0, 0, 1, 1, 1] [1, 2, 3, 4, 1, 2, 3, 4]
    (Graph.build 2 [(0, 1, 1), (1, 0, 2)]) (by decide) (by decide) (by decide) (by decide)
    (by decide)

/-! ## The total weight returned by the relaxation search -/

theorem bfSum_eq (g : Graph) (path : List Nat) (k : Nat) :
    ∀ (i : Nat) (acc : Int), i + k + 1 = path.length → wrapInt acc = acc →
      bfSum g path k i acc = some (wrapInt (acc + firstEdgeSum g (path.drop i))) := by
  induction k with
  | zero =>
    intro i acc hi hacc
    have hlt : i < path.length := by omega
    rw [List.drop_eq_getElem_cons hlt, List.drop_of_length_le (by omega)]
    simp [bfSum, firstEdgeSum, hacc]
  | succ k ih =>
    intro i acc hi _
    have hlt : i < path.length := by omega
    have hlt1 : i + 1 < path.length := by omega
    rw [List.drop_eq_getElem_cons hlt, List.drop_eq_getElem_cons hlt1]
    unfold bfSum
    rw [List.getElem?_eq_getElem hlt, List.getElem?_eq_getElem hlt1]
    simp only
    rw [ih (i + 1) _ (by omega) (wrapInt_wrapInt _), List.drop_eq_getElem_cons hlt1,
      wrapInt_add_left]
    simp only [firstEdgeSum, Option.some.injEq]
    congr 1
    omega

theorem sizeMinusOne_of_ne_nil {path : List Nat} (h : path ≠ []) :
    sizeMinusOne path = path.length - 1 := by
  have : 1 ≤ path.length := List.length_pos.2 h
  unfold sizeMinusOne
  rw [if_pos this]

theorem bfFinish_of_ne_nil (g : Graph) {path : List Nat} (h : path ≠ []) :
    bfFinish g path = Outcome.ok path (wrapInt (firstEdgeSum g path)) := by
  have hlen : 1 ≤ path.length := List.length_pos.2 h
  unfold bfFinish
  rw [sizeMinusOne_of_ne_nil h,
    bfSum_eq g path (path.length - 1) 0 0 (by omega) wrapInt_zero]
  simp

/-- C16, as stated, fails on the graph with the parallel edges 0→1 of weight `INT_MAX` and
of weight 1 and the edge 1→2 of weight 1: the relaxation search from 0 to 2 returns the
path `[0, 1, 2]`, the first edges from 0 to 1 and from 1 to 2 have the weights `INT_MAX`
and 1 with sum 2147483648, and the returned total weight is the `int` sum -2147483648. -/
theorem bellmanFord_sum_wraps_around :
    (Graph.build 3 [(0, 1, 2147483647), (0, 1, 1), (1, 2, 1)]).shortestPathBellmanFord 0 2 =
      Outcome.ok [0, 1, 2] (-2147483648) ∧
    firstEdgeSum (Graph.build 3 [(0, 1, 2147483647), (0, 1, 1), (1, 2, 1)]) [0, 1, 2] =
      2147483648 :=
  ⟨by decide, by decide⟩

/-- C16, amended: whenever `shortestPathBellmanFord` returns a non-empty path, the total
weight it returns is computed from the path and the adjacency lists alone: with `S` the sum,
over consecutive vertices `u, v` of that path, of the weight of the first edge in the
adjacency list of `u` whose neighbor is `v`, it is `S` reduced to the range of `int`, and
is `S` itself when `S` lies in that range. -/
theorem bellmanFord_weight_is_first_edge_sum (g : Graph) (start end_ : Nat)
    (path : List Nat) (pathLength : Int)
    (hok : g.shortestPathBellmanFord start end_ = Outcome.ok path pathLength)
    (_hne : path ≠ []) :
    pathLength = wrapInt (firstEdgeSum g path) ∧
      (-2147483648 ≤ firstEdgeSum g path → firstEdgeSum g path ≤ INT_MAX →
        pathLength = firstEdgeSum g path) := by
  unfold Graph.shortestPathBellmanFord at hok
  cases hwalk : bfWalk (bfPasses g (g.size - 1) (bfInit g start)).predecessor g.size end_ [] with
  | none =>
    rw [hwalk] at hok
    exact absurd hok (by simp)
  | some pushed =>
    rw [hwalk] at hok
    simp only at hok
    by_cases hp : bfPath start pushed = []
    · rw [hp, bfFinish_nil] at hok
      exact absurd hok (by simp)
    · rw [bfFinish_of_ne_nil g hp] at hok
      simp only [Outcome.ok.injEq] at hok
      obtain ⟨h1, h2⟩ := hok
      rw [← h2, h1]
      exact ⟨rfl, fun hlo hhi => wrapInt_of_range hlo hhi⟩

/-- Witness for C16: with the parallel edges 0→1 of weight 5 and of weight 2 the returned
weight 5 is that of the first of them. -/
theorem bellmanFord_weight_is_first_edge_sum_witness :
    (5 : Int) = wrapInt (firstEdgeSum (Graph.build 2 [(0, 1, 5), (0, 1, 2)]) [0, 1]) ∧
      (-2147483648 ≤ firstEdgeSum (Graph.build 2 [(0, 1, 5), (0, 1, 2)]) [0, 1] →
        firstEdgeSum (Graph.build 2 [(0, 1, 5), (0, 1, 2)]) [0, 1] ≤ INT_MAX →
        (5 : Int) = firstEdgeSum (Graph.build 2 [(0, 1, 5), (0, 1, 2)]) [0, 1]) :=
  bellmanFord_weight_is_first_edge_sum (Graph.build 2 [(0, 1, 5), (0, 1, 2)]) 0 1 [0, 1] 5
    (by decide) (by decide)

/-! ## The searches leave the graph as it is -/

theorem memberSize_run (g : Graph) : memberSize.run g = (g.size, g) := rfl

theorem memberEdges_run (u : Nat) (g : Graph) : (memberEdges u).run g = (g.edgesOf u, g) := rfl

theorem memberEdgeTotal_run (g : Graph) : memberEdgeTotal.run g = (g.edgeTotal, g) := rfl

theorem dijkstraLoopM_run (g : Graph) (end_ : Nat) (fuel : Nat) :
    ∀ (tie : Nat → Nat) (st : DState),
      (dijkstraLoopM end_ fuel tie st).run g = (dijkstraLoop g end_ fuel tie st, g) := by
  induction fuel with
  | zero => intro tie st; rfl
  | succ fuel ih =>
    intro tie st
    unfold dijkstraLoopM dijkstraLoop
    cases h : popTop (tie 0) st.queue with
    | none => rfl
    | some x =>
      obtain ⟨e, q⟩ := x
      simp only
      split
      · rfl
      · simp only [StateT.run_bind, memberEdges_run]
        exact ih _ _

theorem shortestPathDijkstraM_run (tie : Nat → Nat) (g : Graph) (start end_ : Nat) :
    (shortestPathDijkstraM tie start end_).run g = (g.shortestPathDijkstra tie start end_, g) := by
  unfold shortestPathDijkstraM Graph.shortestPathDijkstra
  simp only [StateT.run_bind, memberSize_run, memberEdgeTotal_run, dijkstraLoopM_run,
    Id.bind_eq]
  change (match dijkstraLoop g end_ (g.edgeTotal + 2) tie (dijkstraInit g start) with
    | none => (pure Outcome.diverges : StateM Graph Outcome)
    | some st =>
      match st.prev.getD end_ none with
      | none => pure Outcome.noPathFound
      | some _ => do
        let size ← memberSize
        match dijkstraWalk st.prev st.dist size end_ [] 0 with
        | none => pure Outcome.diverges
        | some (path, pathLength) => pure (Outcome.ok path.reverse pathLength)).run g = _
  cases dijkstraLoop g end_ (g.edgeTotal + 2) tie (dijkstraInit g start) with
  | none => rfl
  | some st =>
    simp only
    cases st.prev.getD end_ none with
    | none => rfl
    | some p =>
      simp only [StateT.run_bind, memberSize_run, Id.bind_eq]
      cases dijkstraWalk st.prev st.dist g.size end_ [] 0 with
      | none => rfl
      | some r => rfl

theorem foldlM_pass_run (g : Graph) (us : List Nat) :
    ∀ st : BState,
      (us.foldlM (fun s u => do
          let edges ← memberEdges u
          return edges.foldl (bfRelax u) s) st : StateM Graph BState).run g =
        (us.foldl (fun s u => (g.edgesOf u).foldl (bfRelax u) s) st, g) := by
  induction us with
  | nil => intro st; rfl
  | cons u us ih =>
    intro st
    simp only [List.foldlM_cons, StateT.run_bind, memberEdges_run, List.foldl_cons]
    exact ih _

theorem bfPassM_run (g : Graph) (st : BState) : (bfPassM st).run g = (bfPass g st, g) := by
  unfold bfPassM bfPass
  simp only [StateT.run_bind, memberSize_run]
  exact foldlM_pass_run g _ st

theorem bfPassesM_run (g : Graph) (k : Nat) :
    ∀ st : BState, (bfPassesM k st).run g = (bfPasses g k st, g) := by
  induction k with
  | zero => intro st; rfl
  | succ k ih =>
    intro st
    unfold bfPassesM bfPasses
    simp only [StateT.run_bind, bfPassM_run]
    exact ih _

theorem bfSumM_run (g : Graph) (path : List Nat) (k : Nat) :
    ∀ (i : Nat) (acc : Int), (bfSumM path k i acc).run g = (bfSum g path k i acc, g) := by
  induction k with
  | zero => intro i acc; rfl
  | succ k ih =>
    intro i acc
    unfold bfSumM bfSum
    cases path[i]? with
    | none => rfl
    | some u =>
      cases path[i + 1]? with
      | none => rfl
      | some v =>
        simp only [StateT.run_bind, memberEdges_run]
        exact ih _ _

theorem shortestPathBellmanFordM_run (g : Graph) (start end_ : Nat) :
    (shortestPathBellmanFordM start end_).run g = (g.shortestPathBellmanFord start end_, g) := by
  unfold shortestPathBellmanFordM Graph.shortestPathBellmanFord
  simp only [StateT.run_bind, memberSize_run, bfPassesM_run, Id.bind_eq]
  change (match bfWalk (bfPasses g (g.size - 1) (bfInit g start)).predecessor g.size end_ [] with
    | none => (pure Outcome.diverges : StateM Graph Outcome)
    | some pushed => do
      let sum ← bfSumM (bfPath start pushed) (sizeMinusOne (bfPath start pushed)) 0 0
      match sum with
      | none => pure Outcome.outOfRange
      | some pathLength => pure (Outcome.ok (bfPath start pushed) pathLength)).run g = _
  cases bfWalk (bfPasses g (g.size - 1) (bfInit g start)).predecessor g.size end_ [] with
  | none => rfl
  | some pushed =>
    simp only [StateT.run_bind, bfSumM_run, Id.bind_eq]
    unfold bfFinish
    cases bfSum g (bfPath start pushed) (sizeMinusOne (bfPath start pushed)) 0 0 with
    | none => rfl
    | some pathLength => rfl

/-- C15: neither search changes the graph.  The object left by a call of
`shortestPathDijkstra` or of `shortestPathBellmanFord`, whatever its outcome, is the object
before the call (the same `vertices`, hence the same adjacency lists, the same `size` and
the same `edgeCount`), the outcome is the one the search computes from that graph, and a
second call with the same `start` and `end` on the object left by the first has the same
outcome as the first. -/
theorem searches_leave_graph (tie : Nat → Nat) (g : Graph) (start end_ : Nat) :
    ((g.callShortestPathDijkstra tie start end_).2 = g ∧
      (g.callShortestPathDijkstra tie start end_).1 = g.shortestPathDijkstra tie start end_ ∧
      ((g.callShortestPathDijkstra tie start end_).2.callShortestPathDijkstra tie start end_).1 =
        (g.callShortestPathDijkstra tie start end_).1) ∧
    ((g.callShortestPathBellmanFord start end_).2 = g ∧
      (g.callShortestPathBellmanFord start end_).1 = g.shortestPathBellmanFord start end_ ∧
      ((g.callShortestPathBellmanFord start end_).2.callShortestPathBellmanFord start end_).1 =
        (g.callShortestPathBellmanFord start end_).1) := by
  have hD : g.callShortestPathDijkstra tie start end_ =
      (g.shortestPathDijkstra tie start end_, g) := shortestPathDijkstraM_run tie g start end_
  have hB : g.callShortestPathBellmanFord start end_ =
      (g.shortestPathBellmanFord start end_, g) := shortestPathBellmanFordM_run g start end_
  rw [hD, hB]
  simp only [hD, hB, and_self]

/-- Witness for C15: both searches from 0 to 3 on the graph of the concrete scenario return
the path `[0, 2, 1, 3]` with weight 5 and leave that graph, the priority-queue search from
3 to 0 fails and leaves that graph, and a second call repeats the outcome of the first. -/
theorem searches_leave_graph_witness :
    scenarioGraph.callShortestPathDijkstra (fun _ => 0) 0 3 =
      (Outcome.ok [0, 2, 1, 3] 5, scenarioGraph) ∧
    scenarioGraph.callShortestPathBellmanFord 0 3 =
      (Outcome.ok [0, 2, 1, 3] 5, scenarioGraph) ∧
    scenarioGraph.callShortestPathDijkstra (fun _ => 0) 3 0 =
      (Outcome.noPathFound, scenarioGraph) ∧
    ((scenarioGraph.callShortestPathDijkstra (fun _ => 0) 0 3).2 = scenarioGraph ∧
      (scenarioGraph.callShortestPathDijkstra (fun _ => 0) 0 3).1 =
        scenarioGraph.shortestPathDijkstra (fun _ => 0) 0 3 ∧
      ((scenarioGraph.callShortestPathDijkstra (fun _ => 0) 0 3).2.callShortestPathDijkstra
          (fun _ => 0) 0 3).1 =
        (scenarioGraph.callShortestPathDijkstra (fun _ => 0) 0 3).1) ∧
    ((scenarioGraph.callShortestPathBellmanFord 0 3).2 = scenarioGraph ∧
      (scenarioGraph.callShortestPathBellmanFord 0 3).1 =
        scenarioGraph.shortestPathBellmanFord 0 3 ∧
      ((scenarioGraph.callShortestPathBellmanFord 0 3).2.callShortestPathBellmanFord 0 3).1 =
        (scenarioGraph.callShortestPathBellmanFord 0 3).1) :=
  ⟨by decide, by decide, by decide, searches_leave_graph (fun _ => 0) scenarioGraph 0 3⟩

/-! ## Walks of the generator that leave the pool -/

theorem genWalk_sorted_none {n d : Nat} (directions : List Nat) :
    ∀ (weights : List Int) (st : GenState),
      st.currentVertexIndex < n → st.edgesAddedToVertex < d →
      (∀ x ∈ directions, st.currentVertexIndex ≤ x ∧ x < n) →
      directions.Pairwise (fun a b => a ≤ b) →
      genWalk n d directions weights st = none := by
  induction directions with
  | nil =>
    intro weights st hc _ _ _
    unfold genWalk
    rw [if_pos hc]
  | cons x rest ih =>
    intro weights st hc hlt hall hsorted
    unfold genWalk
    rw [if_pos hc]
    cases weights with
    | nil => rfl
    | cons w ws =>
      simp only
      obtain ⟨hx1, hx2⟩ := hall x (List.mem_cons_self _ _)
      have hrest : ∀ y ∈ rest, x ≤ y ∧ y < n := fun y hy =>
        ⟨List.rel_of_pairwise_cons hsorted hy, (hall y (List.mem_cons_of_mem _ hy)).2⟩
      have hsorted1 : rest.Pairwise (fun a b => a ≤ b) := (List.pairwise_cons.1 hsorted).2
      by_cases hacc : x ≠ st.currentVertexIndex ∧ x ∉ st.directionsAddedToCurrentVertex
      · by_cases hfull : st.edgesAddedToVertex + 1 = d
        · rw [genStep_accept_full w hacc hfull]
          have hne := hacc.1
          refine ih ws _ (by show st.currentVertexIndex + 1 < n; omega)
            (by show 0 < d; omega) ?_ hsorted1
          intro y hy
          have := hrest y hy
          exact ⟨by show st.currentVertexIndex + 1 ≤ y; omega, this.2⟩
        · rw [genStep_accept_more w hacc hfull]
          refine ih ws _ hc (by show st.edgesAddedToVertex + 1 < d; omega) ?_ hsorted1
          intro y hy
          have := hrest y hy
          exact ⟨by show st.currentVertexIndex ≤ y; omega, this.2⟩
      · rw [genStep_skip w hacc (Nat.ne_of_lt hlt)]
        refine ih ws st hc hlt ?_ hsorted1
        intro y hy
        have := hrest y hy
        exact ⟨by omega, this.2⟩

theorem poolDirections_sorted (n d : Nat) :
    (poolDirections n d).Pairwise (fun a b => a ≤ b) := by
  unfold poolDirections
  rw [List.pairwise_flatMap]
  constructor
  · intro i _
    rw [List.pairwise_map]
    exact List.pairwise_of_forall (fun _ _ => le_refl i)
  · refine List.Pairwise.imp ?_ (List.pairwise_lt_range n)
    intro a b hab x hx y hy
    simp only [List.mem_map] at hx hy
    obtain ⟨_, _, rfl⟩ := hx
    obtain ⟨_, _, rfl⟩ := hy
    exact Nat.le_of_lt hab

theorem genWalk_degree_none {n d : Nat} (hnd : n ≤ d) (directions : List Nat) :
    ∀ (weights : List Int) (st : GenState),
      0 < n → st.currentVertexIndex = 0 →
      (∀ x ∈ directions, x < n) →
      st.directionsAddedToCurrentVertex.Nodup →
      (∀ x ∈ st.directionsAddedToCurrentVertex, x ≠ 0 ∧ x < n) →
      st.edgesAddedToVertex = st.directionsAddedToCurrentVertex.length →
      genWalk n d directions weights st = none := by
  induction directions with
  | nil =>
    intro weights st hn hc _ _ _ _
    unfold genWalk
    rw [if_pos (by rw [hc]; exact hn)]
  | cons x rest ih =>
    intro weights st hn hc hall hnd1 hadded hcount
    have hbound : ∀ l : List Nat, l.Nodup → (∀ y ∈ l, y ≠ 0 ∧ y < n) → l.length + 1 ≤ n := by
      intro l hl hy
      have h1 : (0 :: l).Nodup :=
        List.nodup_cons.2 ⟨fun h0 => (hy 0 h0).1 rfl, hl⟩
      have h2 : ∀ y ∈ 0 :: l, y < n := by
        intro y hy1
        rcases List.mem_cons.1 hy1 with h | h
        · rw [h]; exact hn
        · exact (hy y h).2
      have := length_le_of_nodup_lt h1 h2
      simpa using this
    unfold genWalk
    rw [if_pos (by rw [hc]; exact hn)]
    cases weights with
    | nil => rfl
    | cons w ws =>
      simp only
      have hrest : ∀ y ∈ rest, y < n := fun y hy => hall y (List.mem_cons_of_mem _ hy)
      by_cases hacc : x ≠ st.currentVertexIndex ∧ x ∉ st.directionsAddedToCurrentVertex
      · have hnd2 : (x :: st.directionsAddedToCurrentVertex).Nodup :=
          List.nodup_cons.2 ⟨hacc.2, hnd1⟩
        have hadded2 : ∀ y ∈ x :: st.directionsAddedToCurrentVertex, y ≠ 0 ∧ y < n := by
          intro y hy
          rcases List.mem_cons.1 hy with h | h
          · rw [h]
            exact ⟨by rw [← hc]; exact hacc.1, hall x (List.mem_cons_self _ _)⟩
          · exact hadded y h
        have hlen := hbound _ hnd2 hadded2
        simp only [List.length_cons] at hlen
        have hfull : st.edgesAddedToVertex + 1 ≠ d := by omega
        rw [genStep_accept_more w hacc hfull]
        exact ih ws _ hn hc hrest hnd2 hadded2 (by simp [hcount])
      · have hlen := hbound _ hnd1 hadded
        have hne : st.edgesAddedToVertex ≠ d := by omega
        rw [genStep_skip w hacc hne]
        exact ih ws st hn hc hrest hnd1 hadded hcount

/-- C19: the walk of `generateGraph` has no bounds check.  For every
`numberOfVertices ≥ 1` and `desiredOutgoingDegree ≥ 1`, on the unshuffled target pool
(a permutation of itself, each vertex index in one block) the walk reads past the end of
the pool before the last vertex is filled, whatever the weight pool; and when
`desiredOutgoingDegree ≥ numberOfVertices` this happens on every permutation of the
target pool. -/
theorem generateGraph_reads_past_end (numberOfVertices desiredOutgoingDegree : Nat)
    (hn : 1 ≤ numberOfVertices) (hd : 1 ≤ desiredOutgoingDegree) :
    (∀ weights, weights.Perm (poolWeights numberOfVertices desiredOutgoingDegree) →
      Graph.generateGraph numberOfVertices desiredOutgoingDegree
        (poolDirections numberOfVertices desiredOutgoingDegree) weights = none) ∧
    (numberOfVertices ≤ desiredOutgoingDegree →
      ∀ directions weights,
        directions.Perm (poolDirections numberOfVertices desiredOutgoingDegree) →
        weights.Perm (poolWeights numberOfVertices desiredOutgoingDegree) →
        Graph.generateGraph numberOfVertices desiredOutgoingDegree directions weights = none) := by
  constructor
  · intro weights _
    exact genWalk_sorted_none _ weights _ hn hd
      (fun x hx => ⟨Nat.zero_le x, mem_poolDirections hx⟩) (poolDirections_sorted _ _)
  · intro hnd directions weights hdir _
    exact genWalk_degree_none hnd directions weights _ hn rfl
      (fun x hx => mem_poolDirections (hdir.mem_iff.1 hx)) List.nodup_nil
      (fun x hx => absurd hx (List.not_mem_nil _)) rfl

/-- Witness for C19: two vertices and degree 1 on the unshuffled pool, two vertices and
degree 2 on a shuffled pool. -/
theorem generateGraph_reads_past_end_witness :
    Graph.generateGraph 2 1 (poolDirections 2 1) [4, 3, 2, 1, 1, 2, 3, 4] = none ∧
    Graph.generateGraph 2 2 [1, 0, 1, 0, 1, 0, 1, 0, 1, 0, 1, 0, 1, 0, 1, 0]
      [1, 2, 3, 4, 5, 6, 7, 8, 1, 2, 3, 4, 5, 6, 7, 8] = none :=
  ⟨(generateGraph_reads_past_end 2 1 (by decide) (by decide)).1 [4, 3, 2, 1, 1, 2, 3, 4]
      (by decide),
   (generateGraph_reads_past_end 2 2 (by decide) (by decide)).2 (by decide)
      [1, 0, 1, 0, 1, 0, 1, 0, 1, 0, 1, 0, 1, 0, 1, 0]
      [1, 2, 3, 4, 5, 6, 7, 8, 1, 2, 3, 4, 5, 6, 7, 8] (by decide) (by decide)⟩

/-! ## Stale queue entries -/

theorem step_stale_noop {g : Graph} {s : Nat} {st : DState} {choice : Nat} {e : Nat × Int}
    {q : List (Nat × Int)} (h : DInv g s st) (hpop : popTop choice st.queue = some (e, q))
    {du : Int} (hdu : st.dist.getD e.1 none = some du) (hlt : du < e.2) :
    (g.edgesOf e.1).foldl (relaxEdge e.1) { st with queue := q } = { st with queue := q } := by
  obtain ⟨_, hmin, _⟩ := popTop_some hpop
  have hclosed : (e.1, du) ∉ st.queue := by
    intro hin
    have := hmin _ hin
    simp only at this
    omega
  have hall : ∀ x ∈ g.edgesOf e.1, Relaxed st du x := by
    rcases h.relaxed e.1 du hdu with hin | hall
    · exact absurd hin hclosed
    · exact hall
  exact foldl_relaxEdge_noop { st with queue := q } hdu _ hall

theorem step_fresh_mid {g : Graph} (hw : g.WellFormed) (hp : g.PositiveWeights) {s : Nat}
    {st : DState} {choice : Nat} {e : Nat × Int} {q : List (Nat × Int)}
    (h : DInv g s st) (hpop : popTop choice st.queue = some (e, q))
    (hdu : st.dist.getD e.1 none = some e.2) :
    DMid g s e.1 e.2 { st with queue := q } (g.edgesOf e.1)
      ((g.edgesOf e.1).foldl (relaxEdge e.1) { st with queue := q }) := by
  obtain ⟨hein, hmin, hq⟩ := popTop_some hpop
  subst hq
  have hbase := base_erase h.toDBase e
  have hkeep : ∀ x, x ≠ e → (x ∈ st.queue.erase e ↔ x ∈ st.queue) :=
    fun x hx => by rw [h.nodup.mem_erase_iff]; exact ⟨fun hh => hh.2, fun hh => ⟨hx, hh⟩⟩
  have hout : (e.1, e.2) ∉ st.queue.erase e := h.nodup.not_mem_erase
  have hmid0 : DMid g s e.1 e.2 { st with queue := st.queue.erase e } []
      { st with queue := st.queue.erase e } :=
    { hbase with
      du_eq := hdu
      u_out := hout
      relaxed := by
        intro x dx hdx hxu
        rcases h.relaxed x dx hdx with hin | hall
        · refine Or.inl ((hkeep _ ?_).2 hin)
          intro heq
          exact hxu (by rw [← heq])
        · exact Or.inr hall
      done_relaxed := fun x hx => absurd hx (List.not_mem_nil _)
      le_du := by
        intro x dx hdx hnot
        by_cases hin : (x, dx) ∈ st.queue
        · by_cases heq : (x, dx) = e
          · have : dx = e.2 := by rw [← heq]
            omega
          · exact absurd ((hkeep _ heq).2 hin) hnot
        · exact h.mono x dx hdx hin e hein
      keys_ge := fun x hx => hmin x (List.mem_of_mem_erase hx)
      open_iff := fun _ => rfl
      qlen := by simp }
  have hmid := foldl_relaxEdge_mid hw hp (g.edgesOf e.1) [] _ hmid0 (fun _ hx => hx)
  rw [List.nil_append] at hmid
  exact hmid

theorem step_open {g : Graph} (hw : g.WellFormed) (hp : g.PositiveWeights) {s : Nat}
    {st : DState} {choice : Nat} {e : Nat × Int} {q : List (Nat × Int)}
    (h : DInv g s st) (hpop : popTop choice st.queue = some (e, q)) (x : Nat) :
    isOpen ((g.edgesOf e.1).foldl (relaxEdge e.1) { st with queue := q }) x =
      if x = e.1 then false else isOpen st x := by
  obtain ⟨hein, hmin, hq⟩ := popTop_some hpop
  obtain ⟨du, hdu, hle⟩ := h.keys e hein
  have hkeep : ∀ y, y ≠ e → (y ∈ st.queue.erase e ↔ y ∈ st.queue) :=
    fun y hy => by rw [h.nodup.mem_erase_iff]; exact ⟨fun hh => hh.2, fun hh => ⟨hy, hh⟩⟩
  by_cases hfresh : du = e.2
  · rw [hfresh] at hdu
    have hmid := step_fresh_mid hw hp h hpop hdu
    rw [hmid.open_iff x]
    subst hq
    by_cases hx : x = e.1
    · rw [if_pos hx, hx]
      unfold isOpen
      show (match st.dist.getD e.1 none with
        | none => true
        | some d => decide ((e.1, d) ∈ st.queue.erase e)) = false
      rw [hdu]
      have hout : (e.1, e.2) ∉ st.queue.erase e := h.nodup.not_mem_erase
      simp [hout]
    · rw [if_neg hx]
      refine isOpen_congr st { st with queue := st.queue.erase e } x rfl (fun d _ => ?_)
      apply hkeep
      intro heq
      exact hx (by rw [← heq])
  · have hlt : du < e.2 := by omega
    rw [step_stale_noop h hpop hdu hlt]
    subst hq
    have hne : ∀ y d, st.dist.getD y none = some d → (y, d) ≠ e := by
      intro y d hd heq
      have h1 : y = e.1 := by rw [← heq]
      have h2 : d = e.2 := by rw [← heq]
      rw [h1, hdu] at hd
      cases hd
      exact hfresh h2
    have hsame : isOpen { st with queue := st.queue.erase e } x = isOpen st x :=
      isOpen_congr st { st with queue := st.queue.erase e } x rfl
        (fun d hd => hkeep _ (hne x d hd))
    rw [hsame]
    by_cases hx : x = e.1
    · rw [if_pos hx, hx]
      unfold isOpen
      rw [hdu]
      have hclosed : (e.1, du) ∉ st.queue := by
        intro hin
        have := hmin _ hin
        simp only at this
        omega
      simp [hclosed]
    · rw [if_neg hx]

theorem loopRun_inv {g : Graph} (hw : g.WellFormed) (hp : g.PositiveWeights) {s : Nat}
    (hs : s < g.size) {st : DState} {popped : List Nat} (h : LoopRun g s st popped) :
    DInv g s st ∧ ∀ u ∈ popped, isOpen st u = false := by
  induction h with
  | init => exact ⟨dijkstraInit_inv g hs, fun u hu => absurd hu (List.not_mem_nil _)⟩
  | pop _ hpop ih =>
    obtain ⟨hinv, hclosed⟩ := ih
    refine ⟨(dijkstra_step hw hp hinv hpop).1, ?_⟩
    intro u hu
    rw [step_open hw hp hinv hpop u]
    split
    · rfl
    · next hne =>
      rcases List.mem_cons.1 hu with h1 | h1
      · exact absurd h1 hne
      · exact hclosed u h1

/-- C18: on a well-formed graph with positive weights, at every state the `while` loop can
reach, when the popped entry `(u, d)` is stale, that is `d` is greater than the current
`dist[u]` or `u` has been popped before, the edge loop of `u` changes no entry of `dist`
or of `prev` and pushes nothing onto the queue. -/
theorem stale_pop_changes_nothing (g : Graph) (s : Nat) (st : DState) (popped : List Nat)
    (choice : Nat) (e : Nat × Int) (q : List (Nat × Int))
    (hw : g.WellFormed) (hp : g.PositiveWeights) (hs : s < g.size)
    (hrun : LoopRun g s st popped) (hpop : popTop choice st.queue = some (e, q))
    (hstale : (∃ du, st.dist.getD e.1 none = some du ∧ du < e.2) ∨ e.1 ∈ popped) :
    ((g.edgesOf e.1).foldl (relaxEdge e.1) { st with queue := q }).dist = st.dist ∧
    ((g.edgesOf e.1).foldl (relaxEdge e.1) { st with queue := q }).prev = st.prev ∧
    ((g.edgesOf e.1).foldl (relaxEdge e.1) { st with queue := q }).queue = q := by
  obtain ⟨hinv, hclosed⟩ := loopRun_inv hw hp hs hrun
  have hlt : ∃ du, st.dist.getD e.1 none = some du ∧ du < e.2 := by
    rcases hstale with h1 | h1
    · exact h1
    · obtain ⟨hein, _, _⟩ := popTop_some hpop
      obtain ⟨du, hdu, hle⟩ := hinv.keys e hein
      refine ⟨du, hdu, ?_⟩
      have hc := hclosed e.1 h1
      unfold isOpen at hc
      rw [hdu] at hc
      simp only [decide_eq_false_iff_not] at hc
      by_contra hge
      have heq : du = e.2 := by omega
      rw [heq] at hc
      exact hc hein
  obtain ⟨du, hdu, hlt1⟩ := hlt
  rw [step_stale_noop hinv hpop hdu hlt1]
  exact ⟨rfl, rfl, rfl⟩

theorem scenarioMidState_run : LoopRun scenarioGraph 0 scenarioMidState [1, 2, 0] := by
  have h0 : LoopRun scenarioGraph 0 (dijkstraInit scenarioGraph 0) [] := LoopRun.init
  have h1 : LoopRun scenarioGraph 0
      { dist := [some 0, some 5, some 2, none], prev := [none, some 0, some 0, none],
        queue := [(1, 5), (2, 2)] } [0] :=
    LoopRun.pop (c := 0) (e := (0, 0)) (q := []) h0 (by decide)
  have h2 : LoopRun scenarioGraph 0
      { dist := [some 0, some 4, some 2, none], prev := [none, some 2, some 0, none],
        queue := [(1, 5), (1, 4)] } [2, 0] :=
    LoopRun.pop (c := 0) (e := (2, 2)) (q := [(1, 5)]) h1 (by decide)
  exact LoopRun.pop (c := 0) (e := (1, 4)) (q := [(1, 5)]) h2 (by decide)

/-- Witness for C18: in the concrete scenario the entry `(1, 5)` is popped after vertex 1
was popped with distance 4. -/
theorem stale_pop_changes_nothing_witness :
    ((scenarioGraph.edgesOf 1).foldl (relaxEdge 1)
      { scenarioMidState with queue := [(3, 5)] }).dist = scenarioMidState.dist ∧
    ((scenarioGraph.edgesOf 1).foldl (relaxEdge 1)
      { scenarioMidState with queue := [(3, 5)] }).prev = scenarioMidState.prev ∧
    ((scenarioGraph.edgesOf 1).foldl (relaxEdge 1)
      { scenarioMidState with queue := [(3, 5)] }).queue = [(3, 5)] :=
  stale_pop_changes_nothing scenarioGraph 0 scenarioMidState [1, 2, 0] 0 (1, 5) [(3, 5)]
    (by decide) (by decide) (by decide) scenarioMidState_run (by decide)
    (Or.inl ⟨4, by decide, by decide⟩)

/-! ## The early exit of the priority-queue search -/

theorem relaxEdge_sound {g : Graph} {s u : Nat} {st : DState} {e : Nat × Int}
    (he : e ∈ g.edgesOf u) (hs : ∀ v d, st.dist.getD v none = some d → Walk g s v d) :
    ∀ v d, (relaxEdge u st e).dist.getD v none = some d → Walk g s v d := by
  cases hu : st.dist.getD u none with
  | none =>
    have : relaxEdge u st e = st := by unfold relaxEdge; rw [hu]
    rw [this]; exact hs
  | some du =>
    by_cases hr : Relaxed st du e
    · rw [relaxEdge_skip hu hr]; exact hs
    · rw [relaxEdge_fire hu hr]
      intro v d hd
      change (st.dist.set e.1 _).getD v none = some d at hd
      by_cases hv : v = e.1
      · subst hv
        rcases getD_set_cases st.dist e.1 e.1 (some (du + e.2)) none with h1 | h1
        · rw [h1] at hd
          cases hd
          exact Walk.snoc (hs u du hu) he
        · rw [h1] at hd
          exact hs _ d hd
      · rw [getD_set_ne _ _ _ (Ne.symm hv)] at hd
        exact hs v d hd

theorem relaxEdge_stable {g : Graph} {s u : Nat} {st : DState} {e : Nat × Int}
    (he : e ∈ g.edgesOf u) (hs : ∀ v d, st.dist.getD v none = some d → Walk g s v d) :
    Stable g s st (relaxEdge u st e) := by
  intro v d hd hopt
  cases hu : st.dist.getD u none with
  | none =>
    have : relaxEdge u st e = st := by unfold relaxEdge; rw [hu]
    rw [this]; exact ⟨hd, rfl⟩
  | some du =>
    by_cases hr : Relaxed st du e
    · rw [relaxEdge_skip hu hr]; exact ⟨hd, rfl⟩
    · rw [relaxEdge_fire hu hr]
      have hne : e.1 ≠ v := by
        intro hev
        apply hr
        refine ⟨d, by rw [hev]; exact hd, ?_⟩
        have hwalk : Walk g s e.1 (du + e.2) := Walk.snoc (hs u du hu) he
        rw [hev] at hwalk
        exact hopt _ hwalk
      constructor
      · show (st.dist.set e.1 _).getD v none = some d
        rw [getD_set_ne _ _ _ hne]; exact hd
      · show (st.prev.set e.1 _).getD v none = st.prev.getD v none
        rw [getD_set_ne _ _ _ hne]

theorem stable_refl (g : Graph) (s : Nat) (st : DState) : Stable g s st st :=
  fun _ _ hd _ => ⟨hd, rfl⟩

theorem stable_trans {g : Graph} {s : Nat} {st st1 st2 : DState}
    (h1 : Stable g s st st1) (h2 : Stable g s st1 st2) : Stable g s st st2 := by
  intro v d hd hopt
  obtain ⟨hd1, hp1⟩ := h1 v d hd hopt
  obtain ⟨hd2, hp2⟩ := h2 v d hd1 hopt
  exact ⟨hd2, hp2.trans hp1⟩

theorem foldl_relaxEdge_stable {g : Graph} {s u : Nat} (es : List (Nat × Int))
    (hes : ∀ e ∈ es, e ∈ g.edgesOf u) :
    ∀ st : DState, (∀ v d, st.dist.getD v none = some d → Walk g s v d) →
      Stable g s st (es.foldl (relaxEdge u) st) := by
  induction es with
  | nil => intro st _; exact stable_refl g s st
  | cons e es ih =>
    intro st hs
    have he := hes e (List.mem_cons_self _ _)
    exact stable_trans (relaxEdge_stable he hs)
      (ih (fun x hx => hes x (List.mem_cons_of_mem _ hx)) _ (relaxEdge_sound he hs))

theorem step_stable {g : Graph} {s : Nat} {st : DState} (h : DInv g s st) (e : Nat × Int)
    (q : List (Nat × Int)) :
    Stable g s st ((g.edgesOf e.1).foldl (relaxEdge e.1) { st with queue := q }) :=
  foldl_relaxEdge_stable (g.edgesOf e.1) (fun _ hx => hx) { st with queue := q } h.sound

theorem inv_post_of_empty {g : Graph} (hp : g.PositiveWeights) {s : Nat} (t : Nat)
    {st : DState} (h : DInv g s st) (hq : st.queue = []) : DPost g s t st :=
  { dlen := h.dlen, ds := h.ds, ps := h.ps, sound := h.sound, prevOK := h.prevOK,
    prevSome := h.prevSome
    endOpt := by
      intro d1 hwalk
      rcases walk_bound hp h.ds h.relaxed hwalk with hl | ⟨e, he, _⟩
      · exact hl
      · rw [hq] at he
        exact absurd he (List.not_mem_nil _) }

theorem dijkstraLoopFull_post {g : Graph} (hw : g.WellFormed) (hp : g.PositiveWeights)
    {s : Nat} (t : Nat) (fuel : Nat) :
    ∀ (tie : Nat → Nat) (st : DState), DInv g s st → potential g st < fuel →
      ∃ st1, dijkstraLoopFull g fuel tie st = some st1 ∧ DPost g s t st1 ∧
        Stable g s st st1 := by
  induction fuel with
  | zero => intro _ _ _ hlt; exact absurd hlt (Nat.not_lt_zero _)
  | succ fuel ih =>
    intro tie st h hlt
    unfold dijkstraLoopFull
    cases hpop : popTop (tie 0) st.queue with
    | none =>
      exact ⟨st, rfl, inv_post_of_empty hp t h (popTop_none hpop), stable_refl g s st⟩
    | some r =>
      obtain ⟨e, q⟩ := r
      simp only
      obtain ⟨hinv, hpot⟩ := dijkstra_step hw hp h hpop
      obtain ⟨st1, hrun, hpost, hst⟩ := ih (fun k => tie (k + 1)) _ hinv (by omega)
      exact ⟨st1, hrun, hpost, stable_trans (step_stable h e q) hst⟩

theorem dijkstraLoop_compare {g : Graph} (hw : g.WellFormed) (hp : g.PositiveWeights)
    {s t : Nat} (fuel : Nat) :
    ∀ (tie : Nat → Nat) (st : DState), DInv g s st → potential g st < fuel →
      ∃ stb stf, dijkstraLoop g t fuel tie st = some stb ∧
        dijkstraLoopFull g fuel tie st = some stf ∧
        DPost g s t stb ∧ DPost g s t stf ∧ Stable g s stb stf := by
  induction fuel with
  | zero => intro _ _ _ hlt; exact absurd hlt (Nat.not_lt_zero _)
  | succ fuel ih =>
    intro tie st h hlt
    obtain ⟨stb, hb, hpostb⟩ := dijkstraLoop_post (t := t) hw hp (fuel + 1) tie st h hlt
    refine ⟨stb, ?_⟩
    unfold dijkstraLoop at hb
    unfold dijkstraLoopFull
    cases hpop : popTop (tie 0) st.queue with
    | none =>
      rw [hpop] at hb
      simp only [Option.some.injEq] at hb
      subst hb
      exact ⟨st, by unfold dijkstraLoop; rw [hpop], rfl, hpostb, hpostb, stable_refl g s st⟩
    | some r =>
      obtain ⟨e, q⟩ := r
      rw [hpop] at hb
      simp only at hb ⊢
      obtain ⟨hinv, hpot⟩ := dijkstra_step hw hp h hpop
      by_cases het : e.1 = t
      · rw [if_pos het] at hb
        simp only [Option.some.injEq] at hb
        obtain ⟨stf, hf, hpostf, hst⟩ :=
          dijkstraLoopFull_post hw hp t fuel (fun k => tie (k + 1)) _ hinv (by omega)
        refine ⟨stf, ?_, hf, hpostb, hpostf, ?_⟩
        · unfold dijkstraLoop; rw [hpop]; simp only; rw [if_pos het, hb]
        · have h1 : Stable g s stb st := by
            rw [← hb]; exact stable_refl g s _
          exact stable_trans h1 (stable_trans (step_stable h e q) hst)
      · rw [if_neg het] at hb
        obtain ⟨stb1, stf, hb1, hf, hpb, hpf, hst⟩ :=
          ih (fun k => tie (k + 1)) _ hinv (by omega)
        have heq : stb1 = stb := by
          rw [hb1] at hb
          exact Option.some.inj hb
        subst heq
        refine ⟨stf, ?_, hf, hpb, hpf, hst⟩
        unfold dijkstraLoop; rw [hpop]; simp only; rw [if_neg het, hb1]

theorem dijkstraWalk_stable {g : Graph} (hp : g.PositiveWeights) {s t : Nat}
    {stb stf : DState} (hpost : DPost g s t stb) (hst : Stable g s stb stf) (fuel : Nat) :
    ∀ (a : Nat) (path : List Nat) (len da : Int),
      stb.dist.getD a none = some da → (∀ d1, Walk g s a d1 → da ≤ d1) →
      dijkstraWalk stf.prev stf.dist fuel a path len =
        dijkstraWalk stb.prev stb.dist fuel a path len := by
  induction fuel with
  | zero => intro _ _ _ _ _ _; rfl
  | succ fuel ih =>
    intro a path len da hda hopt
    obtain ⟨hdf, hpf⟩ := hst a da hda hopt
    unfold dijkstraWalk
    rw [hpf]
    cases hprev : stb.prev.getD a none with
    | none => rfl
    | some p =>
      obtain ⟨dp, w, hdp, _, _, _, hoptp, _⟩ := opt_prev hp hpost hda hopt hprev
      obtain ⟨hdpf, _⟩ := hst p dp hdp hoptp
      have hdelta : distDelta stf.dist a p = distDelta stb.dist a p := by
        unfold distDelta
        rw [hdf, hdpf, hda, hdp]
      simp only
      rw [hdelta]
      exact ih p _ _ dp hdp hoptp

/-- C17: on a well-formed graph with positive weights and for valid `start ≠ end`, the
search that leaves the loop as soon as `end` is popped has the same outcome (the same path
and total weight, or the same failure) as the search whose loop omits the `break` and runs
until the queue is empty. -/
theorem early_exit_same_outcome (g : Graph) (tie : Nat → Nat) (start end_ : Nat)
    (hw : g.WellFormed) (hp : g.PositiveWeights)
    (hs : start < g.size) (_ht : end_ < g.size) (hne : start ≠ end_) :
    g.shortestPathDijkstra tie start end_ = g.shortestPathDijkstraFull tie start end_ := by
  obtain ⟨stb, stf, hb, hf, hpostb, hpostf, hst⟩ :=
    dijkstraLoop_compare (t := end_) hw hp (g.edgeTotal + 2) tie (dijkstraInit g start)
      (dijkstraInit_inv g hs) (dijkstraInit_potential g hw start)
  unfold Graph.shortestPathDijkstra Graph.shortestPathDijkstraFull
  rw [hb, hf]
  simp only
  cases hprev : stb.prev.getD end_ none with
  | none =>
    have hpf : stf.prev.getD end_ none = none := by
      cases hpf : stf.prev.getD end_ none with
      | none => rfl
      | some p =>
        exfalso
        obtain ⟨_, _, dv, _, _, hdv, _⟩ := hpostf.prevOK end_ p hpf
        obtain ⟨d, hd, _⟩ := hpostb.endOpt dv (hpostf.sound end_ dv hdv)
        by_cases hse : end_ = start
        · exact hne hse.symm
        · obtain ⟨u, hu⟩ := hpostb.prevSome end_ d hse hd
          rw [hprev] at hu
          exact absurd hu (by simp)
    rw [hpf]
  | some p =>
    obtain ⟨_, _, dt, _, _, hdt, _⟩ := hpostb.prevOK end_ p hprev
    have hopt : ∀ d1, Walk g start end_ d1 → dt ≤ d1 := by
      intro d1 hwalk
      obtain ⟨d, hd, hle⟩ := hpostb.endOpt d1 hwalk
      rw [hdt] at hd
      cases hd
      exact hle
    obtain ⟨_, hpf⟩ := hst end_ dt hdt hopt
    rw [hpf, hprev]
    simp only
    rw [dijkstraWalk_stable hp hpostb hst g.size end_ [] 0 dt hdt hopt]

/-- Witness for C17: both searches return `[0, 2, 1, 3]` with weight 5 in the concrete
scenario. -/
theorem early_exit_same_outcome_witness :
    scenarioGraph.shortestPathDijkstra (fun _ => 0) 0 3 =
      scenarioGraph.shortestPathDijkstraFull (fun _ => 0) 0 3 :=
  early_exit_same_outcome scenarioGraph (fun _ => 0) 0 3 (by decide) (by decide) (by decide)
    (by decide) (by decide)

/-! ## One relaxation of the relaxation search -/

theorem bfRelaxExact_skip {u : Nat} {st : BState} {e : Nat × Int}
    (h : ¬ (st.distance.getD u INT_MAX ≠ INT_MAX ∧
      st.distance.getD u INT_MAX + e.2 < st.distance.getD e.1 INT_MAX)) :
    bfRelaxExact u st e = st := by
  unfold bfRelaxExact
  rw [if_neg h]

theorem bfRelaxExact_fire {u : Nat} {st : BState} {e : Nat × Int}
    (h : st.distance.getD u INT_MAX ≠ INT_MAX ∧
      st.distance.getD u INT_MAX + e.2 < st.distance.getD e.1 INT_MAX) :
    bfRelaxExact u st e =
      { distance := st.distance.set e.1 (st.distance.getD u INT_MAX + e.2)
        predecessor := st.predecessor.set e.1 (some u) } := by
  unfold bfRelaxExact
  rw [if_pos h]

theorem bfRelaxExact_le (u : Nat) (st : BState) (e : Nat × Int) (x : Nat) :
    (bfRelaxExact u st e).distance.getD x INT_MAX ≤ st.distance.getD x INT_MAX := by
  by_cases h : st.distance.getD u INT_MAX ≠ INT_MAX ∧
      st.distance.getD u INT_MAX + e.2 < st.distance.getD e.1 INT_MAX
  · rw [bfRelaxExact_fire h]
    show (st.distance.set e.1 _).getD x INT_MAX ≤ _
    by_cases hx : x = e.1
    · subst hx
      rcases getD_set_cases st.distance e.1 e.1 (st.distance.getD u INT_MAX + e.2) INT_MAX
        with h1 | h1
      · rw [h1]; exact le_of_lt h.2
      · rw [h1]
    · rw [getD_set_ne _ _ _ (Ne.symm hx)]
  · rw [bfRelaxExact_skip h]

theorem bfRelaxExact_length (u : Nat) (st : BState) (e : Nat × Int) :
    (bfRelaxExact u st e).distance.length = st.distance.length := by
  unfold bfRelaxExact
  split <;> simp

theorem bfRelaxExact_edge {u : Nat} {st : BState} {e : Nat × Int} {B : Int}
    (hlen : e.1 < st.distance.length) (hB : st.distance.getD u INT_MAX ≤ B)
    (hmax : B < INT_MAX) :
    (bfRelaxExact u st e).distance.getD e.1 INT_MAX ≤ B + e.2 := by
  by_cases h : st.distance.getD u INT_MAX ≠ INT_MAX ∧
      st.distance.getD u INT_MAX + e.2 < st.distance.getD e.1 INT_MAX
  · rw [bfRelaxExact_fire h]
    show (st.distance.set e.1 _).getD e.1 INT_MAX ≤ _
    rw [getD_set_eq _ _ _ hlen]
    omega
  · rw [bfRelaxExact_skip h]
    have hne : st.distance.getD u INT_MAX ≠ INT_MAX := by omega
    have : ¬ st.distance.getD u INT_MAX + e.2 < st.distance.getD e.1 INT_MAX :=
      fun hlt => h ⟨hne, hlt⟩
    omega

theorem foldl_bfRelaxExact_le (u : Nat) (es : List (Nat × Int)) (x : Nat) :
    ∀ st : BState, (es.foldl (bfRelaxExact u) st).distance.getD x INT_MAX ≤
      st.distance.getD x INT_MAX := by
  induction es with
  | nil => intro st; exact le_refl _
  | cons e es ih =>
    intro st
    exact le_trans (ih _) (bfRelaxExact_le u st e x)

theorem foldl_bfRelaxExact_length (u : Nat) (es : List (Nat × Int)) :
    ∀ st : BState, (es.foldl (bfRelaxExact u) st).distance.length = st.distance.length := by
  induction es with
  | nil => intro st; rfl
  | cons e es ih =>
    intro st
    rw [List.foldl_cons, ih, bfRelaxExact_length]

theorem foldl_bfRelaxExact_edge {u : Nat} (es : List (Nat × Int)) {e : Nat × Int} {B : Int}
    (he : e ∈ es) (hmax : B < INT_MAX) :
    ∀ st : BState, e.1 < st.distance.length → st.distance.getD u INT_MAX ≤ B →
      (es.foldl (bfRelaxExact u) st).distance.getD e.1 INT_MAX ≤ B + e.2 := by
  induction es with
  | nil => exact absurd he (List.not_mem_nil _)
  | cons a es ih =>
    intro st hlen hB
    rw [List.foldl_cons]
    rcases List.mem_cons.1 he with h1 | h1
    · subst h1
      exact le_trans (foldl_bfRelaxExact_le u es e.1 _) (bfRelaxExact_edge hlen hB hmax)
    · exact ih h1 _ (by rw [bfRelaxExact_length]; exact hlen) (le_trans (bfRelaxExact_le u st a u) hB)

theorem foldl_pass_le (g : Graph) (us : List Nat) (x : Nat) :
    ∀ st : BState,
      (us.foldl (fun s u => (g.edgesOf u).foldl (bfRelaxExact u) s) st).distance.getD x INT_MAX ≤
        st.distance.getD x INT_MAX := by
  induction us with
  | nil => intro st; exact le_refl _
  | cons u us ih =>
    intro st
    exact le_trans (ih _) (foldl_bfRelaxExact_le u _ x st)

theorem foldl_pass_length (g : Graph) (us : List Nat) :
    ∀ st : BState,
      (us.foldl (fun s u => (g.edgesOf u).foldl (bfRelaxExact u) s) st).distance.length =
        st.distance.length := by
  induction us with
  | nil => intro st; rfl
  | cons u us ih =>
    intro st
    rw [List.foldl_cons, ih, foldl_bfRelaxExact_length]

theorem foldl_pass_edge (g : Graph) (us : List Nat) {u : Nat} {e : Nat × Int} {B : Int}
    (hu : u ∈ us) (he : e ∈ g.edgesOf u) (hmax : B < INT_MAX) :
    ∀ st : BState, e.1 < st.distance.length → st.distance.getD u INT_MAX ≤ B →
      (us.foldl (fun s u => (g.edgesOf u).foldl (bfRelaxExact u) s) st).distance.getD e.1 INT_MAX ≤
        B + e.2 := by
  induction us with
  | nil => exact absurd hu (List.not_mem_nil _)
  | cons a us ih =>
    intro st hlen hB
    rw [List.foldl_cons]
    rcases List.mem_cons.1 hu with h1 | h1
    · subst h1
      exact le_trans (foldl_pass_le g us e.1 _) (foldl_bfRelaxExact_edge _ he hmax st hlen hB)
    · exact ih h1 _ (by rw [foldl_bfRelaxExact_length]; exact hlen)
        (le_trans (foldl_bfRelaxExact_le a _ u st) hB)

theorem bfPassExact_le (g : Graph) (st : BState) (x : Nat) :
    (bfPassExact g st).distance.getD x INT_MAX ≤ st.distance.getD x INT_MAX :=
  foldl_pass_le g _ x st

theorem bfPassExact_length (g : Graph) (st : BState) :
    (bfPassExact g st).distance.length = st.distance.length :=
  foldl_pass_length g _ st

theorem bfPassExact_edge (g : Graph) {u : Nat} {e : Nat × Int} {B : Int} (st : BState)
    (hu : u < g.size) (he : e ∈ g.edgesOf u) (hmax : B < INT_MAX)
    (hlen : e.1 < st.distance.length) (hB : st.distance.getD u INT_MAX ≤ B) :
    (bfPassExact g st).distance.getD e.1 INT_MAX ≤ B + e.2 :=
  foldl_pass_edge g _ (List.mem_range.2 hu) he hmax st hlen hB

/-! ## The passes of the relaxation search -/

theorem edgesOf_index_lt {g : Graph} (hw : g.WellFormed) {u : Nat} {e : Nat × Int}
    (he : e ∈ g.edgesOf u) : u < g.size := by
  rw [← hw.1]
  by_contra hlt
  unfold Graph.edgesOf at he
  rw [List.getElem?_eq_none (by omega)] at he
  exact absurd he (List.not_mem_nil _)

theorem bfPassExact_bound {g : Graph} (hw : g.WellFormed) (hp : g.PositiveWeights) {s j : Nat}
    {st : BState} (hlen : st.distance.length = g.size) (h : BFBound g s j st) :
    BFBound g s (j + 1) (bfPassExact g st) := by
  intro i hi v d hwalk hd
  by_cases hij : i ≤ j
  · exact le_trans (bfPassExact_le g st v) (h i hij v d hwalk hd)
  · have hi1 : i = j + 1 := by omega
    subst hi1
    cases hwalk with
    | snoc hprev hedge =>
      rename_i u d0 w
      have hwpos : 0 < w := edgesOf_pos hp hedge
      have hu := h j (le_refl j) u d0 hprev (by omega)
      have := bfPassExact_edge g st (edgesOf_index_lt hw hedge) hedge
        (show d0 < INT_MAX by omega)
        (by rw [hlen]; exact edgesOf_lt hw hedge) hu
      exact this

theorem bfPassesExact_length (g : Graph) (k : Nat) :
    ∀ st : BState, (bfPassesExact g k st).distance.length = st.distance.length := by
  induction k with
  | zero => intro st; rfl
  | succ k ih =>
    intro st
    show (bfPassesExact g k (bfPassExact g st)).distance.length = _
    rw [ih, bfPassExact_length]

theorem bfPassesExact_bound {g : Graph} (hw : g.WellFormed) (hp : g.PositiveWeights) {s : Nat}
    (k : Nat) :
    ∀ (j : Nat) (st : BState), st.distance.length = g.size → BFBound g s j st →
      BFBound g s (j + k) (bfPassesExact g k st) := by
  induction k with
  | zero => intro j st _ h; exact h
  | succ k ih =>
    intro j st hlen h
    have h1 := ih (j + 1) (bfPassExact g st) (by rw [bfPassExact_length]; exact hlen)
      (bfPassExact_bound hw hp hlen h)
    have heq : j + (k + 1) = j + 1 + k := by omega
    rw [heq]
    exact h1

theorem bfInit_bound (g : Graph) {s : Nat} (hs : s < g.size) : BFBound g s 0 (bfInit g s) := by
  intro i hi v d hwalk _
  have hi0 : i = 0 := by omega
  subst hi0
  cases hwalk with
  | nil =>
    have : (bfInit g s).distance.getD s INT_MAX = 0 := (bfInit_self g hs).dist_s
    rw [this]

theorem bfRelaxExact_inv {g : Graph} (hw : g.WellFormed) (hp : g.PositiveWeights) {s u : Nat}
    {st : BState} {e : Nat × Int} (he : e ∈ g.edgesOf u) (h : BFInv g s st) :
    BFInv g s (bfRelaxExact u st e) := by
  by_cases hc : st.distance.getD u INT_MAX ≠ INT_MAX ∧
      st.distance.getD u INT_MAX + e.2 < st.distance.getD e.1 INT_MAX
  · rw [bfRelaxExact_fire hc]
    have hwpos : 0 < e.2 := edgesOf_pos hp he
    have hvlt : e.1 < g.size := edgesOf_lt hw he
    have hu0 := h.nonneg u
    have hvmax := h.le_max e.1
    have hvs : e.1 ≠ s := by
      intro hvs
      have := hc.2
      rw [hvs, h.dist_s] at this
      omega
    have hvu : e.1 ≠ u := by
      intro hvu
      have := hc.2
      rw [hvu] at this
      omega
    have hDv : (st.distance.set e.1 (st.distance.getD u INT_MAX + e.2)).getD e.1 INT_MAX =
        st.distance.getD u INT_MAX + e.2 :=
      getD_set_eq _ _ _ (by rw [h.dlen]; exact hvlt)
    have hDne : ∀ x, x ≠ e.1 →
        (st.distance.set e.1 (st.distance.getD u INT_MAX + e.2)).getD x INT_MAX =
          st.distance.getD x INT_MAX :=
      fun x hx => getD_set_ne _ _ _ (Ne.symm hx)
    have hPv : (st.predecessor.set e.1 (some u)).getD e.1 none = some u :=
      getD_set_eq _ _ _ (by rw [h.plen]; exact hvlt)
    have hPne : ∀ x, x ≠ e.1 →
        (st.predecessor.set e.1 (some u)).getD x none = st.predecessor.getD x none :=
      fun x hx => getD_set_ne _ _ _ (Ne.symm hx)
    refine
      { dlen := ?_, plen := ?_, dist_s := ?_, pred_s := ?_, nonneg := ?_, le_max := ?_,
        sound := ?_, predOK := ?_, predSome := ?_ }
    · simp only [List.length_set]; exact h.dlen
    · simp only [List.length_set]; exact h.plen
    · show (st.distance.set e.1 _).getD s INT_MAX = 0
      rw [hDne s (Ne.symm hvs)]; exact h.dist_s
    · show (st.predecessor.set e.1 _).getD s none = none
      rw [hPne s (Ne.symm hvs)]; exact h.pred_s
    · intro v
      show 0 ≤ (st.distance.set e.1 _).getD v INT_MAX
      by_cases hv : v = e.1
      · rw [hv, hDv]; omega
      · rw [hDne v hv]; exact h.nonneg v
    · intro v
      show (st.distance.set e.1 _).getD v INT_MAX ≤ INT_MAX
      by_cases hv : v = e.1
      · rw [hv, hDv]; have := hc.2; omega
      · rw [hDne v hv]; exact h.le_max v
    · intro v hv
      change (st.distance.set e.1 _).getD v INT_MAX ≠ INT_MAX at hv
      show Walk g s v ((st.distance.set e.1 _).getD v INT_MAX)
      by_cases hve : v = e.1
      · rw [hve, hDv]
        exact Walk.snoc (h.sound u hc.1) he
      · rw [hDne v hve] at hv ⊢
        exact h.sound v hv
    · intro v p hvp
      change (st.predecessor.set e.1 _).getD v none = some p at hvp
      show ∃ w, (v, w) ∈ g.edgesOf p ∧ (st.distance.set e.1 _).getD p INT_MAX ≠ INT_MAX ∧
        (st.distance.set e.1 _).getD v INT_MAX ≠ INT_MAX ∧
        (st.distance.set e.1 _).getD p INT_MAX + w ≤ (st.distance.set e.1 _).getD v INT_MAX
      by_cases hve : v = e.1
      · rw [hve] at hvp ⊢
        rw [hPv] at hvp
        cases hvp
        refine ⟨e.2, he, ?_, ?_, ?_⟩
        · rw [hDne u (Ne.symm hvu)]; exact hc.1
        · rw [hDv]; have := hc.2; omega
        · rw [hDne u (Ne.symm hvu), hDv]
      · rw [hPne v hve] at hvp
        obtain ⟨w, hedge, hp1, hv1, hle⟩ := h.predOK v p hvp
        refine ⟨w, hedge, ?_, ?_, ?_⟩
        · by_cases hpe : p = e.1
          · rw [hpe, hDv]; have := hc.2; omega
          · rw [hDne p hpe]; exact hp1
        · rw [hDne v hve]; exact hv1
        · rw [hDne v hve]
          by_cases hpe : p = e.1
          · rw [hpe, hDv]
            have := hc.2
            rw [hpe] at hle
            omega
          · rw [hDne p hpe]; exact hle
    · intro v hvs1 hv
      change (st.distance.set e.1 _).getD v INT_MAX ≠ INT_MAX at hv
      show ∃ p, (st.predecessor.set e.1 _).getD v none = some p
      by_cases hve : v = e.1
      · rw [hve]; exact ⟨u, hPv⟩
      · rw [hDne v hve] at hv
        rw [hPne v hve]
        exact h.predSome v hvs1 hv
  · rw [bfRelaxExact_skip hc]; exact h

theorem bfPassesExact_inv {g : Graph} (hw : g.WellFormed) (hp : g.PositiveWeights) {s : Nat}
    (k : Nat) : ∀ st : BState, BFInv g s st → BFInv g s (bfPassesExact g k st) := by
  have hfold : ∀ (u : Nat) (es : List (Nat × Int)), (∀ e ∈ es, e ∈ g.edgesOf u) →
      ∀ st : BState, BFInv g s st → BFInv g s (es.foldl (bfRelaxExact u) st) := by
    intro u es
    induction es with
    | nil => intro _ st h; exact h
    | cons e es ih =>
      intro hes st h
      exact ih (fun x hx => hes x (List.mem_cons_of_mem _ hx)) _
        (bfRelaxExact_inv hw hp (hes e (List.mem_cons_self _ _)) h)
  have hpass : ∀ st : BState, BFInv g s st → BFInv g s (bfPassExact g st) := by
    intro st h
    unfold bfPassExact
    generalize List.range g.size = us
    induction us generalizing st with
    | nil => exact h
    | cons u us ih => exact ih _ (hfold u _ (fun _ hx => hx) st h)
  induction k with
  | zero => intro st h; exact h
  | succ k ih => intro st h; exact ih _ (hpass st h)

theorem bfInit_inv (g : Graph) {s : Nat} (hs : s < g.size) : BFInv g s (bfInit g s) := by
  have hself := bfInit_self g hs
  have hD : ∀ v, (bfInit g s).distance.getD v INT_MAX ≠ INT_MAX → v = s := by
    intro v hv
    by_contra hvs
    apply hv
    show ((List.replicate g.size INT_MAX).set s 0).getD v INT_MAX = INT_MAX
    rw [getD_set_ne _ _ _ (Ne.symm hvs), List.getD_eq_getElem?_getD, List.getElem?_replicate]
    split <;> rfl
  have hP : ∀ v, (bfInit g s).predecessor.getD v none = none := by
    intro v
    show (List.replicate g.size none).getD v none = none
    rw [List.getD_eq_getElem?_getD, List.getElem?_replicate]
    split <;> rfl
  exact
    { dlen := by simp [bfInit]
      plen := by simp [bfInit]
      dist_s := hself.dist_s
      pred_s := hself.pred_s
      nonneg := hself.nonneg
      le_max := by
        intro v
        by_cases hv : (bfInit g s).distance.getD v INT_MAX = INT_MAX
        · rw [hv]
        · rw [hD v hv, hself.dist_s]; decide
      sound := by
        intro v hv
        have := hD v hv
        subst this
        rw [hself.dist_s]
        exact Walk.nil v
      predOK := by
        intro v u hvu
        rw [hP v] at hvu
        exact absurd hvu (by simp)
      predSome := by
        intro v hvs hv
        exact absurd (hD v hv) hvs }

/-! ## A shortest walk with few edges -/

theorem dijkstraWalk_length (prev : List (Option Nat)) (dist : List (Option Int)) (fuel : Nat) :
    ∀ (a : Nat) (path : List Nat) (len : Int) (out : List Nat) (l : Int),
      dijkstraWalk prev dist fuel a path len = some (out, l) →
      out.length ≤ path.length + fuel := by
  induction fuel with
  | zero =>
    intro a path len out l h
    unfold dijkstraWalk at h
    exact absurd h (by simp)
  | succ fuel ih =>
    intro a path len out l h
    unfold dijkstraWalk at h
    split at h
    · simp only [Option.some.injEq, Prod.mk.injEq] at h
      rw [← h.1]
      simp only [List.length_append, List.length_singleton]
      omega
    · have := ih _ _ _ _ _ h
      simp only [List.length_append, List.length_singleton] at this
      omega

theorem dijkstra_ok_length {g : Graph} {tie : Nat → Nat} {s t : Nat} {path : List Nat}
    {W : Int} (h : g.shortestPathDijkstra tie s t = Outcome.ok path W) :
    path.length ≤ g.size := by
  unfold Graph.shortestPathDijkstra at h
  split at h
  · exact absurd h (by simp)
  · split at h
    · exact absurd h (by simp)
    · split at h
      · exact absurd h (by simp)
      · next out l hwalk =>
        simp only [Outcome.ok.injEq] at h
        have := dijkstraWalk_length _ _ _ _ _ _ _ _ hwalk
        rw [← h.1, List.length_reverse]
        simpa using this

theorem cheapest_mem {g : Graph} {u v : Nat} {w : Int} (h : cheapest g u v = some w) :
    (v, w) ∈ g.edgesOf u := by
  unfold cheapest at h
  have hmem := List.min?_mem (fun a b => min_choice a b) h
  simp only [List.mem_map, List.mem_filter, beq_iff_eq] at hmem
  obtain ⟨e, ⟨he, hev⟩, hew⟩ := hmem
  rw [← hev, ← hew]
  exact he

theorem walkN_cons {g : Graph} {a b : Nat} {w : Int} (hedge : (b, w) ∈ g.edgesOf a)
    {k t : Nat} {r : Int} (h : WalkN g b k t r) : WalkN g a (k + 1) t (w + r) := by
  induction h with
  | nil =>
    have h1 : WalkN g a (0 + 1) b (0 + w) := WalkN.snoc WalkN.nil hedge
    have heq : (0 : Int) + w = w + 0 := by omega
    rw [heq] at h1
    exact h1
  | @snoc k1 u1 v1 d1 w1 _ he ih =>
    have h1 := WalkN.snoc ih he
    have heq : w + d1 + w1 = w + (d1 + w1) := by omega
    rw [heq] at h1
    exact h1

theorem walkN_of_path {g : Graph} {t : Nat} (rest : List Nat) :
    ∀ (a : Nat) (W : Int), pathWeight g (a :: rest) = some W →
      (a :: rest).getLast? = some t → WalkN g a rest.length t W := by
  induction rest with
  | nil =>
    intro a W hW hlast
    simp only [pathWeight, Option.some.injEq] at hW
    simp only [List.getLast?_singleton, Option.some.injEq] at hlast
    rw [← hW, ← hlast]
    exact WalkN.nil
  | cons b rest ih =>
    intro a W hW hlast
    unfold pathWeight at hW
    cases hc : cheapest g a b with
    | none => rw [hc] at hW; exact absurd hW (by simp)
    | some w =>
      cases hr : pathWeight g (b :: rest) with
      | none => rw [hc, hr] at hW; exact absurd hW (by simp)
      | some r =>
        rw [hc, hr] at hW
        simp only [Option.some.injEq] at hW
        rw [List.getLast?_cons_cons] at hlast
        rw [← hW]
        exact walkN_cons (cheapest_mem hc) (ih b r hr hlast)

theorem walk_of_walkN {g : Graph} {s k v : Nat} {d : Int} (h : WalkN g s k v d) :
    Walk g s v d := by
  induction h with
  | nil => exact Walk.nil s
  | snoc _ he ih => exact Walk.snoc ih he

theorem exists_short_shortest_walk {g : Graph} (hw : g.WellFormed) (hp : g.PositiveWeights)
    {s t : Nat} (hs : s < g.size) (hne : s ≠ t) (hr : Reachable g s t) :
    ∃ k W, k + 1 ≤ g.size ∧ WalkN g s k t W ∧ ∀ d1, Walk g s t d1 → W ≤ d1 := by
  rcases dijkstra_outcome hw hp (fun _ => 0) hs hne with
    ⟨hnr, _⟩ | ⟨path, W, hok, _, hmin, hhead, hlast, _, hweight⟩
  · exact absurd hr hnr
  · have hlen := dijkstra_ok_length hok
    cases path with
    | nil => simp at hhead
    | cons a rest =>
      simp only [List.head?_cons, Option.some.injEq] at hhead
      subst hhead
      refine ⟨rest.length, W, ?_, walkN_of_path rest a W hweight hlast, hmin⟩
      simpa using hlen

theorem bellmanFord_final_distance {g : Graph} (hw : g.WellFormed) (hp : g.PositiveWeights)
    {s t : Nat} (hs : s < g.size) (hne : s ≠ t) {d : Int} (hd : Walk g s t d)
    (hmax : d < INT_MAX) :
    ∃ W, (bfPassesExact g (g.size - 1) (bfInit g s)).distance.getD t INT_MAX = W ∧ W < INT_MAX ∧
      Walk g s t W ∧ ∀ d1, Walk g s t d1 → W ≤ d1 := by
  obtain ⟨k, W, hk, hwalkN, hmin⟩ := exists_short_shortest_walk hw hp hs hne ⟨d, hd⟩
  have hWmax : W < INT_MAX := lt_of_le_of_lt (hmin d hd) hmax
  have hbound := bfPassesExact_bound hw hp (g.size - 1) 0 (bfInit g s) (bfInit_inv g hs).dlen
    (bfInit_bound g hs)
  have hle := hbound k (by omega) t W hwalkN hWmax
  have hinv := bfPassesExact_inv hw hp (g.size - 1) (bfInit g s) (bfInit_inv g hs)
  have hfin : (bfPassesExact g (g.size - 1) (bfInit g s)).distance.getD t INT_MAX ≠ INT_MAX := by
    omega
  have hge := hmin _ (hinv.sound t hfin)
  refine ⟨W, by omega, hWmax, walk_of_walkN hwalkN, hmin⟩

/-! ## The passes of the source and the passes without overflow -/

theorem trail_simplePath {g : Graph} {s v : Nat} {distance : List Int} {p : List Nat} {d : Int}
    (h : Trail g s distance v p d) : SimplePath g s v p d := by
  induction h with
  | nil => exact SimplePath.nil
  | snoc _ he hn _ ih => exact SimplePath.snoc ih he hn

theorem trail_mono {g : Graph} {s : Nat} {d1 d2 : List Int}
    (hle : ∀ x, d2.getD x INT_MAX ≤ d1.getD x INT_MAX) {v : Nat} {p : List Nat} {d : Int}
    (h : Trail g s d1 v p d) : Trail g s d2 v p d := by
  induction h with
  | nil => exact Trail.nil
  | snoc _ he hn hd ih => exact Trail.snoc ih he hn (le_trans (hle _) hd)

theorem trail_mem_le {g : Graph} (hp : g.PositiveWeights) {s : Nat} {distance : List Int}
    (hs : distance.getD s INT_MAX ≤ 0) {v : Nat} {p : List Nat} {d : Int}
    (h : Trail g s distance v p d) : ∀ x ∈ p, distance.getD x INT_MAX ≤ d := by
  induction h with
  | nil =>
    intro x hx
    rw [List.mem_singleton.1 hx]
    exact hs
  | @snoc u v p d w _ he _ hd ih =>
    intro x hx
    have hw : 0 < w := edgesOf_pos hp he
    rcases List.mem_cons.1 hx with h1 | h1
    · rw [h1]; exact hd
    · have := ih x h1
      omega

theorem bfRelaxExact_trail {g : Graph} (hw : g.WellFormed) (hp : g.PositiveWeights)
    {s u : Nat} {st : BState} {e : Nat × Int} (he : e ∈ g.edgesOf u) (hinv : BFInv g s st)
    (ht : BFTrail g s st) : BFTrail g s (bfRelaxExact u st e) := by
  by_cases hc : st.distance.getD u INT_MAX ≠ INT_MAX ∧
      st.distance.getD u INT_MAX + e.2 < st.distance.getD e.1 INT_MAX
  · have hle : ∀ x, (bfRelaxExact u st e).distance.getD x INT_MAX ≤ st.distance.getD x INT_MAX :=
      bfRelaxExact_le u st e
    have hval : (bfRelaxExact u st e).distance.getD e.1 INT_MAX =
        st.distance.getD u INT_MAX + e.2 := by
      rw [bfRelaxExact_fire hc]
      exact getD_set_eq _ _ _ (by rw [hinv.dlen]; exact edgesOf_lt hw he)
    have hother : ∀ x, x ≠ e.1 →
        (bfRelaxExact u st e).distance.getD x INT_MAX = st.distance.getD x INT_MAX := by
      intro x hx
      rw [bfRelaxExact_fire hc]
      exact getD_set_ne _ _ _ (Ne.symm hx)
    intro v hv
    by_cases hve : v = e.1
    · obtain ⟨p, hp1⟩ := ht u hc.1
      have hnotin : e.1 ∉ p := by
        intro hin
        have h1 := trail_mem_le hp (le_of_eq hinv.dist_s) hp1 e.1 hin
        have h2 := edgesOf_pos hp he
        omega
      refine ⟨e.1 :: p, ?_⟩
      rw [hve, hval]
      exact Trail.snoc (w := e.2) (trail_mono hle hp1) he hnotin (le_of_eq hval)
    · rw [hother v hve] at hv
      obtain ⟨p, hp1⟩ := ht v hv
      refine ⟨p, ?_⟩
      rw [hother v hve]
      exact trail_mono hle hp1
  · rw [bfRelaxExact_skip hc]
    exact ht

theorem bfRelax_eq_exact {g : Graph} (hp : g.PositiveWeights) {s : Nat} (hfit : g.SumsFit s)
    {u : Nat} {st : BState} {e : Nat × Int} (he : e ∈ g.edgesOf u) (hinv : BFInv g s st)
    (ht : BFTrail g s st) : bfRelax u st e = bfRelaxExact u st e := by
  by_cases hu : st.distance.getD u INT_MAX = INT_MAX
  · unfold bfRelax bfRelaxExact
    rw [if_neg (fun h => h.1 hu), if_neg (fun h => h.1 hu)]
  · obtain ⟨p, hp1⟩ := ht u hu
    have h1 := hfit u p _ (trail_simplePath hp1) e he
    have h2 := hinv.nonneg u
    have h3 := edgesOf_pos hp he
    have hwrap : wrapInt (st.distance.getD u INT_MAX + e.2) =
        st.distance.getD u INT_MAX + e.2 := wrapInt_of_range (by omega) h1
    unfold bfRelax bfRelaxExact
    rw [hwrap]

theorem foldl_bfRelax_eq_exact {g : Graph} (hw : g.WellFormed) (hp : g.PositiveWeights)
    {s : Nat} (hfit : g.SumsFit s) {u : Nat} (es : List (Nat × Int))
    (hes : ∀ e ∈ es, e ∈ g.edgesOf u) :
    ∀ st : BState, BFInv g s st → BFTrail g s st →
      es.foldl (bfRelax u) st = es.foldl (bfRelaxExact u) st ∧
        BFInv g s (es.foldl (bfRelaxExact u) st) ∧
        BFTrail g s (es.foldl (bfRelaxExact u) st) := by
  induction es with
  | nil => intro st hinv ht; exact ⟨rfl, hinv, ht⟩
  | cons e es ih =>
    intro st hinv ht
    have he := hes e (List.mem_cons_self _ _)
    rw [List.foldl_cons, List.foldl_cons, bfRelax_eq_exact hp hfit he hinv ht]
    exact ih (fun x hx => hes x (List.mem_cons_of_mem _ hx)) _
      (bfRelaxExact_inv hw hp he hinv) (bfRelaxExact_trail hw hp he hinv ht)

theorem foldl_pass_eq_exact {g : Graph} (hw : g.WellFormed) (hp : g.PositiveWeights)
    {s : Nat} (hfit : g.SumsFit s) (us : List Nat) :
    ∀ st : BState, BFInv g s st → BFTrail g s st →
      us.foldl (fun s u => (g.edgesOf u).foldl (bfRelax u) s) st =
          us.foldl (fun s u => (g.edgesOf u).foldl (bfRelaxExact u) s) st ∧
        BFInv g s (us.foldl (fun s u => (g.edgesOf u).foldl (bfRelaxExact u) s) st) ∧
        BFTrail g s (us.foldl (fun s u => (g.edgesOf u).foldl (bfRelaxExact u) s) st) := by
  induction us with
  | nil => intro st hinv ht; exact ⟨rfl, hinv, ht⟩
  | cons u us ih =>
    intro st hinv ht
    obtain ⟨h1, h2, h3⟩ := foldl_bfRelax_eq_exact hw hp hfit (g.edgesOf u) (fun _ hx => hx) st hinv ht
    rw [List.foldl_cons, List.foldl_cons, h1]
    exact ih _ h2 h3

theorem bfPasses_eq_exact {g : Graph} (hw : g.WellFormed) (hp : g.PositiveWeights)
    {s : Nat} (hfit : g.SumsFit s) (k : Nat) :
    ∀ st : BState, BFInv g s st → BFTrail g s st →
      bfPasses g k st = bfPassesExact g k st := by
  induction k with
  | zero => intro st _ _; rfl
  | succ k ih =>
    intro st hinv ht
    obtain ⟨h1, h2, h3⟩ := foldl_pass_eq_exact hw hp hfit (List.range g.size) st hinv ht
    show bfPasses g k (bfPass g st) = bfPassesExact g k (bfPassExact g st)
    have hpass : bfPass g st = bfPassExact g st := h1
    rw [hpass]
    exact ih _ h2 h3

theorem bfInit_trail (g : Graph) {s : Nat} (hs : s < g.size) : BFTrail g s (bfInit g s) := by
  intro v hv
  have hvs : v = s := by
    by_contra hne
    apply hv
    show ((List.replicate g.size INT_MAX).set s 0).getD v INT_MAX = INT_MAX
    rw [getD_set_ne _ _ _ (Ne.symm hne), List.getD_eq_getElem?_getD, List.getElem?_replicate]
    split <;> rfl
  refine ⟨[s], ?_⟩
  rw [hvs, (bfInit_self g hs).dist_s]
  exact Trail.nil

theorem bfPasses_init_eq_exact {g : Graph} (hw : g.WellFormed) (hp : g.PositiveWeights)
    {s : Nat} (hs : s < g.size) (hfit : g.SumsFit s) (k : Nat) :
    bfPasses g k (bfInit g s) = bfPassesExact g k (bfInit g s) :=
  bfPasses_eq_exact hw hp hfit k _ (bfInit_inv g hs) (bfInit_trail g hs)

theorem simplePath_bound {g : Graph} (hw : g.WellFormed) {s : Nat} (hs : s < g.size) {m : Int}
    (hm : g.WeightsAtMost m) {v : Nat} {p : List Nat} {d : Int} (h : SimplePath g s v p d) :
    p.Nodup ∧ (∀ x ∈ p, x < g.size) ∧ d + m ≤ (p.length : Int) * m := by
  induction h with
  | nil =>
    refine ⟨List.nodup_singleton s, ?_, ?_⟩
    · intro x hx
      rw [List.mem_singleton.1 hx]
      exact hs
    · simp
  | @snoc u v p d w _ he hn ih =>
    obtain ⟨h1, h2, h3⟩ := ih
    have hwm : w ≤ m := by
      obtain ⟨x, hx, hex⟩ := edgesOf_mem he
      exact hm x hx _ hex
    refine ⟨List.nodup_cons.2 ⟨hn, h1⟩, ?_, ?_⟩
    · intro x hx
      rcases List.mem_cons.1 hx with hx | hx
      · rw [hx]; exact edgesOf_lt hw he
      · exact h2 x hx
    · have hlen : (((v :: p).length : Nat) : Int) * m = (p.length : Int) * m + m := by
        simp only [List.length_cons]
        push_cast
        ring
      rw [hlen]
      omega

theorem sumsFit_of_bound {g : Graph} (hw : g.WellFormed) {s : Nat} (hs : s < g.size) {m : Int}
    (hm0 : 0 ≤ m) (hm : g.WeightsAtMost m) (hsz : (g.size : Int) * m ≤ INT_MAX) :
    g.SumsFit s := by
  intro u p d hpath e he
  obtain ⟨h1, h2, h3⟩ := simplePath_bound hw hs hm hpath
  have hem : e.2 ≤ m := by
    obtain ⟨x, hx, hex⟩ := edgesOf_mem he
    exact hm x hx _ hex
  have hlen : p.length ≤ g.size := length_le_of_nodup_lt h1 h2
  have hmul : (p.length : Int) * m ≤ (g.size : Int) * m :=
    mul_le_mul_of_nonneg_right (by exact_mod_cast hlen) hm0
  omega

/-! ## Reconstruction of the path by the relaxation search -/

theorem getD_ne_default_lt {α : Type} {l : List α} {v : Nat} {d : α} (h : l.getD v d ≠ d) :
    v < l.length := by
  by_contra hv
  apply h
  rw [List.getD_eq_getElem?_getD, List.getElem?_eq_none (by omega)]
  rfl

theorem bf_opt_prev {g : Graph} (hp : g.PositiveWeights) {s : Nat} {st : BState}
    (hinv : BFInv g s st) {a p : Nat}
    (hopt : ∀ d1, Walk g s a d1 → st.distance.getD a INT_MAX ≤ d1)
    (hprev : st.predecessor.getD a none = some p) :
    ∃ w, (a, w) ∈ g.edgesOf p ∧ 0 < w ∧ st.distance.getD p INT_MAX ≠ INT_MAX ∧
      st.distance.getD a INT_MAX = st.distance.getD p INT_MAX + w ∧
      (∀ d1, Walk g s p d1 → st.distance.getD p INT_MAX ≤ d1) ∧ cheapest g p a = some w := by
  obtain ⟨w, hedge, hpfin, _, hle⟩ := hinv.predOK a p hprev
  have hwalk := hinv.sound p hpfin
  have h1 := hopt _ (Walk.snoc hwalk hedge)
  refine ⟨w, hedge, edgesOf_pos hp hedge, hpfin, by omega, ?_, ?_⟩
  · intro d1 hw1
    have := hopt _ (Walk.snoc hw1 hedge)
    omega
  · unfold cheapest
    apply min?_eq_some_of_least
    · simp only [List.mem_map, List.mem_filter, beq_iff_eq]
      exact ⟨(a, w), ⟨hedge, rfl⟩, rfl⟩
    · intro b hb
      simp only [List.mem_map, List.mem_filter, beq_iff_eq] at hb
      obtain ⟨e, ⟨he, hea⟩, rfl⟩ := hb
      have hmem : (a, e.2) ∈ g.edgesOf p := by rw [← hea]; exact he
      have := hopt _ (Walk.snoc hwalk hmem)
      omega

theorem bfWalk_spec {g : Graph} (hp : g.PositiveWeights) {s t : Nat} {st : BState}
    (hinv : BFInv g s st) (fuel : Nat) :
    ∀ (a : Nat) (path : List Nat),
      st.distance.getD a INT_MAX ≠ INT_MAX →
      (∀ d1, Walk g s a d1 → st.distance.getD a INT_MAX ≤ d1) →
      path.Nodup →
      (∀ x ∈ path, st.distance.getD x INT_MAX ≠ INT_MAX ∧
        st.distance.getD a INT_MAX < st.distance.getD x INT_MAX) →
      g.size ≤ fuel + path.length →
      List.Chain' (HasEdge g) (a :: path.reverse) →
      pathWeight g (a :: path.reverse) =
        some (st.distance.getD t INT_MAX - st.distance.getD a INT_MAX) →
      (a :: path.reverse).getLast? = some t →
      ∃ out, bfWalk st.predecessor fuel a path = some out ∧
        out.reverse.head? = some s ∧ out.reverse.getLast? = some t ∧
        List.Chain' (HasEdge g) out.reverse ∧
        pathWeight g out.reverse = some (st.distance.getD t INT_MAX) := by
  induction fuel with
  | zero =>
    intro a path hfin _ hnd hgt hfuel _ _ _
    exfalso
    have hnd1 : (a :: path).Nodup := by
      refine List.nodup_cons.2 ⟨?_, hnd⟩
      intro hin
      have := (hgt a hin).2
      omega
    have hall : ∀ x ∈ a :: path, x < g.size := by
      intro x hx
      rw [← hinv.dlen]
      rcases List.mem_cons.1 hx with hx | hx
      · rw [hx]; exact getD_ne_default_lt hfin
      · exact getD_ne_default_lt (hgt x hx).1
    have := length_le_of_nodup_lt hnd1 hall
    simp only [List.length_cons] at this
    omega
  | succ fuel ih =>
    intro a path hfin hopt hnd hgt hfuel hchain hweight hlast
    unfold bfWalk
    have hrev : (path ++ [a]).reverse = a :: path.reverse := by simp
    cases hprev : st.predecessor.getD a none with
    | none =>
      have has : a = s := by
        by_contra hne
        obtain ⟨u, hu⟩ := hinv.predSome a hne hfin
        rw [hprev] at hu
        exact absurd hu (by simp)
      subst has
      refine ⟨path ++ [a], rfl, ?_, ?_, ?_, ?_⟩
      · rw [hrev]; rfl
      · rw [hrev]; exact hlast
      · rw [hrev]; exact hchain
      · rw [hrev, hweight, hinv.dist_s]
        congr 1
        omega
    | some p =>
      obtain ⟨w, hedge, hwpos, hpfin, heq, hoptp, hcheap⟩ := bf_opt_prev hp hinv hopt hprev
      simp only
      apply ih p (path ++ [a]) hpfin hoptp
      · refine List.Nodup.append hnd (List.nodup_singleton _) ?_
        intro x hx1 hx2
        rw [List.mem_singleton.1 hx2] at hx1
        have := (hgt a hx1).2
        omega
      · intro x hx
        rcases List.mem_append.1 hx with hx | hx
        · have := hgt x hx
          exact ⟨this.1, by omega⟩
        · rw [List.mem_singleton.1 hx]
          exact ⟨hfin, by omega⟩
      · simp only [List.length_append, List.length_singleton]
        omega
      · rw [hrev]
        exact List.Chain'.cons ⟨w, hedge⟩ hchain
      · rw [hrev]
        unfold pathWeight
        rw [hcheap, hweight]
        simp only [Option.some.injEq]
        omega
      · rw [hrev, List.getLast?_cons_cons]
        exact hlast

theorem bellmanFord_outcome {g : Graph} (hw : g.WellFormed) (hp : g.PositiveWeights)
    {s t : Nat} (hs : s < g.size) (hne : s ≠ t) {d : Int} (hd : Walk g s t d)
    (hmax : d < INT_MAX) (hfit : g.SumsFit s) :
    ∃ path W,
      g.shortestPathBellmanFord s t = Outcome.ok path (wrapInt (firstEdgeSum g path)) ∧
      path.head? = some s ∧ path.getLast? = some t ∧ List.Chain' (HasEdge g) path ∧
      pathWeight g path = some W ∧ Walk g s t W ∧ (∀ d1, Walk g s t d1 → W ≤ d1) ∧
      (bfPasses g (g.size - 1) (bfInit g s)).distance.getD t INT_MAX = W := by
  obtain ⟨W, hW, hWmax, hwalk, hmin⟩ := bellmanFord_final_distance hw hp hs hne hd hmax
  have hinv := bfPassesExact_inv hw hp (g.size - 1) (bfInit g s) (bfInit_inv g hs)
  unfold Graph.shortestPathBellmanFord
  rw [bfPasses_init_eq_exact hw hp hs hfit]
  generalize bfPassesExact g (g.size - 1) (bfInit g s) = st at hW hinv
  have hfin : st.distance.getD t INT_MAX ≠ INT_MAX := by omega
  obtain ⟨out, hout, hhead, hlast, hchain, hweight⟩ :=
    bfWalk_spec (t := t) hp hinv g.size t [] hfin (by rw [hW]; exact hmin) List.nodup_nil
      (fun x hx => absurd hx (List.not_mem_nil _)) (by simp) (by simp)
      (by simp [pathWeight]) rfl
  rw [hout]
  have hpath : bfPath s out = out.reverse := by
    unfold bfPath
    rw [if_neg]
    intro hc
    exact hc.2 hhead
  have hnil : out.reverse ≠ [] := by
    intro h0
    rw [h0] at hhead
    simp at hhead
  refine ⟨out.reverse, W, ?_, hhead, hlast, hchain, ?_, hwalk, hmin, hW⟩
  · show bfFinish g (bfPath s out) = _
    rw [hpath, bfFinish_of_ne_nil g hnil]
  · rw [hweight, hW]

/-! ## Claims about the relaxation search -/

/-- C6, as stated, fails on the graph with the edges 0→1 of weight `INT_MAX - 1` and 1→0
of weight 2: in the single pass `distance[1]` becomes 2147483646, the `int` sum
`2147483646 + 2` wraps around to -2147483648, which is below `distance[0] = 0`, so vertex 0
gets the predecessor 1.  The walk along the predecessors from 0 then alternates between 0
and 1 and never arrives at a vertex without predecessor, whatever the number of steps
allowed, and the search from 0 to 0 does not return. -/
theorem bellmanFord_self_never_returns :
    (Graph.build 2 [(0, 1, 2147483646), (1, 0, 2)]).WellFormed ∧
    (Graph.build 2 [(0, 1, 2147483646), (1, 0, 2)]).PositiveWeights ∧
    bfPasses (Graph.build 2 [(0, 1, 2147483646), (1, 0, 2)]) (2 - 1)
        (bfInit (Graph.build 2 [(0, 1, 2147483646), (1, 0, 2)]) 0) =
      { distance := [-2147483648, 2147483646], predecessor := [some 1, some 0] } ∧
    (∀ fuel path, bfWalk [some 1, some 0] fuel 0 path = none) ∧
    (Graph.build 2 [(0, 1, 2147483646), (1, 0, 2)]).shortestPathBellmanFord 0 0 =
      Outcome.diverges := by
  refine ⟨by decide, by decide, by decide, ?_, by decide⟩
  have key : ∀ fuel path, bfWalk [some 1, some 0] fuel 0 path = none ∧
      bfWalk [some 1, some 0] fuel 1 path = none := by
    intro fuel
    induction fuel with
    | zero => intro path; exact ⟨rfl, rfl⟩
    | succ n ih => intro path; exact ⟨(ih (path ++ [0])).2, (ih (path ++ [1])).1⟩
  exact fun fuel path => (key fuel path).1

/-- C6, amended: on a well-formed graph with positive weights in which the sums formed by a
search from `s` fit into an `int`, the relaxation search from a valid vertex `s` to itself
returns the path `[s]` with total weight 0. -/
theorem bellmanFord_self (g : Graph) (s : Nat) (hw : g.WellFormed) (hp : g.PositiveWeights)
    (hs : s < g.size) (hfit : g.SumsFit s) :
    g.shortestPathBellmanFord s s = Outcome.ok [s] 0 := by
  have h := bfPassesExact_self hp (g.size - 1) _ (bfInit_self g hs)
  obtain ⟨n, hn⟩ : ∃ n, g.size = n + 1 := ⟨g.size - 1, by omega⟩
  unfold Graph.shortestPathBellmanFord
  rw [bfPasses_init_eq_exact hw hp hs hfit]
  generalize bfPassesExact g (g.size - 1) (bfInit g s) = st at h
  have hwalk : bfWalk st.predecessor g.size s [] = some [s] := by
    rw [hn, bfWalk, h.pred_s]; rfl
  have hpath : bfPath s [s] = [s] := by simp [bfPath]
  rw [hwalk]
  show bfFinish g (bfPath s [s]) = Outcome.ok [s] 0
  rw [hpath, bfFinish, sizeMinusOne_singleton]
  rfl

/-- Witness for C6 on the scenario graph, vertex 2: no weight exceeds 5 and there are 4
vertices. -/
theorem bellmanFord_self_witness :
    scenarioGraph.shortestPathBellmanFord 2 2 = Outcome.ok [2] 0 :=
  bellmanFord_self scenarioGraph 2 (by decide) (by decide) (by decide)
    (sumsFit_of_bound (m := 5) (by decide) (by decide) (by decide) (by decide) (by decide))

/-- C11, as stated, fails in two ways.  On the graph with the single edge 0→1 of weight
`INT_MAX` vertex 1 is reachable from 0, but `0 + INT_MAX < INT_MAX` is false, so
`distance[1]` keeps the value `INT_MAX` that marks a vertex without distance and no path
from 0 to 1 is returned.  On the graph with the edges 0→1 of weight 1, 0→2 of weight
`INT_MAX - 1` and 2→1 of weight 2 the `int` sum `2147483646 + 2` wraps around to
-2147483648, which is below `distance[1] = 1`, so the path `[0, 2, 1]` is returned, whose
edge weights sum to 2147483648, although the walk 0→1 has weight 1. -/
theorem bellmanFord_misses_shortest_path :
    ((Graph.build 2 [(0, 1, 2147483647)]).WellFormed ∧
      (Graph.build 2 [(0, 1, 2147483647)]).PositiveWeights ∧
      Reachable (Graph.build 2 [(0, 1, 2147483647)]) 0 1 ∧
      (Graph.build 2 [(0, 1, 2147483647)]).shortestPathBellmanFord 0 1 = Outcome.outOfRange) ∧
    ((Graph.build 3 [(0, 1, 1), (0, 2, 2147483646), (2, 1, 2)]).WellFormed ∧
      (Graph.build 3 [(0, 1, 1), (0, 2, 2147483646), (2, 1, 2)]).PositiveWeights ∧
      Walk (Graph.build 3 [(0, 1, 1), (0, 2, 2147483646), (2, 1, 2)]) 0 1 (0 + 1) ∧
      (Graph.build 3 [(0, 1, 1), (0, 2, 2147483646), (2, 1, 2)]).shortestPathBellmanFord 0 1 =
        Outcome.ok [0, 2, 1] (-2147483648) ∧
      pathWeight (Graph.build 3 [(0, 1, 1), (0, 2, 2147483646), (2, 1, 2)]) [0, 2, 1] =
        some 2147483648) :=
  ⟨⟨by decide, by decide, ⟨0 + 2147483647, Walk.snoc (u := 0) (Walk.nil 0) (by decide)⟩,
      by decide⟩,
    ⟨by decide, by decide, Walk.snoc (u := 0) (Walk.nil 0) (by decide), by decide, by decide⟩⟩

/-- C11, amended: on a well-formed graph with positive weights in which the sums formed by
a search from `start` fit into an `int`, for valid `start ≠ end` such that some walk from
`start` to `end` has total weight below `INT_MAX`, `shortestPathBellmanFord` returns a
vertex sequence that begins with `start`, ends with `end`, joins every two consecutive
vertices by an edge of the graph, and whose sum of least edge weights between consecutive
vertices is the least total weight of a walk from `start` to `end`. -/
theorem bellmanFord_shortest_path (g : Graph) (start end_ : Nat) (d : Int)
    (hw : g.WellFormed) (hp : g.PositiveWeights)
    (hs : start < g.size) (_ht : end_ < g.size) (hne : start ≠ end_)
    (hwalk : Walk g start end_ d) (hmax : d < INT_MAX) (hfit : g.SumsFit start) :
    ∃ path pathLength W, g.shortestPathBellmanFord start end_ = Outcome.ok path pathLength ∧
      path.head? = some start ∧ path.getLast? = some end_ ∧
      List.Chain' (fun u v => ∃ w, (v, w) ∈ g.edgesOf u) path ∧
      pathWeight g path = some W ∧ Walk g start end_ W ∧
      ∀ d1, Walk g start end_ d1 → W ≤ d1 := by
  obtain ⟨path, W, hok, h1, h2, h3, h4, h5, h6, _⟩ :=
    bellmanFord_outcome hw hp hs hne hwalk hmax hfit
  exact ⟨path, _, W, hok, h1, h2, h3, h4, h5, h6⟩

/-- Witness for C11: the concrete scenario, searched from 0 to 3. -/
theorem bellmanFord_shortest_path_witness :
    ∃ path pathLength W, scenarioGraph.shortestPathBellmanFord 0 3 = Outcome.ok path pathLength ∧
      path.head? = some 0 ∧ path.getLast? = some 3 ∧
      List.Chain' (fun u v => ∃ w, (v, w) ∈ scenarioGraph.edgesOf u) path ∧
      pathWeight scenarioGraph path = some W ∧ Walk scenarioGraph 0 3 W ∧
      ∀ d1, Walk scenarioGraph 0 3 d1 → W ≤ d1 :=
  bellmanFord_shortest_path scenarioGraph 0 3 (0 + 5 + 1) (by decide) (by decide) (by decide)
    (by decide) (by decide)
    (Walk.snoc (u := 1) (Walk.snoc (u := 0) (Walk.nil 0) (by decide)) (by decide)) (by decide)
    (sumsFit_of_bound (m := 5) (by decide) (by decide) (by decide) (by decide) (by decide))

theorem edgesOf_nodup {g : Graph} (hnp : g.NoParallelEdges) (u : Nat) :
    ((g.edgesOf u).map (fun e => e.1)).Nodup := by
  unfold Graph.edgesOf
  cases hu : g.vertices[u]? with
  | none => exact List.nodup_nil
  | some x => exact hnp x (List.getElem?_mem hu)

theorem firstWeight_of_mem {l : List (Nat × Int)} (hnd : (l.map (fun e => e.1)).Nodup)
    {v : Nat} {w : Int} (hmem : (v, w) ∈ l) : firstWeight l v = w := by
  unfold firstWeight
  cases hfind : l.find? (fun edge => edge.1 == v) with
  | none =>
    exfalso
    have := List.find?_eq_none.1 hfind (v, w) hmem
    simp at this
  | some e =>
    have he1 : e.1 = v := by
      have := List.find?_some hfind
      simpa using this
    have hein : e ∈ l := List.mem_of_find?_eq_some hfind
    have heq : e = (v, w) := List.inj_on_of_nodup_map hnd hein hmem he1
    rw [heq]

theorem firstEdgeSum_eq_pathWeight {g : Graph} (hnp : g.NoParallelEdges) (path : List Nat) :
    ∀ W, pathWeight g path = some W → firstEdgeSum g path = W := by
  induction path with
  | nil => intro W h; simp only [pathWeight, Option.some.injEq] at h; rw [← h]; rfl
  | cons a rest ih =>
    cases rest with
    | nil => intro W h; simp only [pathWeight, Option.some.injEq] at h; rw [← h]; rfl
    | cons b rest =>
      intro W h
      unfold pathWeight at h
      cases hc : cheapest g a b with
      | none => rw [hc] at h; exact absurd h (by simp)
      | some w =>
        cases hr : pathWeight g (b :: rest) with
        | none => rw [hc, hr] at h; exact absurd h (by simp)
        | some r =>
          rw [hc, hr] at h
          simp only [Option.some.injEq] at h
          unfold firstEdgeSum
          rw [firstWeight_of_mem (edgesOf_nodup hnp a) (cheapest_mem hc), ih r hr, h]

/-- C20, as stated, fails in two ways.  The graph with the edges 0→1 of weight
`INT_MAX - 1` and 1→2 of weight 1 has no parallel edges: the priority-queue search returns
weight `INT_MAX` for the pair (0, 2), the relaxation search finds
`INT_MAX - 1 + 1 < INT_MAX` false, leaves `distance[2]` at `INT_MAX` and returns no weight.
The graph with the edges 0→1 of weight 1, 0→2 of weight `INT_MAX - 1` and 2→1 of weight 2
has no parallel edges either: for the pair (0, 1) the priority-queue search returns weight
1, while in the relaxation search the `int` sum `2147483646 + 2` wraps around and the
weight -2147483648 is returned. -/
theorem searches_disagree :
    ((Graph.build 3 [(0, 1, 2147483646), (1, 2, 1)]).WellFormed ∧
      (Graph.build 3 [(0, 1, 2147483646), (1, 2, 1)]).PositiveWeights ∧
      (Graph.build 3 [(0, 1, 2147483646), (1, 2, 1)]).NoParallelEdges ∧
      Reachable (Graph.build 3 [(0, 1, 2147483646), (1, 2, 1)]) 0 2 ∧
      (Graph.build 3 [(0, 1, 2147483646), (1, 2, 1)]).shortestPathDijkstra (fun _ => 0) 0 2 =
        Outcome.ok [0, 1, 2] 2147483647 ∧
      (Graph.build 3 [(0, 1, 2147483646), (1, 2, 1)]).shortestPathBellmanFord 0 2 =
        Outcome.outOfRange) ∧
    ((Graph.build 3 [(0, 1, 1), (0, 2, 2147483646), (2, 1, 2)]).WellFormed ∧
      (Graph.build 3 [(0, 1, 1), (0, 2, 2147483646), (2, 1, 2)]).PositiveWeights ∧
      (Graph.build 3 [(0, 1, 1), (0, 2, 2147483646), (2, 1, 2)]).NoParallelEdges ∧
      Reachable (Graph.build 3 [(0, 1, 1), (0, 2, 2147483646), (2, 1, 2)]) 0 1 ∧
      (Graph.build 3 [(0, 1, 1), (0, 2, 2147483646), (2, 1, 2)]).shortestPathDijkstra
          (fun _ => 0) 0 1 = Outcome.ok [0, 1] 1 ∧
      (Graph.build 3 [(0, 1, 1), (0, 2, 2147483646), (2, 1, 2)]).shortestPathBellmanFord 0 1 =
        Outcome.ok [0, 2, 1] (-2147483648)) :=
  ⟨⟨by decide, by decide, by decide,
      ⟨0 + 2147483646 + 1,
        Walk.snoc (u := 1) (Walk.snoc (u := 0) (Walk.nil 0) (by decide)) (by decide)⟩,
      by decide, by decide⟩,
    ⟨by decide, by decide, by decide,
      ⟨0 + 1, Walk.snoc (u := 0) (Walk.nil 0) (by decide)⟩, by decide, by decide⟩⟩

/-- C20, amended: on a well-formed graph with positive weights and without parallel edges
in which the sums formed by a search from `start` fit into an `int`, for valid
`start ≠ end` such that some walk from `start` to `end` has total weight below `INT_MAX`,
`shortestPathDijkstra` and `shortestPathBellmanFord` return the same total weight, and that
weight is the final `distance[end]` of the relaxation search. -/
theorem searches_agree_without_parallel_edges (g : Graph) (tie : Nat → Nat)
    (start end_ : Nat) (d : Int)
    (hw : g.WellFormed) (hp : g.PositiveWeights) (hnp : g.NoParallelEdges)
    (hs : start < g.size) (_ht : end_ < g.size) (hne : start ≠ end_)
    (hwalk : Walk g start end_ d) (hmax : d < INT_MAX) (hfit : g.SumsFit start) :
    ∃ pathD pathB W, g.shortestPathDijkstra tie start end_ = Outcome.ok pathD W ∧
      g.shortestPathBellmanFord start end_ = Outcome.ok pathB W ∧
      (bfPasses g (g.size - 1) (bfInit g start)).distance.getD end_ INT_MAX = W := by
  obtain ⟨pathB, W, hokB, _, _, _, hweight, hwalkB, hminB, hfinal⟩ :=
    bellmanFord_outcome hw hp hs hne hwalk hmax hfit
  rcases dijkstra_outcome hw hp tie hs hne with
    ⟨hnr, _⟩ | ⟨pathD, WD, hokD, hwalkD, hminD, _⟩
  · exact absurd ⟨d, hwalk⟩ hnr
  · have heq : WD = W := le_antisymm (hminD W hwalkB) (hminB WD hwalkD)
    have h0 := walk_nonneg hp hwalkB
    have hle := hminB d hwalk
    have hwrap : wrapInt W = W := wrapInt_of_range (by omega) (by omega)
    rw [heq, hwrap] at hokD
    rw [firstEdgeSum_eq_pathWeight hnp pathB W hweight, hwrap] at hokB
    exact ⟨pathD, pathB, W, hokD, hokB, hfinal⟩

/-- Witness for C20: the concrete scenario, searched from 0 to 3. -/
theorem searches_agree_without_parallel_edges_witness :
    ∃ pathD pathB W,
      scenarioGraph.shortestPathDijkstra (fun _ => 0) 0 3 = Outcome.ok pathD W ∧
      scenarioGraph.shortestPathBellmanFord 0 3 = Outcome.ok pathB W ∧
      (bfPasses scenarioGraph (scenarioGraph.size - 1) (bfInit scenarioGraph 0)).distance.getD
        3 INT_MAX = W :=
  searches_agree_without_parallel_edges scenarioGraph (fun _ => 0) 0 3 (0 + 5 + 1) (by decide)
    (by decide) (by decide) (by decide) (by decide) (by decide)
    (Walk.snoc (u := 1) (Walk.snoc (u := 0) (Walk.nil 0) (by decide)) (by decide)) (by decide)
    (sumsFit_of_bound (m := 5) (by decide) (by decide) (by decide) (by decide) (by decide))

end ShortestPathfinder
